import Mathlib

/-!
Shallow embedding of the Arc temporal-knowledge-graph engine
(KnowledgeGraphService, CodeParserService, DecisionRecordService and the
SQLite persistence layer) and proofs about it.

Conventions used throughout:
* JavaScript strings are Lean `String`s; the JS string operations used by
  the source (split, trim, toLowerCase, basename/extname) are modelled by
  executable char-list functions below.
* The SHA-256/SHA-1 digests are abstracted as function parameters: the
  proofs that need collision-freeness take an injectivity hypothesis, and
  witnesses instantiate the parameter with an injective concrete function.
* SQLite tables are modelled as Lean lists of rows; `INSERT OR REPLACE`
  deletes every row conflicting on a PRIMARY KEY / UNIQUE constraint and
  appends the fresh row.  Equality of store states is stated per table up
  to permutation, since SQL tables are unordered row collections.
-/

/-- Digest functions (crypto.createHash(...).digest) are abstracted as
string-to-string functions. -/
abbrev HashFn := String → String

/-- Splits a list of characters at every occurrence of the separator,
mirroring the behaviour of JavaScript String.prototype.split with a
single-character separator. -/
def splitCharAux (sep : Char) : List Char → List (List Char)
  | [] => [[]]
  | c :: cs =>
    match splitCharAux sep cs with
    | [] => if c = sep then [[], []] else [[c]]
    | h :: t => if c = sep then [] :: h :: t else (c :: h) :: t

/-- JavaScript s.split(sep) for a one-character separator. -/
def splitChar (sep : Char) (s : String) : List String :=
  (splitCharAux sep s.data).map String.mk

/-- JavaScript s.toLowerCase() restricted to the ASCII range used here. -/
def lowerStr (s : String) : String := String.mk (s.data.map Char.toLower)

/-- JavaScript s.trim(). -/
def trimStr (s : String) : String :=
  String.mk (((s.data.dropWhile Char.isWhitespace).reverse.dropWhile Char.isWhitespace).reverse)

/-- Node path.basename for POSIX paths: strip trailing slashes, then keep
the part after the last slash. -/
def basename (p : String) : String :=
  let cs := p.data.reverse.dropWhile (fun c => c = '/')
  String.mk (cs.takeWhile (fun c => c ≠ '/')).reverse

/-- Node path.extname: the suffix of the basename starting at its last dot,
or the empty string when there is no dot or the only dot starts the name. -/
def extname (p : String) : String :=
  let b := (basename p).data
  let r := b.reverse
  let tail := r.takeWhile (fun c => c ≠ '.')
  if tail.length = r.length then ""
  else if tail.length + 1 = b.length then ""
  else String.mk ('.' :: tail.reverse)

/-! Data model rows (models/types.ts plus the repo_id column that the
commits table stores). -/

/-- A row of the commits table. -/
structure CommitRow where
  commitHash : String
  repoId : String
  message : String
  timestamp : Int
  authorDevId : String
  committerDevId : String
deriving Repr, DecidableEq

/-- A row of the code_elements table. -/
structure CodeElement where
  elementId : String
  repoId : String
  type : String
  stableIdentifier : String
deriving Repr, DecidableEq

/-- A row of the code_element_versions table. -/
structure CodeElementVersion where
  versionId : String
  elementId : String
  commitHash : String
  name : Option String
  startLine : Option Int
  endLine : Option Int
  previousVersionId : Option String
deriving Repr, DecidableEq

/-- A row of the decision_records table. -/
structure DecisionRecord where
  decisionId : String
  repoId : String
  title : String
  content : String
  createdAt : Int
  authorDevId : Option String
deriving Repr, DecidableEq

/-! Deterministic id generation (CodeParserService.generateElementId,
KnowledgeGraphService.generateVersionId,
DecisionRecordService.generateDecisionId). -/

/-- The string fed to sha256 by CodeParserService.generateElementId;
the source signature is (repoId, identifier, type). -/
def elementIdInput (repoId identifier type : String) : String :=
  repoId ++ ":" ++ type ++ ":" ++ identifier

/-- CodeParserService.generateElementId. -/
def generateElementId (hash : HashFn) (repoId identifier type : String) : String :=
  hash (elementIdInput repoId identifier type)

/-- The string fed to sha256 by KnowledgeGraphService.generateVersionId. -/
def versionIdInput (elementId commitHash : String) : String :=
  elementId ++ ":" ++ commitHash

/-- KnowledgeGraphService.generateVersionId. -/
def generateVersionId (hash : HashFn) (elementId commitHash : String) : String :=
  hash (versionIdInput elementId commitHash)

/-- DecisionRecordService.generateDecisionId. -/
def generateDecisionId (hash : HashFn) (repoId title : String) : String :=
  hash (repoId ++ ":decision:" ++ title)

/-- KnowledgeGraphService.getNameFromIdentifier. -/
def getNameFromIdentifier (identifier : String) : String :=
  (splitChar ':' identifier).getLastD ""

/-- KnowledgeGraphService.getFileFromIdentifier. -/
def getFileFromIdentifier (identifier : String) : String :=
  (splitChar ':' identifier).headD ""

/-- KnowledgeGraphService.getLabelFromIdentifier, with the source's cascade
of checks in order. -/
def getLabelFromIdentifier (identifier : String) : String :=
  let parts := splitChar ':' identifier
  if parts.length = 1 then parts.getD 0 ""
  else if 3 ≤ parts.length ∧ parts.getD 1 "" = "class" then parts.getD 2 ""
  else if 3 ≤ parts.length ∧ parts.getD 1 "" = "function" then parts.getD 2 ""
  else if 5 ≤ parts.length ∧ parts.getD 1 "" = "class" ∧ parts.getD 3 "" = "method" then
    parts.getD 2 "" ++ "." ++ parts.getD 4 ""
  else identifier

/-! Structural parser model.  A tree-sitter syntax node is its node type,
the optional child for the field named name (already projected to its
text), and its ordered children. -/

/-- A tree-sitter syntax node as seen by CodeParserService. -/
inductive SyntaxNode where
  | mk (type : String) (nameField : Option String) (children : List SyntaxNode)
deriving Repr

/-- CodeParserService.canParseFile: the extension map has keys
.ts, .tsx, .js and .py. -/
def canParseFile (filePath : String) : Bool :=
  let ext := lowerStr (extname filePath)
  ext = ".ts" || ext = ".tsx" || ext = ".js" || ext = ".py"

/-- The language the supportedExtensions map assigns to a path, if any. -/
def languageOf (filePath : String) : Option String :=
  let ext := lowerStr (extname filePath)
  if ext = ".ts" || ext = ".tsx" || ext = ".js" then some "typescript"
  else if ext = ".py" then some "python"
  else none

mutual

/-- CodeParserService.extractTypeScriptElements.  The source finds the
nearest class_declaration ancestor by walking parent pointers; here that
ancestor's name field is carried down as enclosingClass (none when there is
no class_declaration ancestor, some nm for the nearest one). -/
def extractTypeScriptElements (hash : HashFn) (repoId filePath : String)
    (enclosingClass : Option (Option String)) : SyntaxNode → List CodeElement
  | SyntaxNode.mk t nm cs =>
    let own : List CodeElement :=
      if t = "class_declaration" then
        match nm with
        | some className =>
          let stableIdentifier := basename filePath ++ ":class:" ++ className
          [{ elementId := generateElementId hash repoId stableIdentifier "class",
             repoId := repoId, type := "class", stableIdentifier := stableIdentifier }]
        | none => []
      else if t = "function_declaration" ∨ t = "method_definition" then
        match nm with
        | some functionName =>
          let stableIdentifier :=
            if t = "method_definition" then
              match enclosingClass with
              | some (some className) =>
                basename filePath ++ ":class:" ++ className ++ ":method:" ++ functionName
              | _ => basename filePath ++ ":method:" ++ functionName
            else basename filePath ++ ":function:" ++ functionName
          [{ elementId := generateElementId hash repoId stableIdentifier "function",
             repoId := repoId, type := "function", stableIdentifier := stableIdentifier }]
        | none => []
      else []
    let ctx := if t = "class_declaration" then some nm else enclosingClass
    own ++ extractTypeScriptList hash repoId filePath ctx cs

/-- Recursion of extractTypeScriptElements over the child list. -/
def extractTypeScriptList (hash : HashFn) (repoId filePath : String)
    (enclosingClass : Option (Option String)) : List SyntaxNode → List CodeElement
  | [] => []
  | c :: cs =>
    extractTypeScriptElements hash repoId filePath enclosingClass c ++
      extractTypeScriptList hash repoId filePath enclosingClass cs

end

mutual

/-- CodeParserService.extractPythonElements.  The non-null assertion on the
name of a class_definition ancestor throws when that name is missing; the
thrown TypeError is modelled as none, which parseFile turns into an empty
result via its catch block. -/
def extractPythonElements (hash : HashFn) (repoId filePath : String)
    (enclosingClass : Option (Option String)) : SyntaxNode → Option (List CodeElement)
  | SyntaxNode.mk t nm cs =>
    let own : Option (List CodeElement) :=
      if t = "class_definition" then
        match nm with
        | some className =>
          let stableIdentifier := basename filePath ++ ":class:" ++ className
          some [{ elementId := generateElementId hash repoId stableIdentifier "class",
                  repoId := repoId, type := "class", stableIdentifier := stableIdentifier }]
        | none => some []
      else if t = "function_definition" then
        match nm with
        | some functionName =>
          match enclosingClass with
          | some (some className) =>
            let stableIdentifier :=
              basename filePath ++ ":class:" ++ className ++ ":method:" ++ functionName
            some [{ elementId := generateElementId hash repoId stableIdentifier "function",
                    repoId := repoId, type := "function", stableIdentifier := stableIdentifier }]
          | some none => none
          | none =>
            let stableIdentifier := basename filePath ++ ":function:" ++ functionName
            some [{ elementId := generateElementId hash repoId stableIdentifier "function",
                    repoId := repoId, type := "function", stableIdentifier := stableIdentifier }]
        | none => some []
      else some []
    let ctx := if t = "class_definition" then some nm else enclosingClass
    match own with
    | none => none
    | some o =>
      match extractPythonList hash repoId filePath ctx cs with
      | none => none
      | some rest => some (o ++ rest)

/-- Recursion of extractPythonElements over the child list. -/
def extractPythonList (hash : HashFn) (repoId filePath : String)
    (enclosingClass : Option (Option String)) : List SyntaxNode → Option (List CodeElement)
  | [] => some []
  | c :: cs =>
    match extractPythonElements hash repoId filePath enclosingClass c with
    | none => none
    | some o =>
      match extractPythonList hash repoId filePath enclosingClass cs with
      | none => none
      | some rest => some (o ++ rest)

end

/-- The external world as seen by the engine: file system, git binary and
the tree-sitter parse of a file content.  All components are fixed
functions, reflecting that the environment is read-only during a run. -/
structure WorldEnv where
  readFile : String → Option String
  tree : String → SyntaxNode
  sha1 : String → String
  statSize : String → Option Int
  hasCommit : String → String → Bool
  gitShow : String → String → Option String

/-- CodeParserService.parseFile: read the file (a read failure is caught
and yields []), add the file element (whose id hashes the full filePath
while its stableIdentifier is the basename), then extract class/function
elements by language; a thrown extraction error is caught and yields []. -/
def parseFile (hash : HashFn) (env : WorldEnv) (filePath repoId : String) : List CodeElement :=
  match env.readFile filePath with
  | none => []
  | some content =>
    let root := env.tree content
    let fileElement : CodeElement :=
      { elementId := generateElementId hash repoId filePath "file",
        repoId := repoId, type := "file", stableIdentifier := basename filePath }
    match languageOf filePath with
    | some "typescript" =>
      fileElement :: extractTypeScriptElements hash repoId filePath none root
    | some "python" =>
      match extractPythonElements hash repoId filePath none root with
      | none => []
      | some els => fileElement :: els
    | _ => [fileElement]

/-! The graph store.  Each SQLite table is a list of rows; INSERT OR
REPLACE removes every row conflicting on a key constraint and appends the
new row. -/

/-- The persisted store state (the tables the claims are about). -/
structure Store where
  commits : List CommitRow
  elements : List CodeElement
  versions : List CodeElementVersion
  decisions : List DecisionRecord
  decisionLinks : List (String × String)
  fileHashes : List (String × String × String)
deriving Repr, DecidableEq

/-- The empty database. -/
def emptyStore : Store :=
  { commits := [], elements := [], versions := [], decisions := [],
    decisionLinks := [], fileHashes := [] }

/-- Two code_elements rows conflict when they agree on the element_id
primary key or on the UNIQUE (repo_id, stable_identifier) constraint. -/
def elemConflict (a b : CodeElement) : Bool :=
  a.elementId == b.elementId || (a.repoId == b.repoId && a.stableIdentifier == b.stableIdentifier)

/-- SQLitePersistenceService.saveCodeElement (INSERT OR REPLACE). -/
def saveCodeElement (st : Store) (e : CodeElement) : Store :=
  { st with elements := st.elements.filter (fun x => !elemConflict e x) ++ [e] }

/-- SQLitePersistenceService.saveCodeElementVersion (INSERT OR REPLACE on
the version_id primary key). -/
def saveCodeElementVersion (st : Store) (v : CodeElementVersion) : Store :=
  { st with versions := st.versions.filter (fun x => x.versionId != v.versionId) ++ [v] }

/-- SQLitePersistenceService.linkVersionToPreviousVersion (UPDATE of
previous_version_id by version_id). -/
def linkVersionToPreviousVersion (st : Store) (versionId previousVersionId : String) : Store :=
  { st with versions := st.versions.map (fun v =>
      if v.versionId == versionId then { v with previousVersionId := some previousVersionId } else v) }

/-- SQLitePersistenceService.saveFileHash (INSERT OR REPLACE on the
(repo_id, file_path) primary key). -/
def saveFileHash (st : Store) (repoId filePath fileHash : String) : Store :=
  { st with fileHashes :=
      (st.fileHashes.filter (fun r => !(r.1 == repoId && r.2.1 == filePath)) ++
        [(repoId, filePath, fileHash)]) }

/-- SQLitePersistenceService.saveDecisionRecord (INSERT OR REPLACE on the
decision_id primary key). -/
def saveDecisionRecord (st : Store) (d : DecisionRecord) : Store :=
  { st with decisions := st.decisions.filter (fun x => x.decisionId != d.decisionId) ++ [d] }

/-- SQLitePersistenceService.linkDecisionToCodeVersion (INSERT OR REPLACE
on the (decision_id, version_id) primary key). -/
def linkDecisionToCodeVersion (st : Store) (decisionId versionId : String) : Store :=
  { st with decisionLinks :=
      (st.decisionLinks.filter (fun r => !(r.1 == decisionId && r.2 == versionId)) ++
        [(decisionId, versionId)]) }

/-- SQLitePersistenceService.saveCommit restricted to the columns the
claims read (INSERT OR REPLACE on the commit_hash primary key). -/
def saveCommit (st : Store) (c : CommitRow) : Store :=
  { st with commits := st.commits.filter (fun x => x.commitHash != c.commitHash) ++ [c] }

/-! Read-side queries.  ORDER BY commit_timestamp DESC is modelled by a
stable insertion sort; SQLite does not specify the order of ties, so any
deterministic stable refinement is a faithful model. -/

/-- Stable insertion (descending by an integral key): the inserted element
goes before the first element whose key is not larger. -/
def insertDescBy {α : Type} (key : α → Int) (x : α) : List α → List α
  | [] => [x]
  | y :: ys => if key y ≤ key x then x :: y :: ys else y :: insertDescBy key x ys

/-- Stable sort, descending by an integral key. -/
def sortDescBy {α : Type} (key : α → Int) (l : List α) : List α :=
  l.foldr (insertDescBy key) []

/-- Stable insertion for the JS comparator used by getPreviousVersions:
elements compare by an optional key and keep their order when either key
is missing (the comparator returns 0 there). -/
def insertDescByOpt {α : Type} (key : α → Option Int) (x : α) : List α → List α
  | [] => [x]
  | y :: ys =>
    match key x, key y with
    | some kx, some ky => if kx < ky then y :: insertDescByOpt key x ys else x :: y :: ys
    | _, _ => x :: y :: ys

/-- Stable sort for the optional-key comparator. -/
def sortDescByOpt {α : Type} (key : α → Option Int) (l : List α) : List α :=
  l.foldr (insertDescByOpt key) []

/-- SQLitePersistenceService.getCommit. -/
def getCommit (st : Store) (commitHash : String) : Option CommitRow :=
  st.commits.find? (fun c => c.commitHash == commitHash)

/-- SQLitePersistenceService.getCodeElementVersion. -/
def getCodeElementVersion (st : Store) (versionId : String) : Option CodeElementVersion :=
  st.versions.find? (fun v => v.versionId == versionId)

/-- SQLitePersistenceService.getCodeElementVersions (a single row by
element_id and commit_hash). -/
def getCodeElementVersions (st : Store) (elementId commitHash : String) : Option CodeElementVersion :=
  st.versions.find? (fun v => v.elementId == elementId && v.commitHash == commitHash)

/-- SQLitePersistenceService.getFileHash. -/
def getFileHash (st : Store) (repoId filePath : String) : Option String :=
  (st.fileHashes.find? (fun r => r.1 == repoId && r.2.1 == filePath)).map (fun r => r.2.2)

/-- SQLitePersistenceService.getAllCodeElements. -/
def getAllCodeElements (st : Store) (repoId : String) : List CodeElement :=
  st.elements.filter (fun e => e.repoId == repoId)

/-- The commits-versions join of getCommitHistoryForElementId, before
ordering: one commit row per matching (commit, version) pair. -/
def historyJoin (st : Store) (elementId : String) : List CommitRow :=
  st.commits.flatMap (fun c =>
    (st.versions.filter (fun v => v.elementId == elementId && v.commitHash == c.commitHash)).map
      (fun _ => c))

/-- SQLitePersistenceService.getCommitHistoryForElementId (no LIMIT). -/
def getCommitHistoryForElementId (st : Store) (elementId : String) : List CommitRow :=
  sortDescBy (fun c => c.timestamp) (historyJoin st elementId)

/-- The versions-commits join of findLatestCodeElementVersion: version
rows paired with their commit timestamp. -/
def latestJoin (st : Store) (elementId : String) : List (CodeElementVersion × Int) :=
  (st.versions.filter (fun v => v.elementId == elementId)).flatMap (fun v =>
    (st.commits.filter (fun c => c.commitHash == v.commitHash)).map (fun c => (v, c.timestamp)))

/-- SQLitePersistenceService.findLatestCodeElementVersion (ORDER BY
commit_timestamp DESC LIMIT 1). -/
def findLatestCodeElementVersion (st : Store) (elementId : String) : Option CodeElementVersion :=
  ((sortDescBy (fun p => p.2) (latestJoin st elementId)).head?).map Prod.fst

/-- SQLitePersistenceService.findDecisionRecordsLinkedToVersion. -/
def findDecisionRecordsLinkedToVersion (st : Store) (versionId : String) : List DecisionRecord :=
  st.decisions.filter (fun d =>
    st.decisionLinks.any (fun r => r.1 == d.decisionId && r.2 == versionId))

/-- The sort key used by the JS comparator in
KnowledgeGraphService.getPreviousVersions: the timestamp of the first
commit in the history list carrying the version's commit hash. -/
def versionSortKey (history : List CommitRow) (v : CodeElementVersion) : Option Int :=
  (history.find? (fun c => c.commitHash == v.commitHash)).map (fun c => c.timestamp)

/-- KnowledgeGraphService.getPreviousVersions. -/
def getPreviousVersions (st : Store) (elementId commitHash : String) : List CodeElementVersion :=
  match getCommit st commitHash with
  | none => []
  | some commit =>
    let commits := getCommitHistoryForElementId st elementId
    let allVersions := commits.foldl (fun acc c =>
      if c.commitHash ≠ commitHash ∧ c.timestamp < commit.timestamp then
        match getCodeElementVersions st elementId c.commitHash with
        | some v => acc ++ [v]
        | none => acc
      else acc) []
    sortDescByOpt (versionSortKey commits) allVersions

/-! KnowledgeGraphService ingestion (processCommit) and queries. -/

/-- KnowledgeGraphService.MAX_FILE_SIZE_BYTES. -/
def maxFileSizeBytes : Int := 1024 * 1024

/-- The per-element body of processCommit's inner loop: save the element,
save its version for this commit with a null previous link, then link it
to the head of getPreviousVersions when one exists. -/
def processFileElement (hash : HashFn) (commitHash : String) (st : Store)
    (element : CodeElement) : Store :=
  let st1 := saveCodeElement st element
  let version : CodeElementVersion :=
    { versionId := generateVersionId hash element.elementId commitHash,
      elementId := element.elementId,
      commitHash := commitHash,
      name := some (getNameFromIdentifier element.stableIdentifier),
      startLine := none, endLine := none, previousVersionId := none }
  let st2 := saveCodeElementVersion st1 version
  match getPreviousVersions st2 element.elementId commitHash with
  | [] => st2
  | p :: _ => linkVersionToPreviousVersion st2 version.versionId p.versionId

/-- The per-file body of processCommit's loop: the stat/size gate, the
parseability gate, the optional content-hash cache gate, the per-element
loop, and the cache write. -/
def processFile (hash : HashFn) (env : WorldEnv) (enableFileCache : Bool)
    (repoPath repoId commitHash : String) (st : Store) (filePath : String) : Store :=
  let fullPath := repoPath ++ "/" ++ filePath
  match env.statSize fullPath with
  | none => st
  | some size =>
    if maxFileSizeBytes < size then st
    else if !canParseFile fullPath then st
    else
      let fileHash : Option String :=
        if enableFileCache then (env.readFile fullPath).map env.sha1 else none
      let skip : Bool :=
        match fileHash with
        | some h => getFileHash st repoId fullPath == some h
        | none => false
      if skip then st
      else
        let codeElements := parseFile hash env fullPath repoId
        let st3 := codeElements.foldl (processFileElement hash commitHash) st
        match fileHash with
        | some h => if h ≠ "" then saveFileHash st3 repoId fullPath h else st3
        | none => st3

/-- The changed-file list obtained from the git show output: split on
newlines, keep lines that are nonblank after trimming. -/
def changedFilesOf (stdout : String) : List String :=
  (splitChar '\n' stdout).filter (fun l => trimStr l ≠ "")

/-- KnowledgeGraphService.processCommit, store effect.  A missing commit or
a failing git invocation aborts with the store unchanged. -/
def processCommit (hash : HashFn) (env : WorldEnv) (enableFileCache : Bool)
    (repoPath repoId commitHash : String) (st : Store) : Store :=
  if !env.hasCommit repoPath commitHash then st
  else
    match env.gitShow repoPath commitHash with
    | none => st
    | some stdout =>
      (changedFilesOf stdout).foldl
        (processFile hash env enableFileCache repoPath repoId commitHash) st

/-- The while loop of KnowledgeGraphService.traceElementHistory, bounded by
an explicit fuel; the fuel used below (the number of stored versions) never
binds on stores whose previous links are timestamp-decreasing. -/
def followPreviousVersions (st : Store) : Nat → CodeElementVersion → List CodeElementVersion
  | 0, _ => []
  | Nat.succ n, current =>
    match current.previousVersionId with
    | none => []
    | some pid =>
      match getCodeElementVersion st pid with
      | none => []
      | some p => p :: followPreviousVersions st n p

/-- KnowledgeGraphService.traceElementHistory. -/
def traceElementHistory (st : Store) (elementId : String) : List CodeElementVersion :=
  match findLatestCodeElementVersion st elementId with
  | none => []
  | some latest => latest :: followPreviousVersions st st.versions.length latest

/-- KnowledgeGraphService.linkDecisionToElement: the first component is the
thrown error message, if any; the store is unchanged when it throws. -/
def linkDecisionToElement (st : Store) (decisionId elementId : String) : Option String × Store :=
  match findLatestCodeElementVersion st elementId with
  | none => (some ("Code element " ++ elementId ++ " not found"), st)
  | some latest => (none, linkDecisionToCodeVersion st decisionId latest.versionId)

/-! DecisionRecordService. -/

/-- DecisionRecordService.createDecisionRecord. -/
def createDecisionRecord (hash : HashFn) (st : Store) (title content repoId : String)
    (authorDevId : Option String) (now : Int) : DecisionRecord × Store :=
  let decision : DecisionRecord :=
    { decisionId := generateDecisionId hash repoId title,
      repoId := repoId, title := title, content := content,
      createdAt := now, authorDevId := authorDevId }
  (decision, saveDecisionRecord st decision)

/-- DecisionRecordService.getDecisionRecords: the V1 implementation returns
an empty array for every repository. -/
def getDecisionRecords (st : Store) (repoId : String) : List DecisionRecord := []

/-! KnowledgeGraphService.getArchitectureDiagramData. -/

/-- A node of the architecture diagram data. -/
structure DiagramNode where
  id : String
  type : String
  label : String
  elementId : String
  hasDecisions : Bool
deriving Repr, DecidableEq

/-- An edge of the architecture diagram data. -/
structure DiagramEdge where
  source : String
  target : String
  type : String
deriving Repr, DecidableEq

/-- KnowledgeGraphService.getArchitectureDiagramData: one node per element
of the repository, containment edges for class elements whose file element
is found, and the has-decisions flag from the latest version's linked
decisions. -/
def getArchitectureDiagramData (st : Store) (repoId : String) :
    List DiagramNode × List DiagramEdge :=
  let elements := getAllCodeElements st repoId
  let nodes := elements.map (fun element =>
    let hasDecisions :=
      match findLatestCodeElementVersion st element.elementId with
      | some version => !(findDecisionRecordsLinkedToVersion st version.versionId).isEmpty
      | none => false
    { id := element.elementId, type := element.type,
      label := getLabelFromIdentifier element.stableIdentifier,
      elementId := element.elementId, hasDecisions := hasDecisions : DiagramNode })
  let edges := elements.foldl (fun acc element =>
    if element.type == "class" then
      let filePath := (splitChar ':' element.stableIdentifier).headD ""
      match elements.find? (fun e => e.type == "file" && e.stableIdentifier == filePath) with
      | some fileElement =>
        acc ++ [{ source := fileElement.elementId, target := element.elementId,
                  type := "contains" : DiagramEdge }]
      | none => acc
    else acc) []
  (nodes, edges)

/-! Generic helper lemmas and witness instrumentation. -/

/-- Strings with equal character data are equal. -/
theorem string_eq_of_data_eq {s t : String} (h : s.data = t.data) : s = t := by
  cases s; cases t; exact congrArg String.mk h

/-- Right cancellation for string concatenation. -/
theorem string_append_cancel_right {a b c : String} (h : a ++ c = b ++ c) : a = b := by
  apply string_eq_of_data_eq
  have hd := congrArg String.data h
  simp only [String.data_append] at hd
  exact List.append_cancel_right hd

/-- An injective digest stand-in, used to instantiate the abstract hash
parameter in concrete witnesses. -/
def idHash : HashFn := fun s => s

/-- idHash is injective. -/
theorem idHash_injective : Function.Injective idHash := fun _ _ h => h

/-- C10: DecisionRecordService.getDecisionRecords returns the empty list for
every repository and store, and in particular never returns any stored
decision record of that repository. -/
theorem c10_getDecisionRecords_always_empty :
    ∀ (st : Store) (repoId : String),
      getDecisionRecords st repoId = [] ∧
      ∀ d ∈ st.decisions, d ∉ getDecisionRecords st repoId := by
  intro st repoId
  refine ⟨rfl, fun d _ h => ?_⟩
  simp [getDecisionRecords] at h

/-- Witness for C10 at a store holding one decision of the queried repo. -/
theorem c10_witness :
    (⟨"d1", "r", "t", "c", 0, none⟩ : DecisionRecord) ∈
        ({ emptyStore with decisions := [⟨"d1", "r", "t", "c", 0, none⟩] } : Store).decisions ∧
      (⟨"d1", "r", "t", "c", 0, none⟩ : DecisionRecord) ∉
        getDecisionRecords { emptyStore with decisions := [⟨"d1", "r", "t", "c", 0, none⟩] } "r" :=
  ⟨by decide,
    (c10_getDecisionRecords_always_empty
      { emptyStore with decisions := [⟨"d1", "r", "t", "c", 0, none⟩] } "r").2 _ (by decide)⟩

/-- C7: createDecisionRecord derives the decision id deterministically from
(repoId, title).  Creating a second decision with the same title in the same
repository adds no net new row (the table length is unchanged and exactly
one row carries that id), while the same title in two different
repositories yields two distinct stored records, provided the digest is
collision-free. -/
theorem c7_decision_identity (hash : HashFn) (hinj : Function.Injective hash)
    (st : Store) (title c1 c2 r1 r2 : String) (a1 a2 : Option String) (n1 n2 : Int)
    (hr : r1 ≠ r2) :
    ((createDecisionRecord hash (createDecisionRecord hash st title c1 r1 a1 n1).2
        title c2 r1 a2 n2).2.decisions.length =
      (createDecisionRecord hash st title c1 r1 a1 n1).2.decisions.length) ∧
    (((createDecisionRecord hash st title c1 r1 a1 n1).2.decisions.filter
        (fun d => d.decisionId == generateDecisionId hash r1 title)).length = 1) ∧
    ((createDecisionRecord hash st title c1 r1 a1 n1).1.decisionId ≠
      (createDecisionRecord hash (createDecisionRecord hash st title c1 r1 a1 n1).2
        title c2 r2 a2 n2).1.decisionId) ∧
    ((createDecisionRecord hash st title c1 r1 a1 n1).1 ∈
      (createDecisionRecord hash (createDecisionRecord hash st title c1 r1 a1 n1).2
        title c2 r2 a2 n2).2.decisions) ∧
    ((createDecisionRecord hash (createDecisionRecord hash st title c1 r1 a1 n1).2
        title c2 r2 a2 n2).1 ∈
      (createDecisionRecord hash (createDecisionRecord hash st title c1 r1 a1 n1).2
        title c2 r2 a2 n2).2.decisions) := by
  have hids : generateDecisionId hash r1 title ≠ generateDecisionId hash r2 title := by
    intro h
    apply hr
    have h2 := hinj h
    exact string_append_cancel_right (string_append_cancel_right h2)
  refine ⟨?_, ?_, ?_, ?_, ?_⟩
  · simp only [createDecisionRecord, saveDecisionRecord, List.filter_append,
      List.length_append, List.filter_filter]
    simp [bne]
  · simp only [createDecisionRecord, saveDecisionRecord, List.filter_append,
      List.length_append, List.filter_filter]
    simp [bne]
  · simpa [createDecisionRecord] using hids
  · simp only [createDecisionRecord, saveDecisionRecord]
    refine List.mem_append_left _ ?_
    refine List.mem_filter.2 ⟨List.mem_append_right _ (List.mem_singleton.2 rfl), ?_⟩
    simp [bne, hids]
  · simp [createDecisionRecord, saveDecisionRecord]

/-- Witness for C7 with the identity digest and two distinct repo ids. -/
theorem c7_witness :
    Function.Injective idHash ∧ ("r1" : String) ≠ "r2" ∧
      ((createDecisionRecord idHash (createDecisionRecord idHash emptyStore "t" "c" "r1" none 0).2
          "t" "c2" "r1" none 1).2.decisions.length =
        (createDecisionRecord idHash emptyStore "t" "c" "r1" none 0).2.decisions.length) :=
  ⟨idHash_injective, by decide,
    (c7_decision_identity idHash idHash_injective emptyStore "t" "c" "c2" "r1" "r2"
      none none 0 1 (by decide)).1⟩

/-- A minimal environment for evaluating parseFile: every file reads as the
empty string and parses to a bare program node. -/
def plainParseEnv : WorldEnv :=
  { readFile := fun _ => some "",
    tree := fun _ => SyntaxNode.mk "program" none [],
    sha1 := fun _ => "",
    statSize := fun _ => some 0,
    hasCommit := fun _ _ => true,
    gitShow := fun _ _ => some "" }

/-- C2: evaluation at the failing input.  parseFile stores the file element
of src/x.ts with stableIdentifier x.ts but an elementId hashed from the
absolute path, so the stored id differs from hash(repoId, type,
stableIdentifier); parsing lib/x.ts yields the same (repoId, type,
stableIdentifier) triple with a different elementId. -/
theorem c2_file_element_id_mismatch :
    (parseFile idHash plainParseEnv "src/x.ts" "r" =
      [{ elementId := "r:file:src/x.ts", repoId := "r", type := "file",
         stableIdentifier := "x.ts" }]) ∧
    (¬ ∀ e ∈ parseFile idHash plainParseEnv "src/x.ts" "r",
        e.elementId = generateElementId idHash e.repoId e.stableIdentifier e.type) ∧
    (parseFile idHash plainParseEnv "lib/x.ts" "r" =
      [{ elementId := "r:file:lib/x.ts", repoId := "r", type := "file",
         stableIdentifier := "x.ts" }]) := by
  refine ⟨by decide, ?_, by decide⟩
  decide

/-! Lemmas about the stable descending insertion sorts that model
ORDER BY commit_timestamp DESC and the JS comparator sort. -/

/-- Inserting permutes to consing. -/
theorem insertDescBy_perm {α : Type} (key : α → Int) (x : α) (l : List α) :
    List.Perm (insertDescBy key x l) (x :: l) := by
  induction l with
  | nil => simp [insertDescBy]
  | cons y ys ih =>
    by_cases h : key y ≤ key x
    · simp [insertDescBy, h]
    · simp only [insertDescBy, if_neg h]
      exact (ih.cons y).trans (List.Perm.swap x y ys)

/-- The sort is a permutation of its input. -/
theorem sortDescBy_perm {α : Type} (key : α → Int) (l : List α) :
    List.Perm (sortDescBy key l) l := by
  induction l with
  | nil => exact List.Perm.refl []
  | cons a l ih => exact (insertDescBy_perm key a (sortDescBy key l)).trans (ih.cons a)

/-- Insertion preserves the descending pairwise order. -/
theorem insertDescBy_sorted {α : Type} (key : α → Int) (x : α) (l : List α)
    (h : l.Pairwise (fun a b => key b ≤ key a)) :
    (insertDescBy key x l).Pairwise (fun a b => key b ≤ key a) := by
  induction l with
  | nil => simp [insertDescBy]
  | cons y ys ih =>
    rcases List.pairwise_cons.1 h with ⟨hy, ht⟩
    by_cases hle : key y ≤ key x
    · simp only [insertDescBy, if_pos hle]
      refine List.pairwise_cons.2 ⟨?_, h⟩
      intro b hb
      rcases List.mem_cons.1 hb with rfl | hb
      · exact hle
      · exact le_trans (hy b hb) hle
    · simp only [insertDescBy, if_neg hle]
      refine List.pairwise_cons.2 ⟨?_, ih ht⟩
      intro b hb
      have hb2 := (insertDescBy_perm key x ys).mem_iff.1 hb
      rcases List.mem_cons.1 hb2 with rfl | hb3
      · exact le_of_lt (lt_of_not_le hle)
      · exact hy b hb3

/-- The sort output is pairwise descending. -/
theorem sortDescBy_sorted {α : Type} (key : α → Int) (l : List α) :
    (sortDescBy key l).Pairwise (fun a b => key b ≤ key a) := by
  induction l with
  | nil => simp [sortDescBy]
  | cons a l ih => exact insertDescBy_sorted key a (sortDescBy key l) ih

/-- The head of the sorted list has a maximal key among the input. -/
theorem sortDescBy_head_max {α : Type} (key : α → Int) (l : List α) (x : α) (t : List α)
    (h : sortDescBy key l = x :: t) : ∀ y ∈ l, key y ≤ key x := by
  intro y hy
  have hmem : y ∈ x :: t := h ▸ (sortDescBy_perm key l).symm.subset hy
  rcases List.mem_cons.1 hmem with rfl | hmem2
  · exact le_refl _
  · have hp := sortDescBy_sorted key l
    rw [h] at hp
    exact (List.pairwise_cons.1 hp).1 y hmem2

/-- The optional-key insertion permutes to consing. -/
theorem insertDescByOpt_perm {α : Type} (key : α → Option Int) (x : α) (l : List α) :
    List.Perm (insertDescByOpt key x l) (x :: l) := by
  induction l with
  | nil => simp [insertDescByOpt]
  | cons y ys ih =>
    rcases hkx : key x with _ | kx
    · simp [insertDescByOpt, hkx]
    · rcases hky : key y with _ | ky
      · simp [insertDescByOpt, hkx, hky]
      · simp only [insertDescByOpt, hkx, hky]
        by_cases hlt : kx < ky
        · simp only [if_pos hlt]
          exact (ih.cons y).trans (List.Perm.swap x y ys)
        · simp only [if_neg hlt]
          exact List.Perm.refl _

/-- The optional-key sort is a permutation of its input. -/
theorem sortDescByOpt_perm {α : Type} (key : α → Option Int) (l : List α) :
    List.Perm (sortDescByOpt key l) l := by
  induction l with
  | nil => exact List.Perm.refl []
  | cons a l ih => exact (insertDescByOpt_perm key a (sortDescByOpt key l)).trans (ih.cons a)

/-- When every key is present, the optional-key insertion agrees with the
total-key insertion on the defaulted key. -/
theorem insertDescByOpt_eq_insertDescBy {α : Type} (key : α → Option Int) (x : α) (l : List α)
    (hx : (key x).isSome) (hl : ∀ y ∈ l, (key y).isSome) :
    insertDescByOpt key x l = insertDescBy (fun a => (key a).getD 0) x l := by
  induction l with
  | nil => simp [insertDescByOpt, insertDescBy]
  | cons y ys ih =>
    rcases Option.isSome_iff_exists.1 hx with ⟨kx, hkx⟩
    rcases Option.isSome_iff_exists.1 (hl y (List.mem_cons_self y ys)) with ⟨ky, hky⟩
    have hys : ∀ z ∈ ys, (key z).isSome := fun z hz => hl z (List.mem_cons_of_mem y hz)
    simp only [insertDescByOpt, insertDescBy, hkx, hky, Option.getD_some]
    by_cases hlt : kx < ky
    · rw [if_pos hlt, if_neg (not_le.2 hlt), ih hys]
    · rw [if_neg hlt, if_pos (not_lt.1 hlt)]

/-- When every key is present, the optional-key sort agrees with the
total-key sort on the defaulted key. -/
theorem sortDescByOpt_eq_sortDescBy {α : Type} (key : α → Option Int) (l : List α)
    (hl : ∀ y ∈ l, (key y).isSome) :
    sortDescByOpt key l = sortDescBy (fun a => (key a).getD 0) l := by
  induction l with
  | nil => rfl
  | cons a l ih =>
    have hls : ∀ y ∈ l, (key y).isSome := fun y hy => hl y (List.mem_cons_of_mem a hy)
    have hsl : ∀ y ∈ sortDescByOpt key l, (key y).isSome := fun y hy =>
      hls y ((sortDescByOpt_perm key l).subset hy)
    calc sortDescByOpt key (a :: l)
        = insertDescByOpt key a (sortDescByOpt key l) := rfl
      _ = insertDescBy (fun b => (key b).getD 0) a (sortDescByOpt key l) :=
          insertDescByOpt_eq_insertDescBy key a _ (hl a (List.mem_cons_self a l)) hsl
      _ = insertDescBy (fun b => (key b).getD 0) a (sortDescBy (fun b => (key b).getD 0) l) := by
          rw [ih hls]
      _ = sortDescBy (fun b => (key b).getD 0) (a :: l) := rfl

/-- Head maximality for the optional-key sort when every key is present. -/
theorem sortDescByOpt_head_max {α : Type} (key : α → Option Int) (l : List α)
    (hl : ∀ y ∈ l, (key y).isSome) (x : α) (t : List α)
    (h : sortDescByOpt key l = x :: t) :
    ∀ y ∈ l, ∀ ky kx, key y = some ky → key x = some kx → ky ≤ kx := by
  intro y hy ky kx hky hkx
  rw [sortDescByOpt_eq_sortDescBy key l hl] at h
  have := sortDescBy_head_max (fun a => (key a).getD 0) l x t h y hy
  simpa [hky, hkx] using this

/-! Characterization of the latest-version query and commit lookup. -/

/-- Membership in the versions-commits join behind
findLatestCodeElementVersion. -/
theorem mem_latestJoin {st : Store} {elementId : String} {v : CodeElementVersion} {ts : Int} :
    (v, ts) ∈ latestJoin st elementId ↔
      v ∈ st.versions ∧ v.elementId = elementId ∧
        ∃ c ∈ st.commits, c.commitHash = v.commitHash ∧ c.timestamp = ts := by
  simp only [latestJoin, List.mem_flatMap, List.mem_filter, List.mem_map, beq_iff_eq]
  constructor
  · rintro ⟨w, ⟨hwm, hwe⟩, c, ⟨hcm, hch⟩, hpair⟩
    have h1 : w = v := congrArg Prod.fst hpair
    have h2 : c.timestamp = ts := congrArg Prod.snd hpair
    subst h1
    exact ⟨hwm, hwe, c, hcm, hch, h2⟩
  · rintro ⟨hvm, hve, c, hcm, hch, hts⟩
    exact ⟨v, ⟨hvm, hve⟩, c, ⟨hcm, hch⟩, by rw [hts]⟩

/-- findLatestCodeElementVersion is none exactly when the join is empty. -/
theorem findLatest_none_iff {st : Store} {el : String} :
    findLatestCodeElementVersion st el = none ↔ latestJoin st el = [] := by
  unfold findLatestCodeElementVersion
  constructor
  · intro h
    cases hs : sortDescBy (fun q : CodeElementVersion × Int => q.2) (latestJoin st el) with
    | nil =>
      exact ((hs ▸ sortDescBy_perm (fun q : CodeElementVersion × Int => q.2)
        (latestJoin st el)).nil_eq).symm
    | cons x t => rw [hs] at h; simp at h
  · intro h
    rw [h]
    rfl

/-- The version returned by findLatestCodeElementVersion appears in the
join with a timestamp maximal over the join. -/
theorem findLatest_spec {st : Store} {el : String} {v : CodeElementVersion}
    (h : findLatestCodeElementVersion st el = some v) :
    ∃ ts, (v, ts) ∈ latestJoin st el ∧ ∀ p ∈ latestJoin st el, p.2 ≤ ts := by
  unfold findLatestCodeElementVersion at h
  cases hs : sortDescBy (fun p => p.2) (latestJoin st el) with
  | nil => rw [hs] at h; simp at h
  | cons x t =>
    rw [hs] at h
    simp only [List.head?, Option.map_some] at h
    have hx : x ∈ latestJoin st el :=
      (sortDescBy_perm (fun p => p.2) (latestJoin st el)).subset
        (hs ▸ List.mem_cons_self x t)
    refine ⟨x.2, ?_, ?_⟩
    · have hxv : x = (v, x.2) := by
        cases x
        cases h
        rfl
      exact hxv ▸ hx
    · intro p hp
      exact sortDescBy_head_max (fun q : CodeElementVersion × Int => q.2)
        (latestJoin st el) x t hs p hp

/-- find? on a key-unique commit list returns the member with the key. -/
theorem find_commit_unique (l : List CommitRow) (hnd : (l.map (fun c => c.commitHash)).Nodup)
    (c : CommitRow) (hm : c ∈ l) :
    l.find? (fun x => x.commitHash == c.commitHash) = some c := by
  induction l with
  | nil => cases hm
  | cons h t ih =>
    rcases List.mem_cons.1 hm with rfl | hm2
    · simp [List.find?]
    · have hnd2 : h.commitHash ∉ t.map (fun c => c.commitHash) ∧
          (t.map (fun c => c.commitHash)).Nodup := by
        rw [List.map_cons] at hnd
        exact List.nodup_cons.1 hnd
      have hne : h.commitHash ≠ c.commitHash := by
        intro he
        exact hnd2.1 (he ▸ List.mem_map.2 ⟨c, hm2, rfl⟩)
      rw [List.find?_cons_of_neg _ (by simpa using hne)]
      exact ih hnd2.2 hm2

/-- The commits table is keyed by commit_hash. -/
def commitsNodup (st : Store) : Prop :=
  (st.commits.map (fun c => c.commitHash)).Nodup

/-- Every stored version of the element has its commit row present. -/
def elementCommitsPresent (st : Store) (el : String) : Prop :=
  ∀ v ∈ st.versions, v.elementId = el → ∃ c ∈ st.commits, c.commitHash = v.commitHash

/-- C6: linkDecisionToElement fails with the element-not-found error (and an
unchanged store) whenever the element has no version, and otherwise inserts
exactly one junction row to a version of the element whose commit timestamp
is maximal at call time, leaving every other table unchanged.  The store is
assumed key-consistent: commit hashes are unique and each version of the
element has its commit row. -/
theorem c6_link_decision_attaches_latest (st : Store) (d el : String)
    (hnd : commitsNodup st) (hpres : elementCommitsPresent st el) :
    ((∀ v ∈ st.versions, v.elementId ≠ el) →
      linkDecisionToElement st d el =
        (some ("Code element " ++ el ++ " not found"), st)) ∧
    (∀ v ∈ st.versions, v.elementId = el →
      ∃ w, w ∈ st.versions ∧ w.elementId = el ∧
        (∀ u ∈ st.versions, u.elementId = el → ∀ cu cw,
          getCommit st u.commitHash = some cu → getCommit st w.commitHash = some cw →
          cu.timestamp ≤ cw.timestamp) ∧
        linkDecisionToElement st d el = (none, linkDecisionToCodeVersion st d w.versionId) ∧
        (d, w.versionId) ∈ (linkDecisionToElement st d el).2.decisionLinks ∧
        (linkDecisionToElement st d el).2.commits = st.commits ∧
        (linkDecisionToElement st d el).2.elements = st.elements ∧
        (linkDecisionToElement st d el).2.versions = st.versions ∧
        (linkDecisionToElement st d el).2.decisions = st.decisions ∧
        (linkDecisionToElement st d el).2.fileHashes = st.fileHashes) := by
  constructor
  · intro hno
    have hj : latestJoin st el = [] := by
      unfold latestJoin
      have hf : st.versions.filter (fun v => v.elementId == el) = [] := by
        apply List.filter_eq_nil_iff.2
        intro v hv
        simp [hno v hv]
      rw [hf]
      rfl
    unfold linkDecisionToElement
    rw [findLatest_none_iff.2 hj]
  · intro v hv hve
    rcases hpres v hv hve with ⟨c, hcm, hch⟩
    have hjoin : (v, c.timestamp) ∈ latestJoin st el :=
      mem_latestJoin.2 ⟨hv, hve, c, hcm, hch, rfl⟩
    cases hfl : findLatestCodeElementVersion st el with
    | none =>
      rw [findLatest_none_iff.1 hfl] at hjoin
      cases hjoin
    | some w =>
      rcases findLatest_spec hfl with ⟨ts, hwj, hmax⟩
      rcases mem_latestJoin.1 hwj with ⟨hwm, hwe, cw0, hcw0m, hcw0h, hcw0t⟩
      refine ⟨w, hwm, hwe, ?_, ?_, ?_, ?_, ?_, ?_, ?_, ?_⟩
      · intro u hu hue cu cw hcu hcw
        have hcum := List.mem_of_find?_eq_some hcu
        have hcuh : cu.commitHash = u.commitHash := by
          have := List.find?_some hcu
          simpa using this
        have hujoin : (u, cu.timestamp) ∈ latestJoin st el :=
          mem_latestJoin.2 ⟨hu, hue, cu, hcum, hcuh, rfl⟩
        have h1 : cu.timestamp ≤ ts := hmax (u, cu.timestamp) hujoin
        have hcwm := List.mem_of_find?_eq_some hcw
        have hcwh : cw.commitHash = w.commitHash := by
          have := List.find?_some hcw
          simpa using this
        have hcweq : cw0 = cw := by
          apply List.inj_on_of_nodup_map hnd hcw0m hcwm
          rw [hcw0h, hcwh]
        have : cw.timestamp = ts := by rw [← hcweq, hcw0t]
        rw [this]
        exact h1
      · unfold linkDecisionToElement
        rw [hfl]
      · unfold linkDecisionToElement
        rw [hfl]
        simp [linkDecisionToCodeVersion]
      · unfold linkDecisionToElement; rw [hfl]; rfl
      · unfold linkDecisionToElement; rw [hfl]; rfl
      · unfold linkDecisionToElement; rw [hfl]; rfl
      · unfold linkDecisionToElement; rw [hfl]; rfl
      · unfold linkDecisionToElement; rw [hfl]; rfl

/-- Witness for C6: a store with one commit and one version of the element;
linking attaches the junction row to that version. -/
theorem c6_witness :
    commitsNodup { emptyStore with
        commits := [⟨"c1", "r", "m", 5, "a", "a"⟩],
        versions := [⟨"v1", "e1", "c1", none, none, none, none⟩] } ∧
    elementCommitsPresent { emptyStore with
        commits := [⟨"c1", "r", "m", 5, "a", "a"⟩],
        versions := [⟨"v1", "e1", "c1", none, none, none, none⟩] } "e1" ∧
    (linkDecisionToElement { emptyStore with
        commits := [⟨"c1", "r", "m", 5, "a", "a"⟩],
        versions := [⟨"v1", "e1", "c1", none, none, none, none⟩] } "d1" "e1").1 = none := by
  have hnd : commitsNodup { emptyStore with
      commits := [⟨"c1", "r", "m", 5, "a", "a"⟩],
      versions := [⟨"v1", "e1", "c1", none, none, none, none⟩] } := by
    simp [commitsNodup, emptyStore]
  have hpres : elementCommitsPresent { emptyStore with
      commits := [⟨"c1", "r", "m", 5, "a", "a"⟩],
      versions := [⟨"v1", "e1", "c1", none, none, none, none⟩] } "e1" := by
    intro v hv hve
    refine ⟨⟨"c1", "r", "m", 5, "a", "a"⟩, by simp [emptyStore], ?_⟩
    simp [emptyStore] at hv
    rw [hv]
  have h := (c6_link_decision_attaches_latest _ "d1" "e1" hnd hpres).2
    ⟨"v1", "e1", "c1", none, none, none, none⟩ (by simp [emptyStore]) rfl
  rcases h with ⟨w, _, _, _, heq, _⟩
  refine ⟨hnd, hpres, ?_⟩
  rw [heq]

/-! The timestamp order on versions, and the bounded walk along
previous_version_id links. -/

/-- The commit timestamp of a version, via the commits table. -/
def tsOf (st : Store) (v : CodeElementVersion) : Option Int :=
  (getCommit st v.commitHash).map (fun c => c.timestamp)

/-- p is strictly older than v: both commit timestamps are known and p's is
strictly smaller. -/
def tsLtB (st : Store) (p v : CodeElementVersion) : Bool :=
  match tsOf st p, tsOf st v with
  | some tp, some tv => decide (tp < tv)
  | _, _ => false

/-- tsLtB is irreflexive. -/
theorem tsLtB_irrefl (st : Store) (a : CodeElementVersion) : tsLtB st a a = false := by
  unfold tsLtB
  cases tsOf st a with
  | none => rfl
  | some t => simp

/-- Unfolding characterization of tsLtB. -/
theorem tsLtB_iff {st : Store} {p v : CodeElementVersion} :
    tsLtB st p v = true ↔
      ∃ tp tv, tsOf st p = some tp ∧ tsOf st v = some tv ∧ tp < tv := by
  unfold tsLtB
  rcases hp : tsOf st p with _ | tp
  · simp [hp]
  · rcases hv : tsOf st v with _ | tv
    · simp [hp, hv]
    · simp [hp, hv]

/-- tsLtB is transitive. -/
theorem tsLtB_trans (st : Store) {a b c : CodeElementVersion}
    (h1 : tsLtB st a b = true) (h2 : tsLtB st b c = true) : tsLtB st a c = true := by
  rcases tsLtB_iff.1 h1 with ⟨ta, tb, hta, htb, hlt1⟩
  rcases tsLtB_iff.1 h2 with ⟨tb2, tc, htb2, htc, hlt2⟩
  have hbb : tb = tb2 := by
    rw [htb] at htb2
    exact Option.some.inj htb2
  exact tsLtB_iff.2 ⟨ta, tc, hta, htc, lt_trans hlt1 (hbb ▸ hlt2)⟩

/-- Filtering with a weaker predicate keeps at least as many elements. -/
theorem length_filter_mono {α : Type} (l : List α) (p q : α → Bool)
    (himp : ∀ x ∈ l, p x = true → q x = true) :
    (l.filter p).length ≤ (l.filter q).length := by
  induction l with
  | nil => simp
  | cons x t ih =>
    have iht := ih (fun y hy => himp y (List.mem_cons_of_mem x hy))
    by_cases hp : p x = true
    · rw [List.filter_cons_of_pos hp, List.filter_cons_of_pos (himp x (List.mem_cons_self x t) hp)]
      simpa using iht
    · rw [List.filter_cons_of_neg (by simpa using hp)]
      by_cases hq : q x = true
      · rw [List.filter_cons_of_pos hq]
        exact le_trans iht (Nat.le_succ _)
      · rw [List.filter_cons_of_neg (by simpa using hq)]
        exact iht

/-- Filtering with a strictly weaker predicate (witnessed at a member) keeps
strictly more elements. -/
theorem length_filter_strict_mono {α : Type} (l : List α) (p q : α → Bool)
    (himp : ∀ x ∈ l, p x = true → q x = true) (a : α) (ha : a ∈ l)
    (hpa : p a = false) (hqa : q a = true) :
    (l.filter p).length < (l.filter q).length := by
  induction l with
  | nil => cases ha
  | cons x t ih =>
    have himpt : ∀ y ∈ t, p y = true → q y = true :=
      fun y hy => himp y (List.mem_cons_of_mem x hy)
    rcases List.mem_cons.1 ha with rfl | hat
    · rw [List.filter_cons_of_neg (by simp [hpa]), List.filter_cons_of_pos hqa]
      exact Nat.lt_succ_of_le (length_filter_mono t p q himpt)
    · have iht := ih himpt hat
      by_cases hp : p x = true
      · rw [List.filter_cons_of_pos hp, List.filter_cons_of_pos (himp x (List.mem_cons_self x t) hp)]
        simpa using iht
      · rw [List.filter_cons_of_neg (by simpa using hp)]
        by_cases hq : q x = true
        · rw [List.filter_cons_of_pos hq]
          exact Nat.lt_succ_of_le (le_of_lt iht)
        · rw [List.filter_cons_of_neg (by simpa using hq)]
          exact iht

/-- Store property: every realized previous link points from a version to a
strictly older stored version (dangling links are unconstrained). -/
def prevLinksDecreasing (st : Store) : Prop :=
  ∀ v ∈ st.versions, ∀ p ∈ st.versions,
    v.previousVersionId = some p.versionId → tsLtB st p v = true

/-- commitsNodup is decidable. -/
instance (st : Store) : Decidable (commitsNodup st) := by
  unfold commitsNodup
  exact inferInstance

/-- elementCommitsPresent quantifies over lists with decidable bodies. -/
instance (st : Store) (el : String) : Decidable (elementCommitsPresent st el) := by
  unfold elementCommitsPresent
  exact inferInstance

/-- prevLinksDecreasing quantifies over lists with decidable bodies. -/
instance (st : Store) : Decidable (prevLinksDecreasing st) := by
  unfold prevLinksDecreasing
  exact inferInstance

/-- The number of stored versions strictly older than v; the walk measure. -/
def belowCount (st : Store) (v : CodeElementVersion) : Nat :=
  (st.versions.filter (fun w => tsLtB st w v)).length

/-- Properties of the bounded previous-link walk: members are stored rows,
consecutive entries are linked, entries are pairwise younger-to-older, and
when the fuel covers the measure the walk ends at a null or dangling link. -/
theorem followPrev_spec (st : Store) (hdec : prevLinksDecreasing st) :
    ∀ (fuel : Nat) (v : CodeElementVersion), v ∈ st.versions →
      belowCount st v ≤ fuel →
      (∀ b ∈ followPreviousVersions st fuel v, b ∈ st.versions) ∧
      List.Chain' (fun a b => a.previousVersionId = some b.versionId)
        (v :: followPreviousVersions st fuel v) ∧
      List.Pairwise (fun a b => tsLtB st b a = true)
        (v :: followPreviousVersions st fuel v) ∧
      (∃ w, (v :: followPreviousVersions st fuel v).getLast? = some w ∧
        (w.previousVersionId = none ∨
          ∃ pid, w.previousVersionId = some pid ∧ getCodeElementVersion st pid = none)) := by
  intro fuel
  induction fuel with
  | zero =>
    intro v hv hc
    refine ⟨by simp [followPreviousVersions], by simp [followPreviousVersions],
      by simp [followPreviousVersions], ⟨v, by simp [followPreviousVersions], ?_⟩⟩
    rcases hprev : v.previousVersionId with _ | pid
    · exact Or.inl rfl
    · rcases hfind : getCodeElementVersion st pid with _ | p
      · exact Or.inr ⟨pid, rfl, hfind⟩
      · exfalso
        have hfind2 : st.versions.find? (fun w => w.versionId == pid) = some p := hfind
        have hpm := List.mem_of_find?_eq_some hfind2
        have hpid : p.versionId = pid := by
          have := List.find?_some hfind2
          simpa using this
        have hlt : tsLtB st p v = true := hdec v hv p hpm (by rw [hprev, hpid])
        have hmem : p ∈ st.versions.filter (fun w => tsLtB st w v) :=
          List.mem_filter.2 ⟨hpm, hlt⟩
        have hpos : 0 < belowCount st v := by
          unfold belowCount
          exact List.length_pos_of_mem hmem
        omega
  | succ n ih =>
    intro v hv hc
    rcases hprev : v.previousVersionId with _ | pid
    · refine ⟨by simp [followPreviousVersions, hprev], by simp [followPreviousVersions, hprev],
        by simp [followPreviousVersions, hprev],
        ⟨v, by simp [followPreviousVersions, hprev], Or.inl hprev⟩⟩
    · rcases hfind : getCodeElementVersion st pid with _ | p
      · refine ⟨by simp [followPreviousVersions, hprev, hfind],
          by simp [followPreviousVersions, hprev, hfind],
          by simp [followPreviousVersions, hprev, hfind],
          ⟨v, by simp [followPreviousVersions, hprev, hfind], Or.inr ⟨pid, hprev, hfind⟩⟩⟩
      · have hfind2 : st.versions.find? (fun w => w.versionId == pid) = some p := hfind
        have hpm := List.mem_of_find?_eq_some hfind2
        have hpid : p.versionId = pid := by
          have := List.find?_some hfind2
          simpa using this
        have hlt : tsLtB st p v = true := hdec v hv p hpm (by rw [hprev, hpid])
        have hcount : belowCount st p ≤ n := by
          have hstrict : belowCount st p < belowCount st v := by
            unfold belowCount
            refine length_filter_strict_mono st.versions _ _ ?_ p hpm (tsLtB_irrefl st p) hlt
            intro x _ hxp
            exact tsLtB_trans st hxp hlt
          omega
        obtain ⟨ihmem, ihchain, ihpw, ihlast⟩ := ih p hpm hcount
        have hwalk : followPreviousVersions st (n + 1) v =
            p :: followPreviousVersions st n p := by
          simp [followPreviousVersions, hprev, hfind]
        refine ⟨?_, ?_, ?_, ?_⟩
        · rw [hwalk]
          intro b hb
          rcases List.mem_cons.1 hb with rfl | hb2
          · exact hpm
          · exact ihmem b hb2
        · rw [hwalk]
          refine List.chain'_cons.2 ⟨?_, ihchain⟩
          rw [hprev, hpid]
        · rw [hwalk]
          refine List.pairwise_cons.2 ⟨?_, ihpw⟩
          intro b hb
          rcases List.mem_cons.1 hb with rfl | hb2
          · exact hlt
          · have hbp : tsLtB st b p = true := (List.pairwise_cons.1 ihpw).1 b hb2
            exact tsLtB_trans st hbp hlt
        · rw [hwalk]
          rcases ihlast with ⟨w, hwl, hterm⟩
          refine ⟨w, ?_, hterm⟩
          rw [List.getLast?_cons_cons]
          exact hwl

/-- C5: traceElementHistory returns [] when the element has no version with
a stored commit; otherwise it starts at a version of maximal commit
timestamp, follows previousVersionId links (consecutive output entries are
linked and the ids never repeat), and terminates at a null link or, early,
at a dangling link, rather than failing.  The store is assumed to have
strictly timestamp-decreasing realized links and unique version ids. -/
theorem c5_trace_history (st : Store) (el : String)
    (hdec : prevLinksDecreasing st)
    (hvnd : (st.versions.map (fun v => v.versionId)).Nodup) :
    (latestJoin st el = [] → traceElementHistory st el = []) ∧
    (∀ v, findLatestCodeElementVersion st el = some v →
      ∃ l, traceElementHistory st el = v :: l ∧
        (∃ ts, (v, ts) ∈ latestJoin st el ∧ ∀ p ∈ latestJoin st el, p.2 ≤ ts) ∧
        List.Chain' (fun a b => a.previousVersionId = some b.versionId) (v :: l) ∧
        ((v :: l).map (fun w => w.versionId)).Nodup ∧
        (∃ w, (v :: l).getLast? = some w ∧
          (w.previousVersionId = none ∨
            ∃ pid, w.previousVersionId = some pid ∧ getCodeElementVersion st pid = none))) := by
  constructor
  · intro hj
    unfold traceElementHistory
    rw [findLatest_none_iff.2 hj]
  · intro v hfl
    rcases findLatest_spec hfl with ⟨ts, hvj, hmax⟩
    rcases mem_latestJoin.1 hvj with ⟨hvm, hve, _⟩
    have hfuel : belowCount st v ≤ st.versions.length := List.length_filter_le _ _
    obtain ⟨hmem, hchain, hpw, hlast⟩ := followPrev_spec st hdec st.versions.length v hvm hfuel
    refine ⟨followPreviousVersions st st.versions.length v, ?_, ⟨ts, hvj, hmax⟩, hchain, ?_, hlast⟩
    · unfold traceElementHistory
      rw [hfl]
    · have hmemall : ∀ x ∈ v :: followPreviousVersions st st.versions.length v,
          x ∈ st.versions := by
        intro x hx
        rcases List.mem_cons.1 hx with rfl | hx2
        · exact hvm
        · exact hmem x hx2
      have hpw2 : List.Pairwise (fun a b => a.versionId ≠ b.versionId)
          (v :: followPreviousVersions st st.versions.length v) := by
        refine List.Pairwise.imp_of_mem ?_ hpw
        intro a b ha hb hab hid
        have hrow : a = b := List.inj_on_of_nodup_map hvnd (hmemall a ha) (hmemall b hb) hid
        rw [hrow] at hab
        rw [tsLtB_irrefl st b] at hab
        cases hab
      exact List.pairwise_map.2 hpw2

/-- A store with a two-version chain used by the C5 witness. -/
def twoVersionStore : Store :=
  { emptyStore with
    commits := [⟨"c1", "r", "m", 1, "a", "a"⟩, ⟨"c2", "r", "m", 2, "a", "a"⟩],
    versions := [⟨"v1", "e1", "c1", none, none, none, none⟩,
                 ⟨"v2", "e1", "c2", none, none, none, some "v1"⟩] }

/-- Witness for C5: the trace of the two-version chain starts at the newest
version. -/
theorem c5_witness :
    prevLinksDecreasing twoVersionStore ∧
    (twoVersionStore.versions.map (fun v => v.versionId)).Nodup ∧
    ∃ l, traceElementHistory twoVersionStore "e1" =
      (⟨"v2", "e1", "c2", none, none, none, some "v1"⟩ : CodeElementVersion) :: l := by
  refine ⟨by decide, by decide, ?_⟩
  obtain ⟨l, hl, _⟩ := (c5_trace_history twoVersionStore "e1" (by decide) (by decide)).2
    ⟨"v2", "e1", "c2", none, none, none, some "v1"⟩ (by decide)
  exact ⟨l, hl⟩

/-! Characterization of getPreviousVersions, used by C3 (and C4). -/

/-- Membership in the commits-versions history join. -/
theorem mem_historyJoin {st : Store} {el : String} {c : CommitRow} :
    c ∈ historyJoin st el ↔
      c ∈ st.commits ∧ ∃ w ∈ st.versions, w.elementId = el ∧ w.commitHash = c.commitHash := by
  simp only [historyJoin, List.mem_flatMap, List.mem_map, List.mem_filter, Bool.and_eq_true,
    beq_iff_eq]
  constructor
  · rintro ⟨d, hd, w, ⟨⟨hwm, hwe, hwh⟩, rfl⟩⟩
    exact ⟨hd, w, hwm, hwe, hwh⟩
  · rintro ⟨hcm, w, hwm, hwe, hwh⟩
    exact ⟨c, hcm, w, ⟨⟨hwm, hwe, hwh⟩, rfl⟩⟩

/-- The accumulated collection loop of getPreviousVersions is a filterMap
over a filter. -/
theorem foldl_prev_collect (st : Store) (el C : String) (T : Int) (l : List CommitRow) :
    ∀ acc : List CodeElementVersion,
      l.foldl (fun acc c =>
        if c.commitHash ≠ C ∧ c.timestamp < T then
          match getCodeElementVersions st el c.commitHash with
          | some v => acc ++ [v]
          | none => acc
        else acc) acc =
      acc ++ (l.filter (fun c => c.commitHash != C && decide (c.timestamp < T))).filterMap
        (fun c => getCodeElementVersions st el c.commitHash) := by
  induction l with
  | nil => intro acc; simp
  | cons x t ih =>
    intro acc
    rw [List.foldl_cons]
    by_cases hc : x.commitHash ≠ C ∧ x.timestamp < T
    · have hfc : (x.commitHash != C && decide (x.timestamp < T)) = true := by
        simp [hc.1, hc.2]
      have hfilter : (x :: t).filter (fun c => c.commitHash != C && decide (c.timestamp < T)) =
          x :: t.filter (fun c => c.commitHash != C && decide (c.timestamp < T)) := by
        simp [List.filter_cons, hfc]
      rw [if_pos hc, hfilter, List.filterMap_cons]
      cases hg : getCodeElementVersions st el x.commitHash with
      | none => rw [ih acc]
      | some v => rw [ih (acc ++ [v])]; simp
    · have hfc : (x.commitHash != C && decide (x.timestamp < T)) = false := by
        rcases not_and_or.1 hc with h1 | h2
        · have hx : x.commitHash = C := not_not.1 h1
          simp [hx]
        · simp [h2]
      have hfilter : (x :: t).filter (fun c => c.commitHash != C && decide (c.timestamp < T)) =
          t.filter (fun c => c.commitHash != C && decide (c.timestamp < T)) := by
        simp [List.filter_cons, hfc]
      rw [if_neg hc, hfilter, ih acc]

/-- Weakening the outer filter through an inner filter that it implies. -/
theorem filter_filter_of_imp {α : Type} (l : List α) (p q : α → Bool)
    (himp : ∀ x ∈ l, p x = true → q x = true) :
    (l.filter q).filter p = l.filter p := by
  induction l with
  | nil => rfl
  | cons x t ih =>
    have iht := ih (fun y hy => himp y (List.mem_cons_of_mem x hy))
    by_cases hq : q x = true
    · rw [List.filter_cons_of_pos hq]
      by_cases hp : p x = true
      · rw [List.filter_cons_of_pos hp, List.filter_cons_of_pos hp, iht]
      · rw [List.filter_cons_of_neg (by simpa using hp),
          List.filter_cons_of_neg (by simpa using hp), iht]
    · have hp : ¬ p x = true := fun hp => hq (himp x (List.mem_cons_self x t) hp)
      rw [List.filter_cons_of_neg (by simpa using hq),
        List.filter_cons_of_neg (by simpa using hp), iht]

/-- A map that fixes every member is the identity. -/
theorem map_fix_id {α : Type} (f : α → α) (l : List α) (h : ∀ x ∈ l, f x = x) : l.map f = l := by
  induction l with
  | nil => rfl
  | cons x t ih =>
    rw [List.map_cons, h x (List.mem_cons_self x t), ih (fun y hy => h y (List.mem_cons_of_mem x hy))]

/-- Looking up the key of an upserted version row finds the fresh row. -/
theorem find_upsert_version (l : List CodeElementVersion) (v : CodeElementVersion) :
    (l.filter (fun x => x.versionId != v.versionId) ++ [v]).find?
      (fun x => x.versionId == v.versionId) = some v := by
  induction l with
  | nil => simp [List.find?]
  | cons x t ih =>
    by_cases hx : (x.versionId != v.versionId) = true
    · have hfilter : (x :: t).filter (fun y => y.versionId != v.versionId) =
          x :: t.filter (fun y => y.versionId != v.versionId) := by
        simp only [List.filter_cons, hx, if_true]
      rw [hfilter]
      have hne : ¬ (x.versionId == v.versionId) = true := by
        simpa [bne] using hx
      rw [List.cons_append, List.find?_cons_of_neg _ (by simpa using hne)]
      exact ih
    · have hxf : (x.versionId != v.versionId) = false := by
        simpa using hx
      have hfilter : (x :: t).filter (fun y => y.versionId != v.versionId) =
          t.filter (fun y => y.versionId != v.versionId) := by
        simp only [List.filter_cons, hxf]
        rfl
      rw [hfilter]
      exact ih

/-- Splitting a Boolean conjunction. -/
theorem band_elim {a b : Bool} (h : (a && b) = true) : a = true ∧ b = true := by
  simp only [Bool.and_eq_true] at h
  exact h

/-- Forming a Boolean conjunction. -/
theorem band_intro {a b : Bool} (h1 : a = true) (h2 : b = true) : (a && b) = true := by
  simp [h1, h2]

/-- The candidate set of getPreviousVersions over a store: versions of the
element at other commits whose stored commit timestamp is strictly below
the given bound. -/
def prevCandidates (st : Store) (el C : String) (T : Int) : List CodeElementVersion :=
  st.versions.filter (fun w =>
    w.elementId == el && w.commitHash != C &&
      (match getCommit st w.commitHash with
       | some c => decide (c.timestamp < T)
       | none => false))

/-- getPreviousVersions is empty exactly when there is no candidate, and its
head is a candidate whose commit timestamp is maximal among candidates. -/
theorem getPreviousVersions_spec (st : Store) (el C : String) (commit : CommitRow)
    (hcomm : getCommit st C = some commit) (hnd : commitsNodup st) :
    (getPreviousVersions st el C = [] ↔ prevCandidates st el C commit.timestamp = []) ∧
    (∀ p t, getPreviousVersions st el C = p :: t →
      p ∈ prevCandidates st el C commit.timestamp ∧
      ∀ q ∈ prevCandidates st el C commit.timestamp, ∀ cq cp,
        getCommit st q.commitHash = some cq → getCommit st p.commitHash = some cp →
        cq.timestamp ≤ cp.timestamp) := by
  have hunf : getPreviousVersions st el C =
      sortDescByOpt (versionSortKey (getCommitHistoryForElementId st el))
        (((getCommitHistoryForElementId st el).filter
            (fun c => c.commitHash != C && decide (c.timestamp < commit.timestamp))).filterMap
          (fun c => getCodeElementVersions st el c.commitHash)) := by
    simp only [getPreviousVersions, hcomm]
    rw [foldl_prev_collect st el C commit.timestamp (getCommitHistoryForElementId st el) []]
    rw [List.nil_append]
  set hist := getCommitHistoryForElementId st el with hhist
  set A := ((hist.filter
      (fun c => c.commitHash != C && decide (c.timestamp < commit.timestamp))).filterMap
    (fun c => getCodeElementVersions st el c.commitHash)) with hA
  have hAmem : ∀ v, v ∈ A ↔ ∃ c, c ∈ hist ∧
      (c.commitHash != C && decide (c.timestamp < commit.timestamp)) = true ∧
      getCodeElementVersions st el c.commitHash = some v := by
    intro v
    rw [hA]
    simp only [List.mem_filterMap, List.mem_filter]
    constructor
    · rintro ⟨c, ⟨hcm, hcp⟩, hg⟩
      exact ⟨c, hcm, hcp, hg⟩
    · rintro ⟨c, hcm, hcp, hg⟩
      exact ⟨c, ⟨hcm, hcp⟩, hg⟩
  have hhistmem : ∀ c, c ∈ hist ↔ c ∈ historyJoin st el := by
    intro c
    rw [hhist]
    exact (sortDescBy_perm (fun c => c.timestamp) (historyJoin st el)).mem_iff
  have hAcand : ∀ v ∈ A, v ∈ prevCandidates st el C commit.timestamp := by
    intro v hv
    rcases (hAmem v).1 hv with ⟨c, hcm, hcp, hg⟩
    rcases band_elim hcp with ⟨hchC, hclt⟩
    have hfind : st.versions.find?
        (fun w => w.elementId == el && w.commitHash == c.commitHash) = some v := hg
    have hvm := List.mem_of_find?_eq_some hfind
    have hvp := List.find?_some hfind
    rcases band_elim hvp with ⟨hvel, hvch⟩
    have hvh : v.commitHash = c.commitHash := beq_iff_eq.1 hvch
    have hcic : c ∈ st.commits := (mem_historyJoin.1 ((hhistmem c).1 hcm)).1
    have hgc : getCommit st v.commitHash = some c := by
      have := find_commit_unique st.commits hnd c hcic
      rw [hvh]
      exact this
    refine List.mem_filter.2 ⟨hvm, ?_⟩
    refine band_intro (band_intro hvel ?_) ?_
    · rw [hvh]
      exact hchC
    · rw [hgc]
      exact hclt
  have hcandA : ∀ q ∈ prevCandidates st el C commit.timestamp,
      ∃ vq ∈ A, vq.commitHash = q.commitHash := by
    intro q hq
    rcases List.mem_filter.1 hq with ⟨hqm, hqp⟩
    rcases band_elim hqp with ⟨hqp1, hqmat⟩
    rcases band_elim hqp1 with ⟨hqel, hqhC⟩
    cases hgq : getCommit st q.commitHash with
    | none => rw [hgq] at hqmat; cases hqmat
    | some cq =>
      rw [hgq] at hqmat
      have hlt : cq.timestamp < commit.timestamp := of_decide_eq_true hqmat
      have hcqm : cq ∈ st.commits := List.mem_of_find?_eq_some hgq
      have hcqh : cq.commitHash = q.commitHash := by
        have := List.find?_some hgq
        simpa using this
      have hcqj : cq ∈ historyJoin st el :=
        mem_historyJoin.2 ⟨hcqm, q, hqm, beq_iff_eq.1 hqel, hcqh.symm⟩
      have hcqhist : cq ∈ hist := (hhistmem cq).2 hcqj
      have hfs : (st.versions.find?
          (fun w => w.elementId == el && w.commitHash == cq.commitHash)).isSome := by
        rw [List.find?_isSome]
        exact ⟨q, hqm, band_intro hqel (by rw [hcqh]; simp)⟩
      rcases Option.isSome_iff_exists.1 hfs with ⟨vq, hvq⟩
      have hvqp := List.find?_some hvq
      rcases band_elim hvqp with ⟨_, hvqh⟩
      refine ⟨vq, (hAmem vq).2 ⟨cq, hcqhist, ?_, hvq⟩, ?_⟩
      · refine band_intro ?_ (by simpa using hlt)
        rw [hcqh]
        exact hqhC
      · rw [beq_iff_eq.1 hvqh, hcqh]
  have hkey : ∀ w ∈ A, ∃ cw, getCommit st w.commitHash = some cw ∧
      versionSortKey hist w = some cw.timestamp := by
    intro w hw
    rcases (hAmem w).1 hw with ⟨c, hcm, _, hg⟩
    have hwp := List.find?_some (hg :
      st.versions.find? (fun x => x.elementId == el && x.commitHash == c.commitHash) = some w)
    rcases band_elim hwp with ⟨_, hwch⟩
    have hfs : (hist.find? (fun d => d.commitHash == w.commitHash)).isSome := by
      rw [List.find?_isSome]
      exact ⟨c, hcm, by rw [beq_iff_eq.1 hwch]; simp⟩
    rcases Option.isSome_iff_exists.1 hfs with ⟨d, hd⟩
    have hdm : d ∈ hist := List.mem_of_find?_eq_some hd
    have hdh : d.commitHash = w.commitHash := by
      have := List.find?_some hd
      simpa using this
    have hdic : d ∈ st.commits := (mem_historyJoin.1 ((hhistmem d).1 hdm)).1
    have hgd : getCommit st w.commitHash = some d := by
      have := find_commit_unique st.commits hnd d hdic
      rw [← hdh]
      exact this
    refine ⟨d, hgd, ?_⟩
    unfold versionSortKey
    rw [hd]
    rfl
  constructor
  · rw [hunf]
    constructor
    · intro hnil
      have hAnil : A = [] := by
        have hperm := sortDescByOpt_perm (versionSortKey hist) A
        rw [hnil] at hperm
        exact hperm.nil_eq.symm
      rw [List.eq_nil_iff_forall_not_mem]
      intro q hq
      rcases hcandA q hq with ⟨vq, hvqA, _⟩
      rw [hAnil] at hvqA
      cases hvqA
    · intro hcnil
      have hAnil : A = [] := by
        rw [List.eq_nil_iff_forall_not_mem]
        intro v hv
        have := hAcand v hv
        rw [hcnil] at this
        cases this
      rw [hAnil]
      rfl
  · intro p t hpt
    rw [hunf] at hpt
    have hallsome : ∀ y ∈ A, (versionSortKey hist y).isSome := by
      intro y hy
      rcases hkey y hy with ⟨cy, _, hky⟩
      rw [hky]
      rfl
    have hpA : p ∈ A := (sortDescByOpt_perm (versionSortKey hist) A).subset
      (hpt ▸ List.mem_cons_self p t)
    refine ⟨hAcand p hpA, ?_⟩
    intro q hq cq cp hgq hgp
    rcases hcandA q hq with ⟨vq, hvqA, hvqh⟩
    rcases hkey vq hvqA with ⟨cvq, hgvq, hkvq⟩
    have hcvq : cvq = cq := by
      rw [hvqh, hgq] at hgvq
      exact (Option.some.inj hgvq).symm
    rcases hkey p hpA with ⟨cp2, hgp2, hkp⟩
    have hcp2 : cp2 = cp := by
      rw [hgp] at hgp2
      exact (Option.some.inj hgp2).symm
    have hmax := sortDescByOpt_head_max (versionSortKey hist) A hallsome p t hpt
      vq hvqA cvq.timestamp cp2.timestamp hkvq hkp
    rw [← hcvq, ← hcp2]
    exact hmax

/-- The version row stored by processFileElement carries a null previous
link when getPreviousVersions finds nothing, and otherwise the head's
version id. -/
theorem processFileElement_lookup (hash : HashFn) (st : Store) (element : CodeElement)
    (C : String) :
    (getPreviousVersions (saveCodeElementVersion (saveCodeElement st element)
        { versionId := generateVersionId hash element.elementId C,
          elementId := element.elementId, commitHash := C,
          name := some (getNameFromIdentifier element.stableIdentifier),
          startLine := none, endLine := none, previousVersionId := none })
        element.elementId C = [] →
      getCodeElementVersion (processFileElement hash C st element)
          (generateVersionId hash element.elementId C) =
        some { versionId := generateVersionId hash element.elementId C,
               elementId := element.elementId, commitHash := C,
               name := some (getNameFromIdentifier element.stableIdentifier),
               startLine := none, endLine := none, previousVersionId := none }) ∧
    (∀ p t, getPreviousVersions (saveCodeElementVersion (saveCodeElement st element)
        { versionId := generateVersionId hash element.elementId C,
          elementId := element.elementId, commitHash := C,
          name := some (getNameFromIdentifier element.stableIdentifier),
          startLine := none, endLine := none, previousVersionId := none })
        element.elementId C = p :: t →
      getCodeElementVersion (processFileElement hash C st element)
          (generateVersionId hash element.elementId C) =
        some { versionId := generateVersionId hash element.elementId C,
               elementId := element.elementId, commitHash := C,
               name := some (getNameFromIdentifier element.stableIdentifier),
               startLine := none, endLine := none,
               previousVersionId := some p.versionId }) := by
  constructor
  · intro hnil
    simp only [processFileElement, hnil]
    exact find_upsert_version st.versions
      { versionId := generateVersionId hash element.elementId C,
        elementId := element.elementId, commitHash := C,
        name := some (getNameFromIdentifier element.stableIdentifier),
        startLine := none, endLine := none, previousVersionId := none }
  · intro p t hcons
    simp only [processFileElement, hcons]
    show (List.map _ ((saveCodeElement st element).versions.filter _ ++ [_])).find? _ = _
    rw [List.map_append]
    have hfix : ((saveCodeElement st element).versions.filter
        (fun x => x.versionId != generateVersionId hash element.elementId C)).map
          (fun v => if v.versionId == generateVersionId hash element.elementId C
            then { v with previousVersionId := some p.versionId } else v) =
        (saveCodeElement st element).versions.filter
          (fun x => x.versionId != generateVersionId hash element.elementId C) := by
      apply map_fix_id
      intro x hx
      have hxne := (List.mem_filter.1 hx).2
      have : ¬ (x.versionId == generateVersionId hash element.elementId C) = true := by
        simpa [bne] using hxne
      simp [this]
    rw [hfix]
    have hone : (List.map
        (fun v => if v.versionId == generateVersionId hash element.elementId C
          then { v with previousVersionId := some p.versionId } else v)
        [{ versionId := generateVersionId hash element.elementId C,
           elementId := element.elementId, commitHash := C,
           name := some (getNameFromIdentifier element.stableIdentifier),
           startLine := none, endLine := none,
           previousVersionId := none : CodeElementVersion }]) =
        [{ versionId := generateVersionId hash element.elementId C,
           elementId := element.elementId, commitHash := C,
           name := some (getNameFromIdentifier element.stableIdentifier),
           startLine := none, endLine := none,
           previousVersionId := some p.versionId : CodeElementVersion }] := by
      simp
    rw [hone]
    exact find_upsert_version st.versions
      { versionId := generateVersionId hash element.elementId C,
        elementId := element.elementId, commitHash := C,
        name := some (getNameFromIdentifier element.stableIdentifier),
        startLine := none, endLine := none, previousVersionId := some p.versionId }

/-- Upserting the element's version for this commit does not change the
candidate set: the replaced rows carry this commit's deterministic id and
the fresh row carries this commit's hash, so none of them is a candidate. -/
theorem prevCandidates_upsert (hash : HashFn) (st : Store) (element : CodeElement)
    (C : String) (T : Int)
    (hkey : ∀ w ∈ st.versions, w.versionId = generateVersionId hash element.elementId C →
      w.elementId = element.elementId ∧ w.commitHash = C) :
    prevCandidates (saveCodeElementVersion (saveCodeElement st element)
        { versionId := generateVersionId hash element.elementId C,
          elementId := element.elementId, commitHash := C,
          name := some (getNameFromIdentifier element.stableIdentifier),
          startLine := none, endLine := none, previousVersionId := none })
      element.elementId C T = prevCandidates st element.elementId C T := by
  unfold prevCandidates
  have hv : (saveCodeElementVersion (saveCodeElement st element)
      { versionId := generateVersionId hash element.elementId C,
        elementId := element.elementId, commitHash := C,
        name := some (getNameFromIdentifier element.stableIdentifier),
        startLine := none, endLine := none, previousVersionId := none }).versions =
      st.versions.filter (fun x => x.versionId != generateVersionId hash element.elementId C) ++
        [{ versionId := generateVersionId hash element.elementId C,
           elementId := element.elementId, commitHash := C,
           name := some (getNameFromIdentifier element.stableIdentifier),
           startLine := none, endLine := none, previousVersionId := none }] := rfl
  have hc : (saveCodeElementVersion (saveCodeElement st element)
      { versionId := generateVersionId hash element.elementId C,
        elementId := element.elementId, commitHash := C,
        name := some (getNameFromIdentifier element.stableIdentifier),
        startLine := none, endLine := none, previousVersionId := none }).commits =
      st.commits := rfl
  simp only [getCommit] at hc ⊢
  rw [hv, hc, List.filter_append]
  have hsing : List.filter (fun w : CodeElementVersion =>
      w.elementId == element.elementId && w.commitHash != C &&
        (match List.find? (fun c => c.commitHash == w.commitHash) st.commits with
         | some c => decide (c.timestamp < T)
         | none => false))
      [{ versionId := generateVersionId hash element.elementId C,
         elementId := element.elementId, commitHash := C,
         name := some (getNameFromIdentifier element.stableIdentifier),
         startLine := none, endLine := none, previousVersionId := none }] = [] := by
    simp
  rw [hsing, List.append_nil]
  apply filter_filter_of_imp
  intro x hx hpx
  rcases band_elim hpx with ⟨hpx1, _⟩
  rcases band_elim hpx1 with ⟨_, hxhC⟩
  by_contra hbne
  have hxid : x.versionId = generateVersionId hash element.elementId C := by
    simpa [bne] using hbne
  have hxc := (hkey x hx hxid).2
  rw [hxc] at hxhC
  simp at hxhC

/-- C3: the version recorded for an element at a commit gets
previousVersionId null when no version of the element has a strictly
earlier stored commit timestamp, and otherwise a candidate version of
maximal commit timestamp among all strictly earlier ones.  The store is
assumed key-consistent: commit hashes are unique and any stored row
carrying this (element, commit) digest is a row for this element and
commit. -/
theorem c3_record_version_previous_max (hash : HashFn) (st : Store) (element : CodeElement)
    (C : String) (commit : CommitRow)
    (hcomm : getCommit st C = some commit) (hnd : commitsNodup st)
    (hkey : ∀ w ∈ st.versions, w.versionId = generateVersionId hash element.elementId C →
      w.elementId = element.elementId ∧ w.commitHash = C) :
    (prevCandidates st element.elementId C commit.timestamp = [] →
      getCodeElementVersion (processFileElement hash C st element)
          (generateVersionId hash element.elementId C) =
        some { versionId := generateVersionId hash element.elementId C,
               elementId := element.elementId, commitHash := C,
               name := some (getNameFromIdentifier element.stableIdentifier),
               startLine := none, endLine := none, previousVersionId := none }) ∧
    (prevCandidates st element.elementId C commit.timestamp ≠ [] →
      ∃ p, p ∈ prevCandidates st element.elementId C commit.timestamp ∧
        (∀ q ∈ prevCandidates st element.elementId C commit.timestamp, ∀ cq cp,
          getCommit st q.commitHash = some cq → getCommit st p.commitHash = some cp →
          cq.timestamp ≤ cp.timestamp) ∧
        getCodeElementVersion (processFileElement hash C st element)
            (generateVersionId hash element.elementId C) =
          some { versionId := generateVersionId hash element.elementId C,
                 elementId := element.elementId, commitHash := C,
                 name := some (getNameFromIdentifier element.stableIdentifier),
                 startLine := none, endLine := none,
                 previousVersionId := some p.versionId }) := by
  have hcomm2 : getCommit (saveCodeElementVersion (saveCodeElement st element)
      { versionId := generateVersionId hash element.elementId C,
        elementId := element.elementId, commitHash := C,
        name := some (getNameFromIdentifier element.stableIdentifier),
        startLine := none, endLine := none, previousVersionId := none }) C = some commit := hcomm
  have hnd2 : commitsNodup (saveCodeElementVersion (saveCodeElement st element)
      { versionId := generateVersionId hash element.elementId C,
        elementId := element.elementId, commitHash := C,
        name := some (getNameFromIdentifier element.stableIdentifier),
        startLine := none, endLine := none, previousVersionId := none }) := hnd
  have hspec := getPreviousVersions_spec _ element.elementId C commit hcomm2 hnd2
  have hcand := prevCandidates_upsert hash st element C commit.timestamp hkey
  have hlook := processFileElement_lookup hash st element C
  constructor
  · intro hnil
    apply hlook.1
    apply hspec.1.2
    rw [hcand]
    exact hnil
  · intro hne
    cases hp : getPreviousVersions (saveCodeElementVersion (saveCodeElement st element)
        { versionId := generateVersionId hash element.elementId C,
          elementId := element.elementId, commitHash := C,
          name := some (getNameFromIdentifier element.stableIdentifier),
          startLine := none, endLine := none, previousVersionId := none })
        element.elementId C with
    | nil =>
      exact absurd (hcand ▸ hspec.1.1 hp) hne
    | cons p t =>
      obtain ⟨hpc, hmax⟩ := hspec.2 p t hp
      rw [hcand] at hpc
      refine ⟨p, hpc, ?_, hlook.2 p t hp⟩
      intro q hq cq cp h1 h2
      have hq2 := (hcand.symm ▸ hq :)
      exact hmax q hq2 cq cp h1 h2

/-- A store with one prior version used by the C3 witness. -/
def c3Store : Store :=
  { emptyStore with
    commits := [⟨"c1", "r", "m", 1, "a", "a"⟩, ⟨"c2", "r", "m", 2, "a", "a"⟩],
    versions := [⟨"v1", "e1", "c1", none, none, none, none⟩] }

/-- The element used by the C3 witness. -/
def c3Element : CodeElement := ⟨"e1", "r", "class", "x.ts:class:A"⟩

/-- Witness for C3: recording a version at the later commit links it to the
prior version. -/
theorem c3_witness :
    getCommit c3Store "c2" = some ⟨"c2", "r", "m", 2, "a", "a"⟩ ∧
    commitsNodup c3Store ∧
    getCodeElementVersion (processFileElement idHash "c2" c3Store c3Element)
        (generateVersionId idHash "e1" "c2") =
      some ⟨generateVersionId idHash "e1" "c2", "e1", "c2", some "A",
        none, none, some "v1"⟩ := by
  refine ⟨by decide, by decide, ?_⟩
  have h := (c3_record_version_previous_max idHash c3Store c3Element "c2"
    ⟨"c2", "r", "m", 2, "a", "a"⟩ (by decide) (by decide) (by decide)).2 (by decide)
  obtain ⟨p, hpc, _, heq⟩ := h
  have hp1 : p = ⟨"v1", "e1", "c1", none, none, none, none⟩ := by
    have hcands : prevCandidates c3Store c3Element.elementId "c2"
        ({ commitHash := "c2", repoId := "r", message := "m", timestamp := 2,
           authorDevId := "a", committerDevId := "a" } : CommitRow).timestamp =
        [⟨"v1", "e1", "c1", none, none, none, none⟩] := by decide
    rw [hcands] at hpc
    simpa using hpc
  rw [hp1] at heq
  exact heq

/-! The architecture diagram data (C9). -/

/-- The edge the diagram loop would add for one element, if any. -/
def edgeOf (elements : List CodeElement) (element : CodeElement) : Option DiagramEdge :=
  if element.type == "class" then
    (elements.find? (fun e => e.type == "file" &&
        e.stableIdentifier == (splitChar ':' element.stableIdentifier).headD "")).map
      (fun fileElement =>
        { source := fileElement.elementId, target := element.elementId, type := "contains" })
  else none

/-- One step of a fold that appends an optional result. -/
def optStep {α β : Type} (g : α → Option β) (acc : List β) (c : α) : List β :=
  match g c with
  | some v => acc ++ [v]
  | none => acc

/-- Generic accumulation of optional results. -/
theorem foldl_opt_collect {α β : Type} (g : α → Option β) (l : List α) :
    ∀ acc : List β, l.foldl (optStep g) acc = acc ++ l.filterMap g := by
  induction l with
  | nil => intro acc; simp
  | cons x t ih =>
    intro acc
    rw [List.foldl_cons, List.filterMap_cons]
    cases hg : g x with
    | none =>
      have hs : optStep g acc x = acc := by simp [optStep, hg]
      rw [hs, ih acc]
    | some v =>
      have hs : optStep g acc x = acc ++ [v] := by simp [optStep, hg]
      rw [hs, ih (acc ++ [v])]
      simp

/-- The diagram edge list is the filterMap of edgeOf over the repository's
elements. -/
theorem diagram_edges_eq (st : Store) (repoId : String) :
    (getArchitectureDiagramData st repoId).2 =
      (getAllCodeElements st repoId).filterMap (edgeOf (getAllCodeElements st repoId)) := by
  simp only [getArchitectureDiagramData]
  have hbody : (fun (acc : List DiagramEdge) (element : CodeElement) =>
      if element.type == "class" then
        match (getAllCodeElements st repoId).find? (fun e => e.type == "file" &&
            e.stableIdentifier == (splitChar ':' element.stableIdentifier).headD "") with
        | some fileElement =>
          acc ++ [{ source := fileElement.elementId, target := element.elementId,
                    type := "contains" }]
        | none => acc
      else acc) = optStep (edgeOf (getAllCodeElements st repoId)) := by
    funext acc element
    unfold optStep edgeOf
    by_cases h : element.type == "class"
    · rw [if_pos h, if_pos h]
      cases (getAllCodeElements st repoId).find? (fun e => e.type == "file" &&
          e.stableIdentifier == (splitChar ':' element.stableIdentifier).headD "") with
      | none => rfl
      | some fe => rfl
    · rw [if_neg h, if_neg h]
  rw [hbody]
  have h := foldl_opt_collect (edgeOf (getAllCodeElements st repoId))
    (getAllCodeElements st repoId) []
  rw [List.nil_append] at h
  exact h

/-- C9 counterexample store: a file element plus a function element of that
file. -/
def fnDiagramStore : Store :=
  { emptyStore with
    elements := [⟨"f1", "r", "file", "x.ts"⟩, ⟨"g1", "r", "function", "x.ts:function:g"⟩] }

/-- C9, as stated, is false: the function element of fnDiagramStore has its
containing file element in the listing, yet no contains edge targets it. -/
theorem c9_counterexample :
    ¬ (∀ el ∈ getAllCodeElements fnDiagramStore "r",
        (el.type = "class" ∨ el.type = "function") →
        (∃ fe ∈ getAllCodeElements fnDiagramStore "r", fe.type = "file" ∧
          fe.stableIdentifier = (splitChar ':' el.stableIdentifier).headD "") →
        ∃ e ∈ (getArchitectureDiagramData fnDiagramStore "r").2,
          e.type = "contains" ∧ e.target = el.elementId) := by
  decide

/-- C9 (amended): in the diagram data, every class element whose containing
file element is present gets a derived contains edge from a file element;
every edge is such a class-containment edge, so function elements are never
connected; and each node's hasDecisions flag is true exactly when the
element's latest version exists and has at least one linked decision. -/
theorem c9_diagram_amended (st : Store) (repoId : String) :
    (∀ el ∈ getAllCodeElements st repoId, el.type = "class" →
      (∃ fe ∈ getAllCodeElements st repoId, fe.type = "file" ∧
        fe.stableIdentifier = (splitChar ':' el.stableIdentifier).headD "") →
      ∃ e ∈ (getArchitectureDiagramData st repoId).2,
        e.type = "contains" ∧ e.target = el.elementId ∧
        ∃ fe ∈ getAllCodeElements st repoId, fe.type = "file" ∧ e.source = fe.elementId) ∧
    (∀ e ∈ (getArchitectureDiagramData st repoId).2,
      e.type = "contains" ∧
      ∃ el ∈ getAllCodeElements st repoId, el.type = "class" ∧ e.target = el.elementId ∧
      ∃ fe ∈ getAllCodeElements st repoId, fe.type = "file" ∧
        fe.stableIdentifier = (splitChar ':' el.stableIdentifier).headD "" ∧
        e.source = fe.elementId) ∧
    (∀ n ∈ (getArchitectureDiagramData st repoId).1,
      (n.hasDecisions = true ↔
        ∃ version, findLatestCodeElementVersion st n.elementId = some version ∧
          findDecisionRecordsLinkedToVersion st version.versionId ≠ [])) := by
  refine ⟨?_, ?_, ?_⟩
  · intro el hel htype hfe
    rcases hfe with ⟨fe, hfem, hfet, hfes⟩
    have hfs : ((getAllCodeElements st repoId).find? (fun e => e.type == "file" &&
        e.stableIdentifier == (splitChar ':' el.stableIdentifier).headD "")).isSome := by
      rw [List.find?_isSome]
      exact ⟨fe, hfem, band_intro (by simp [hfet]) (by simp [hfes])⟩
    rcases Option.isSome_iff_exists.1 hfs with ⟨fe0, hfe0⟩
    have hfe0m := List.mem_of_find?_eq_some hfe0
    have hfe0p := List.find?_some hfe0
    rcases band_elim hfe0p with ⟨hfe0t, _⟩
    have hedge : edgeOf (getAllCodeElements st repoId) el =
        some { source := fe0.elementId, target := el.elementId, type := "contains" } := by
      unfold edgeOf
      rw [if_pos (by simp [htype]), hfe0]
      rfl
    refine ⟨{ source := fe0.elementId, target := el.elementId, type := "contains" }, ?_,
      rfl, rfl, fe0, hfe0m, beq_iff_eq.1 hfe0t, rfl⟩
    rw [diagram_edges_eq]
    exact List.mem_filterMap.2 ⟨el, hel, hedge⟩
  · intro e he
    rw [diagram_edges_eq] at he
    rcases List.mem_filterMap.1 he with ⟨el, hel, hg⟩
    unfold edgeOf at hg
    by_cases hcl : el.type == "class"
    · rw [if_pos hcl] at hg
      cases hfe : (getAllCodeElements st repoId).find? (fun x => x.type == "file" &&
          x.stableIdentifier == (splitChar ':' el.stableIdentifier).headD "") with
      | none => rw [hfe] at hg; cases hg
      | some fe0 =>
        rw [hfe] at hg
        have he2 : e = { source := fe0.elementId, target := el.elementId,
                         type := "contains" : DiagramEdge } := by
          have := Option.some.inj hg
          exact this.symm
        have hfep := List.find?_some hfe
        rcases band_elim hfep with ⟨hfet, hfes⟩
        subst he2
        exact ⟨rfl, el, hel, beq_iff_eq.1 hcl, rfl, fe0, List.mem_of_find?_eq_some hfe,
          beq_iff_eq.1 hfet, beq_iff_eq.1 hfes, rfl⟩
    · rw [if_neg hcl] at hg
      cases hg
  · intro n hn
    simp only [getArchitectureDiagramData] at hn
    rcases List.mem_map.1 hn with ⟨el, hel, hne⟩
    subst hne
    cases hfl : findLatestCodeElementVersion st el.elementId with
    | none =>
      simp only [hfl]
      constructor
      · intro hfalse
        cases hfalse
      · rintro ⟨version, hv, _⟩
        exact Option.noConfusion hv
    | some v =>
      simp only [hfl]
      constructor
      · intro htrue
        refine ⟨v, rfl, ?_⟩
        intro hnil
        rw [hnil] at htrue
        cases htrue
      · rintro ⟨version, hv, hne2⟩
        have hvv : version = v := (Option.some.inj hv).symm
        subst hvv
        simp only [Bool.not_eq_true']
        cases hl : findDecisionRecordsLinkedToVersion st version.versionId with
        | nil => exact absurd hl hne2
        | cons a t => rfl

/-- C9 witness store: a file element and a class element of that file. -/
def classDiagramStore : Store :=
  { emptyStore with
    elements := [⟨"f1", "r", "file", "x.ts"⟩, ⟨"k1", "r", "class", "x.ts:class:K"⟩] }

/-- Witness for C9 (amended): the class element is connected to its file. -/
theorem c9_witness :
    (⟨"k1", "r", "class", "x.ts:class:K"⟩ : CodeElement) ∈
        getAllCodeElements classDiagramStore "r" ∧
      ∃ e ∈ (getArchitectureDiagramData classDiagramStore "r").2,
        e.type = "contains" ∧ e.target = "k1" := by
  refine ⟨by decide, ?_⟩
  obtain ⟨e, he, h1, h2, _⟩ := (c9_diagram_amended classDiagramStore "r").1
    ⟨"k1", "r", "class", "x.ts:class:K"⟩ (by decide) rfl
    ⟨⟨"f1", "r", "file", "x.ts"⟩, by decide, rfl, by decide⟩
  exact ⟨e, he, h1, h2⟩

/-! The change cache (C8): the skip branch and the disabled-cache frame. -/

/-- processFileElement never reads or writes the file_hashes table. -/
theorem processFileElement_fileHashes_frame (hash : HashFn) (C : String) (st : Store)
    (A : List (String × String × String)) (element : CodeElement) :
    processFileElement hash C { st with fileHashes := A } element =
      { processFileElement hash C st element with fileHashes := A } := by
  simp only [processFileElement]
  have hprev : getPreviousVersions (saveCodeElementVersion
      (saveCodeElement { st with fileHashes := A } element)
      { versionId := generateVersionId hash element.elementId C,
        elementId := element.elementId, commitHash := C,
        name := some (getNameFromIdentifier element.stableIdentifier),
        startLine := none, endLine := none, previousVersionId := none })
      element.elementId C =
    getPreviousVersions (saveCodeElementVersion (saveCodeElement st element)
      { versionId := generateVersionId hash element.elementId C,
        elementId := element.elementId, commitHash := C,
        name := some (getNameFromIdentifier element.stableIdentifier),
        startLine := none, endLine := none, previousVersionId := none })
      element.elementId C := rfl
  rw [hprev]
  cases getPreviousVersions (saveCodeElementVersion (saveCodeElement st element)
      { versionId := generateVersionId hash element.elementId C,
        elementId := element.elementId, commitHash := C,
        name := some (getNameFromIdentifier element.stableIdentifier),
        startLine := none, endLine := none, previousVersionId := none })
      element.elementId C with
  | nil => rfl
  | cons p t => rfl

/-- The per-element loop never reads or writes the file_hashes table. -/
theorem foldl_processFileElement_fileHashes_frame (hash : HashFn) (C : String)
    (els : List CodeElement) :
    ∀ (st : Store) (A : List (String × String × String)),
      els.foldl (processFileElement hash C) { st with fileHashes := A } =
        { els.foldl (processFileElement hash C) st with fileHashes := A } := by
  induction els with
  | nil => intro st A; rfl
  | cons e t ih =>
    intro st A
    rw [List.foldl_cons, List.foldl_cons, processFileElement_fileHashes_frame]
    exact ih (processFileElement hash C st e) A

/-- With the cache disabled, processing one file neither reads nor writes
the file_hashes table. -/
theorem processFile_fileHashes_frame (hash : HashFn) (env : WorldEnv)
    (repoPath repoId commitHash : String) (st : Store)
    (A : List (String × String × String)) (filePath : String) :
    processFile hash env false repoPath repoId commitHash { st with fileHashes := A } filePath =
      { processFile hash env false repoPath repoId commitHash st filePath with
        fileHashes := A } := by
  simp only [processFile]
  cases env.statSize (repoPath ++ "/" ++ filePath) with
  | none => rfl
  | some size =>
    by_cases hsize : maxFileSizeBytes < size
    · simp only [if_pos hsize]
    · simp only [if_neg hsize]
      by_cases hparse : canParseFile (repoPath ++ "/" ++ filePath)
      · simp only [hparse, Bool.not_true, Bool.false_eq_true, if_false]
        exact foldl_processFileElement_fileHashes_frame hash commitHash _ st A
      · simp only [Bool.not_eq_true] at hparse
        simp only [hparse, Bool.not_false, if_true]

/-- C8: with the file cache enabled, a file whose stored hash equals the
current content hash is skipped entirely (the store is unchanged by that
file); with the cache disabled, processCommit neither reads nor writes the
file_hashes table, so every file is processed the same way regardless of
stored hashes. -/
theorem c8_cache_skip_and_disable (hash : HashFn) (env : WorldEnv)
    (repoPath repoId commitHash : String) :
    (∀ (st : Store) (filePath h : String),
      (env.readFile (repoPath ++ "/" ++ filePath)).map env.sha1 = some h →
      getFileHash st repoId (repoPath ++ "/" ++ filePath) = some h →
      processFile hash env true repoPath repoId commitHash st filePath = st) ∧
    (∀ (st : Store) (A : List (String × String × String)),
      processCommit hash env false repoPath repoId commitHash { st with fileHashes := A } =
        { processCommit hash env false repoPath repoId commitHash st with fileHashes := A }) := by
  constructor
  · intro st filePath h hread hstored
    simp only [processFile]
    cases env.statSize (repoPath ++ "/" ++ filePath) with
    | none => rfl
    | some size =>
      by_cases hsize : maxFileSizeBytes < size
      · simp only [if_pos hsize]
      · simp only [if_neg hsize]
        by_cases hparse : canParseFile (repoPath ++ "/" ++ filePath)
        · simp only [hparse, Bool.not_true, Bool.false_eq_true, if_false]
          simp only [if_true, hread, hstored, beq_self_eq_true, if_pos]
        · simp only [Bool.not_eq_true] at hparse
          simp only [hparse, Bool.not_false, if_true]
  · intro st A
    unfold processCommit
    by_cases hc : env.hasCommit repoPath commitHash
    · simp only [hc, Bool.not_true, Bool.false_eq_true, if_false]
      cases env.gitShow repoPath commitHash with
      | none => rfl
      | some stdout =>
        show List.foldl (processFile hash env false repoPath repoId commitHash)
            { st with fileHashes := A } (changedFilesOf stdout) =
          { List.foldl (processFile hash env false repoPath repoId commitHash) st
              (changedFilesOf stdout) with fileHashes := A }
        generalize changedFilesOf stdout = files
        induction files generalizing st with
        | nil => rfl
        | cons f t ih =>
          rw [List.foldl_cons, List.foldl_cons, processFile_fileHashes_frame]
          exact ih (processFile hash env false repoPath repoId commitHash st f)
    · simp only [Bool.not_eq_true] at hc
      simp only [hc, Bool.not_false, if_true]

/-- Environment for the C8 witness: one parseable file whose content hashes
to h1. -/
def cacheEnv : WorldEnv :=
  { readFile := fun _ => some "body",
    tree := fun _ => SyntaxNode.mk "program" none [],
    sha1 := fun _ => "h1",
    statSize := fun _ => some 10,
    hasCommit := fun _ _ => true,
    gitShow := fun _ _ => some "x.ts" }

/-- Store for the C8 witness, with the file's hash already recorded. -/
def cacheStore : Store :=
  { emptyStore with fileHashes := [("r", "/repo/x.ts", "h1")] }

/-- Witness for C8: the cached file is skipped with the store unchanged. -/
theorem c8_witness :
    (cacheEnv.readFile ("/repo" ++ "/" ++ "x.ts")).map cacheEnv.sha1 = some "h1" ∧
    getFileHash cacheStore "r" ("/repo" ++ "/" ++ "x.ts") = some "h1" ∧
    processFile idHash cacheEnv true "/repo" "r" "c1" cacheStore "x.ts" = cacheStore :=
  ⟨by decide, by decide,
    (c8_cache_skip_and_disable idHash cacheEnv "/repo" "r" "c1").1 cacheStore "x.ts" "h1"
      (by decide) (by decide)⟩

/-! Version chains under ingestion (C4).  The digest is assumed injective
with colon-free output, which is what makes the composed version id
(elementId + colon + commitHash, then digested) collision-free: real
digests are hex strings.  A concrete escaping digest realizes these
assumptions for the witness. -/

/-- An escaping code: colon and percent are escaped behind a percent. -/
def escChar (c : Char) : List Char :=
  if c = ':' then ['%', 'c'] else if c = '%' then ['%', 'p'] else [c]

/-- The concrete injective colon-free digest used by witnesses. -/
def sepHash : HashFn := fun s => String.mk (s.data.flatMap escChar)

/-- escChar never emits a colon. -/
theorem escChar_no_colon (c : Char) : ':' ∉ escChar c := by
  unfold escChar
  by_cases h1 : c = ':'
  · simp [h1]
  · by_cases h2 : c = '%'
    · simp [h1, h2]
    · simp [h1, h2]
      intro h
      exact h1 h.symm

/-- The escaped concatenation never contains a colon. -/
theorem sepHash_no_colon (s : String) : ':' ∉ (sepHash s).data := by
  unfold sepHash
  intro h
  simp only [String.mk] at h
  rcases List.mem_flatMap.1 h with ⟨c, _, hc⟩
  exact escChar_no_colon c hc

/-- The escaping code is injective on character lists. -/
theorem flatMap_escChar_inj : ∀ l1 l2 : List Char,
    l1.flatMap escChar = l2.flatMap escChar → l1 = l2 := by
  intro l1
  induction l1 with
  | nil =>
    intro l2 h
    cases l2 with
    | nil => rfl
    | cons b bs =>
      exfalso
      rw [List.flatMap_nil, List.flatMap_cons] at h
      unfold escChar at h
      by_cases hb1 : b = ':'
      · simp [hb1] at h
      · by_cases hb2 : b = '%'
        · simp [hb1, hb2] at h
        · simp [hb1, hb2] at h
  | cons a as ih =>
    intro l2 h
    cases l2 with
    | nil =>
      exfalso
      rw [List.flatMap_cons, List.flatMap_nil] at h
      unfold escChar at h
      by_cases ha1 : a = ':'
      · simp [ha1] at h
      · by_cases ha2 : a = '%'
        · simp [ha1, ha2] at h
        · simp [ha1, ha2] at h
    | cons b bs =>
      rw [List.flatMap_cons, List.flatMap_cons] at h
      unfold escChar at h
      by_cases ha1 : a = ':' <;> by_cases hb1 : b = ':'
      · rw [if_pos ha1, if_pos hb1] at h
        simp only [List.cons_append, List.nil_append, List.cons.injEq] at h
        rw [ha1, hb1, ih bs h.2.2]
      · by_cases hb2 : b = '%'
        · rw [if_pos ha1, if_neg hb1, if_pos hb2] at h
          simp only [List.cons_append, List.nil_append, List.cons.injEq] at h
          cases h.2.1
        · rw [if_pos ha1, if_neg hb1, if_neg hb2] at h
          simp only [List.cons_append, List.singleton_append, List.cons.injEq] at h
          exact absurd h.1.symm hb2
      · by_cases ha2 : a = '%'
        · rw [if_neg ha1, if_pos ha2, if_pos hb1] at h
          simp only [List.cons_append, List.nil_append, List.cons.injEq] at h
          cases h.2.1
        · rw [if_neg ha1, if_neg ha2, if_pos hb1] at h
          simp only [List.cons_append, List.singleton_append, List.cons.injEq] at h
          exact absurd h.1 ha2
      · by_cases ha2 : a = '%' <;> by_cases hb2 : b = '%'
        · rw [if_neg ha1, if_pos ha2, if_neg hb1, if_pos hb2] at h
          simp only [List.cons_append, List.nil_append, List.cons.injEq] at h
          rw [ha2, hb2, ih bs h.2.2]
        · rw [if_neg ha1, if_pos ha2, if_neg hb1, if_neg hb2] at h
          simp only [List.cons_append, List.singleton_append, List.cons.injEq] at h
          exact absurd h.1.symm hb2
        · rw [if_neg ha1, if_neg ha2, if_neg hb1, if_pos hb2] at h
          simp only [List.cons_append, List.singleton_append, List.cons.injEq] at h
          exact absurd h.1 ha2
        · rw [if_neg ha1, if_neg ha2, if_neg hb1, if_neg hb2] at h
          simp only [List.singleton_append, List.cons.injEq] at h
          rw [h.1, ih bs h.2]

/-- sepHash is injective. -/
theorem sepHash_injective : Function.Injective sepHash := by
  intro s t h
  unfold sepHash at h
  have hd := congrArg String.data h
  exact string_eq_of_data_eq (flatMap_escChar_inj s.data t.data hd)

/-- A list with a colon-free prefix splits uniquely at the first colon. -/
theorem colonfree_split_unique : ∀ (l1 r1 l2 r2 : List Char), ':' ∉ l1 → ':' ∉ l2 →
    l1 ++ ':' :: r1 = l2 ++ ':' :: r2 → l1 = l2 ∧ r1 = r2 := by
  intro l1
  induction l1 with
  | nil =>
    intro r1 l2 r2 _ h2 h
    cases l2 with
    | nil =>
      simp only [List.nil_append, List.cons.injEq] at h
      exact ⟨rfl, h.2⟩
    | cons b bs =>
      simp only [List.nil_append, List.cons_append, List.cons.injEq] at h
      exact absurd (h.1 ▸ List.mem_cons_self b bs) (h.1 ▸ h2)
  | cons a as ih =>
    intro r1 l2 r2 h1 h2 h
    cases l2 with
    | nil =>
      simp only [List.cons_append, List.nil_append, List.cons.injEq] at h
      exact absurd (h.1 ▸ List.mem_cons_self a as) (h.1 ▸ h1)
    | cons b bs =>
      simp only [List.cons_append, List.cons.injEq] at h
      have hr := ih r1 bs r2 (fun hm => h1 (List.mem_cons_of_mem a hm))
        (fun hm => h2 (List.mem_cons_of_mem b hm)) h.2
      exact ⟨by rw [h.1, hr.1], hr.2⟩

/-- With colon-free element ids, the string fed to the version digest
determines both components. -/
theorem versionIdInput_inj (e1 h1 e2 h2 : String)
    (hc1 : ':' ∉ e1.data) (hc2 : ':' ∉ e2.data)
    (h : versionIdInput e1 h1 = versionIdInput e2 h2) : e1 = e2 ∧ h1 = h2 := by
  unfold versionIdInput at h
  have hd := congrArg String.data h
  simp only [String.data_append, List.append_assoc, List.singleton_append] at hd
  rcases colonfree_split_unique e1.data h1.data e2.data h2.data hc1 hc2 hd with ⟨ha, hb⟩
  exact ⟨string_eq_of_data_eq ha, string_eq_of_data_eq hb⟩

/-- Members of the child-list extraction come from some child. -/
theorem mem_extractTypeScriptList (hash : HashFn) (repoId filePath : String)
    (ctx : Option (Option String)) :
    ∀ (cs : List SyntaxNode) (e : CodeElement),
      e ∈ extractTypeScriptList hash repoId filePath ctx cs →
      ∃ c ∈ cs, e ∈ extractTypeScriptElements hash repoId filePath ctx c := by
  intro cs
  induction cs with
  | nil =>
    intro e h
    rw [extractTypeScriptList] at h
    exact absurd h (List.not_mem_nil e)
  | cons c cs ih =>
    intro e h
    rw [extractTypeScriptList] at h
    rcases List.mem_append.1 h with h1 | h2
    · exact ⟨c, List.mem_cons_self c cs, h1⟩
    · rcases ih e h2 with ⟨d, hd, hde⟩
      exact ⟨d, List.mem_cons_of_mem c hd, hde⟩

/-- Every TypeScript-extracted element id is a digest output. -/
theorem extractTS_elementId_digest (hash : HashFn) (repoId filePath : String) :
    ∀ (n : Nat) (node : SyntaxNode) (ctx : Option (Option String)) (e : CodeElement),
      sizeOf node ≤ n → e ∈ extractTypeScriptElements hash repoId filePath ctx node →
      ∃ s, e.elementId = hash s := by
  intro n
  induction n with
  | zero =>
    intro node ctx e hsz _
    cases node with
    | mk t nm cs => simp [SyntaxNode.mk.sizeOf_spec] at hsz
  | succ n ih =>
    intro node ctx e hsz he
    cases node with
    | mk t nm cs =>
      simp only [extractTypeScriptElements] at he
      rcases List.mem_append.1 he with hown | hlist
      · repeat' split at hown
        all_goals first
          | exact absurd hown (List.not_mem_nil e)
          | (rw [List.mem_singleton] at hown; subst hown; exact ⟨_, rfl⟩)
      · rcases mem_extractTypeScriptList hash repoId filePath _ cs e hlist with ⟨c, hc, hce⟩
        have h1 : sizeOf c < sizeOf cs := List.sizeOf_lt_of_mem hc
        have h2 : sizeOf (SyntaxNode.mk t nm cs) = 1 + sizeOf t + sizeOf nm + sizeOf cs :=
          SyntaxNode.mk.sizeOf_spec t nm cs
        exact ih c _ e (by omega) hce

/-- Members of a successful Python child-list extraction come from some child. -/
theorem mem_extractPythonList (hash : HashFn) (repoId filePath : String)
    (ctx : Option (Option String)) :
    ∀ (cs : List SyntaxNode) (l : List CodeElement) (e : CodeElement),
      extractPythonList hash repoId filePath ctx cs = some l → e ∈ l →
      ∃ c ∈ cs, ∃ lc, extractPythonElements hash repoId filePath ctx c = some lc ∧ e ∈ lc := by
  intro cs
  induction cs with
  | nil =>
    intro l e h he
    rw [extractPythonList] at h
    cases h
    exact absurd he (List.not_mem_nil e)
  | cons c cs ih =>
    intro l e h he
    rw [extractPythonList] at h
    cases hc : extractPythonElements hash repoId filePath ctx c with
    | none => rw [hc] at h; cases h
    | some o =>
      rw [hc] at h
      cases hrest : extractPythonList hash repoId filePath ctx cs with
      | none => rw [hrest] at h; cases h
      | some rest =>
        rw [hrest] at h
        cases h
        rcases List.mem_append.1 he with h1 | h2
        · exact ⟨c, List.mem_cons_self c cs, o, hc, h1⟩
        · rcases ih rest e hrest h2 with ⟨d, hd, lc, hlc, hle⟩
          exact ⟨d, List.mem_cons_of_mem c hd, lc, hlc, hle⟩

/-- Every Python-extracted element id is a digest output. -/
theorem extractPy_elementId_digest (hash : HashFn) (repoId filePath : String) :
    ∀ (n : Nat) (node : SyntaxNode) (ctx : Option (Option String))
      (l : List CodeElement) (e : CodeElement),
      sizeOf node ≤ n → extractPythonElements hash repoId filePath ctx node = some l →
      e ∈ l → ∃ s, e.elementId = hash s := by
  intro n
  induction n with
  | zero =>
    intro node ctx l e hsz _ _
    cases node with
    | mk t nm cs => simp [SyntaxNode.mk.sizeOf_spec] at hsz
  | succ n ih =>
    intro node ctx l e hsz hn he
    cases node with
    | mk t nm cs =>
      simp only [extractPythonElements] at hn
      split at hn
      · cases hn
      · rcases hsplit : extractPythonList hash repoId filePath
          (if t = "class_definition" then some nm else ctx) cs with _ | rest
        · rw [hsplit] at hn; cases hn
        · rw [hsplit] at hn
          cases hn
          rcases List.mem_append.1 he with hown | hlist
          · rename_i o hownEq
            revert hownEq
            repeat' split
            all_goals intro hownEq
            all_goals cases hownEq
            all_goals first
              | exact absurd hown (List.not_mem_nil e)
              | (rw [List.mem_singleton] at hown; subst hown; exact ⟨_, rfl⟩)
          · rcases mem_extractPythonList hash repoId filePath _ cs rest e hsplit hlist with
              ⟨c, hc, lc, hlc, hle⟩
            have h1 : sizeOf c < sizeOf cs := List.sizeOf_lt_of_mem hc
            have h2 : sizeOf (SyntaxNode.mk t nm cs) = 1 + sizeOf t + sizeOf nm + sizeOf cs :=
              SyntaxNode.mk.sizeOf_spec t nm cs
            exact ih c _ lc e (by omega) hlc hle

/-- Every element produced by parseFile has a digest-output elementId. -/
theorem parseFile_elementId_digest (hash : HashFn) (env : WorldEnv)
    (filePath repoId : String) :
    ∀ e ∈ parseFile hash env filePath repoId, ∃ s, e.elementId = hash s := by
  intro e he
  rw [parseFile] at he
  cases hrf : env.readFile filePath with
  | none => rw [hrf] at he; exact absurd he (List.not_mem_nil e)
  | some content =>
    rw [hrf] at he
    simp only [] at he
    split at he
    · rcases List.mem_cons.1 he with rfl | h2
      · exact ⟨_, rfl⟩
      · exact extractTS_elementId_digest hash repoId filePath _ _ none e (le_refl _) h2
    · rename_i hpy
      split at he
      · exact absurd he (List.not_mem_nil e)
      · rename_i els hels
        rcases List.mem_cons.1 he with rfl | h2
        · exact ⟨_, rfl⟩
        · exact extractPy_elementId_digest hash repoId filePath _ _ none els e
            (le_refl _) hels h2
    · rw [List.mem_singleton] at he
      subst he
      exact ⟨_, rfl⟩

/-! The ingestion invariant behind C4 and the reachable-state relation. -/

/-- The version_id primary key is unique. -/
def versionIdsNodup (st : Store) : Prop :=
  (st.versions.map (fun v => v.versionId)).Nodup

/-- Every stored version id is the digest of its own element id and commit
hash, and the element id (a digest output) is colon-free. -/
def versionsCoherent (hash : HashFn) (st : Store) : Prop :=
  ∀ v ∈ st.versions,
    v.versionId = generateVersionId hash v.elementId v.commitHash ∧ ':' ∉ v.elementId.data

/-- Every realized previous link points at a stored version row. -/
def prevLinksRealized (st : Store) : Prop :=
  ∀ v ∈ st.versions, ∀ pid, v.previousVersionId = some pid →
    ∃ w ∈ st.versions, w.versionId = pid

/-- Every stored commit row agrees with the (read-only) git history. -/
def commitsConsistent (gc : String → Option CommitRow) (st : Store) : Prop :=
  ∀ c ∈ st.commits, gc c.commitHash = some c

/-- The ingestion invariant. -/
def StoreInv (hash : HashFn) (gc : String → Option CommitRow) (st : Store) : Prop :=
  versionIdsNodup st ∧ versionsCoherent hash st ∧ prevLinksRealized st ∧
    prevLinksDecreasing st ∧ commitsNodup st ∧ commitsConsistent gc st

/-- versionIdsNodup is decidable. -/
instance (st : Store) : Decidable (versionIdsNodup st) := by
  unfold versionIdsNodup
  exact inferInstance

/-- versionsCoherent is decidable. -/
instance (hash : HashFn) (st : Store) : Decidable (versionsCoherent hash st) := by
  unfold versionsCoherent
  exact inferInstance

/-- prevLinksRealized is decidable. -/
instance (st : Store) : Decidable (prevLinksRealized st) := by
  unfold prevLinksRealized
  exact inferInstance

/-- commitsConsistent is decidable. -/
instance (gc : String → Option CommitRow) (st : Store) : Decidable (commitsConsistent gc st) := by
  unfold commitsConsistent
  exact inferInstance

/-- StoreInv is decidable. -/
instance (hash : HashFn) (gc : String → Option CommitRow) (st : Store) :
    Decidable (StoreInv hash gc st) := by
  unfold StoreInv
  exact inferInstance

/-- The states reachable by the ingestion operations: saving a commit row
faithful to git history, processing a commit, creating a decision record
and linking a decision. -/
inductive Reachable (hash : HashFn) (env : WorldEnv) (gc : String → Option CommitRow) :
    Store → Prop where
  | empty : Reachable hash env gc emptyStore
  | saveCommitStep (st : Store) (c : CommitRow) : Reachable hash env gc st →
      gc c.commitHash = some c → Reachable hash env gc (saveCommit st c)
  | processCommitStep (st : Store) (cache : Bool) (repoPath repoId commitHash : String) :
      Reachable hash env gc st →
      Reachable hash env gc (processCommit hash env cache repoPath repoId commitHash st)
  | createDecisionStep (st : Store) (title content repoId : String)
      (author : Option String) (now : Int) : Reachable hash env gc st →
      Reachable hash env gc (createDecisionRecord hash st title content repoId author now).2
  | linkDecisionStep (st : Store) (d el : String) : Reachable hash env gc st →
      Reachable hash env gc (linkDecisionToElement st d el).2

/-- find? ignores a first chunk in which it fails. -/
theorem find_append_of_none {α : Type} (p : α → Bool) (l1 l2 : List α)
    (h : l1.find? p = none) : (l1 ++ l2).find? p = l2.find? p := by
  induction l1 with
  | nil => rfl
  | cons x t ih =>
    rw [List.find?_cons] at h
    rcases hx : p x with _ | _
    · rw [hx] at h
      rw [List.cons_append, List.find?_cons, hx]
      exact ih h
    · rw [hx] at h
      cases h

/-- find? commits to a hit in the first chunk. -/
theorem find_append_of_some {α : Type} (p : α → Bool) (l1 l2 : List α) {a : α}
    (h : l1.find? p = some a) : (l1 ++ l2).find? p = some a := by
  induction l1 with
  | nil => cases h
  | cons x t ih =>
    rw [List.find?_cons] at h
    rcases hx : p x with _ | _
    · rw [hx] at h
      rw [List.cons_append, List.find?_cons, hx]
      exact ih h
    · rw [hx] at h
      rw [List.cons_append, List.find?_cons, hx]
      exact h

/-- Filtering by a predicate implied by the search predicate commutes out
of find?. -/
theorem find_filter_of_imp {α : Type} (l : List α) (p q : α → Bool)
    (himp : ∀ x, p x = true → q x = true) : (l.filter q).find? p = l.find? p := by
  induction l with
  | nil => rfl
  | cons x t ih =>
    rcases hq : q x with _ | _
    · have hp : p x = false := by
        rcases hp : p x with _ | _
        · rfl
        · rw [himp x hp] at hq
          cases hq
      rw [List.filter_cons_of_neg (by simp [hq]), List.find?_cons, hp, ih]
    · rw [List.filter_cons_of_pos hq, List.find?_cons, List.find?_cons]
      rcases hp : p x with _ | _
      · exact ih
      · rfl

/-- Upserting on a key keeps the key column duplicate-free. -/
theorem nodup_upsert_key {α : Type} (key : α → String) (l : List α) (x : α)
    (h : (l.map key).Nodup) :
    (((l.filter (fun y => key y != key x)) ++ [x]).map key).Nodup := by
  rw [List.map_append, List.map_singleton]
  rw [List.nodup_append]
  refine ⟨?_, List.nodup_singleton _, ?_⟩
  · exact h.sublist (List.Sublist.map key (List.filter_sublist l))
  · intro a ha hb
    rw [List.mem_singleton] at hb
    subst hb
    rcases List.mem_map.1 ha with ⟨y, hy, hky⟩
    have hyf := (List.mem_filter.1 hy).2
    rw [hky] at hyf
    simp at hyf

/-- tsLtB only reads the commits table and the two commit hashes. -/
theorem tsLtB_eq_of_hashes {st st' : Store} {p v p' v' : CodeElementVersion}
    (hc : st'.commits = st.commits) (hp : p'.commitHash = p.commitHash)
    (hv : v'.commitHash = v.commitHash) : tsLtB st' p' v' = tsLtB st p v := by
  unfold tsLtB tsOf getCommit
  rw [hc, hp, hv]

/-- Upserting a git-faithful commit row preserves every commit lookup that
succeeded before. -/
theorem getCommit_saveCommit_of_consistent {gc : String → Option CommitRow} {st : Store}
    (hcons : commitsConsistent gc st) {c : CommitRow} (hc : gc c.commitHash = some c)
    (h : String) {r : CommitRow} (hr : getCommit st h = some r) :
    getCommit (saveCommit st c) h = some r := by
  have hrm : r ∈ st.commits := List.mem_of_find?_eq_some hr
  have hrh : r.commitHash = h := by
    have := List.find?_some hr
    simpa using this
  show (st.commits.filter (fun x => x.commitHash != c.commitHash) ++ [c]).find?
      (fun x => x.commitHash == h) = some r
  by_cases hch : r.commitHash = c.commitHash
  · have hrc : r = c := by
      have h1 := hcons r hrm
      rw [hch, hc] at h1
      exact (Option.some.inj h1).symm
    have hnone : (st.commits.filter (fun x => x.commitHash != c.commitHash)).find?
        (fun x => x.commitHash == h) = none := by
      rw [List.find?_eq_none]
      intro x hx
      have hxf := (List.mem_filter.1 hx).2
      intro hxh
      rw [beq_iff_eq] at hxh
      rw [bne_iff_ne] at hxf
      exact hxf (by rw [hxh, ← hrh, hch])
    rw [find_append_of_none _ _ _ hnone]
    rw [List.find?_cons]
    have : (c.commitHash == h) = true := by
      rw [beq_iff_eq, ← hch, hrh]
    rw [this, hrc]
  · have hfind : (st.commits.filter (fun x => x.commitHash != c.commitHash)).find?
        (fun x => x.commitHash == h) = some r := by
      rw [find_filter_of_imp]
      · exact hr
      · intro x hx
        rw [beq_iff_eq] at hx
        rw [bne_iff_ne]
        intro hxc
        exact hch (by rw [hrh, ← hx]; exact hxc)
    exact find_append_of_some _ _ _ hfind

/-- tsLtB facts survive a git-faithful commit upsert. -/
theorem tsLtB_saveCommit_of_consistent {gc : String → Option CommitRow} {st : Store}
    (hcons : commitsConsistent gc st) {c : CommitRow} (hc : gc c.commitHash = some c)
    {p v : CodeElementVersion} (h : tsLtB st p v = true) :
    tsLtB (saveCommit st c) p v = true := by
  rcases tsLtB_iff.1 h with ⟨tp, tv, htp, htv, hlt⟩
  rcases hgp : getCommit st p.commitHash with _ | rp
  · rw [tsOf, hgp] at htp
    cases htp
  · rcases hgv : getCommit st v.commitHash with _ | rv
    · rw [tsOf, hgv] at htv
      cases htv
    · refine tsLtB_iff.2 ⟨tp, tv, ?_, ?_, hlt⟩
      · rw [tsOf, getCommit_saveCommit_of_consistent hcons hc _ hgp]
        rw [tsOf, hgp] at htp
        exact htp
      · rw [tsOf, getCommit_saveCommit_of_consistent hcons hc _ hgv]
        rw [tsOf, hgv] at htv
        exact htv

/-- Saving a git-faithful commit row preserves the ingestion invariant. -/
theorem StoreInv_saveCommit {hash : HashFn} {gc : String → Option CommitRow} {st : Store}
    {c : CommitRow} (hinv : StoreInv hash gc st) (hc : gc c.commitHash = some c) :
    StoreInv hash gc (saveCommit st c) := by
  obtain ⟨hnd, hcoh, hreal, hdec, hcnd, hcons⟩ := hinv
  refine ⟨hnd, hcoh, hreal, ?_, ?_, ?_⟩
  · intro v hv p hp hlink
    exact tsLtB_saveCommit_of_consistent hcons hc (hdec v hv p hp hlink)
  · show ((st.commits.filter (fun x => x.commitHash != c.commitHash) ++ [c]).map
        (fun x => x.commitHash)).Nodup
    exact nodup_upsert_key (fun x : CommitRow => x.commitHash) st.commits c hcnd
  · intro r hr
    rcases List.mem_append.1 hr with h1 | h2
    · exact hcons r (List.mem_filter.1 h1).1
    · rw [List.mem_singleton] at h2
      subst h2
      exact hc

/-- The version row processCommit writes before linking. -/
def nullVersionRow (hash : HashFn) (el C : String) (nm : Option String) : CodeElementVersion :=
  { versionId := generateVersionId hash el C, elementId := el, commitHash := C,
    name := nm, startLine := none, endLine := none, previousVersionId := none }

/-- The per-row update of linkVersionToPreviousVersion. -/
def setPrev (versionId previousVersionId : String) (v : CodeElementVersion) : CodeElementVersion :=
  if v.versionId == versionId then { v with previousVersionId := some previousVersionId } else v

/-- setPrev keeps the version id. -/
theorem setPrev_versionId (vid pid : String) (v : CodeElementVersion) :
    (setPrev vid pid v).versionId = v.versionId := by
  unfold setPrev
  split <;> rfl

/-- setPrev keeps the element id. -/
theorem setPrev_elementId (vid pid : String) (v : CodeElementVersion) :
    (setPrev vid pid v).elementId = v.elementId := by
  unfold setPrev
  split <;> rfl

/-- setPrev keeps the commit hash. -/
theorem setPrev_commitHash (vid pid : String) (v : CodeElementVersion) :
    (setPrev vid pid v).commitHash = v.commitHash := by
  unfold setPrev
  split <;> rfl

/-- setPrev leaves rows with another id alone. -/
theorem setPrev_of_ne {vid : String} (pid : String) {v : CodeElementVersion}
    (h : (v.versionId == vid) = false) : setPrev vid pid v = v := by
  unfold setPrev
  rw [h]
  rfl

/-- setPrev rewrites the link of the row with the id. -/
theorem setPrev_of_eq {vid : String} (pid : String) {v : CodeElementVersion}
    (h : (v.versionId == vid) = true) :
    (setPrev vid pid v).previousVersionId = some pid := by
  unfold setPrev
  rw [h]
  rfl

/-- Upserting the fresh null-linked version row preserves the invariant. -/
theorem StoreInv_saveVersionNull {hash : HashFn} {gc : String → Option CommitRow}
    (hinj : Function.Injective hash) (st : Store) (el C : String) (nm : Option String)
    (helc : ':' ∉ el.data) (hinv : StoreInv hash gc st) :
    StoreInv hash gc (saveCodeElementVersion st (nullVersionRow hash el C nm)) := by
  obtain ⟨hnd, hcoh, hreal, hdec, hcnd, hcons⟩ := hinv
  refine ⟨?_, ?_, ?_, ?_, hcnd, hcons⟩
  · exact nodup_upsert_key (fun v : CodeElementVersion => v.versionId) st.versions
      (nullVersionRow hash el C nm) hnd
  · intro v hv
    have hv2 : v ∈ st.versions.filter
        (fun x => x.versionId != (nullVersionRow hash el C nm).versionId) ++
          [nullVersionRow hash el C nm] := hv
    rcases List.mem_append.1 hv2 with h1 | h2
    · exact hcoh v (List.mem_filter.1 h1).1
    · rw [List.mem_singleton] at h2
      subst h2
      exact ⟨rfl, helc⟩
  · intro v hv pid hlink
    have hv2 : v ∈ st.versions.filter
        (fun x => x.versionId != (nullVersionRow hash el C nm).versionId) ++
          [nullVersionRow hash el C nm] := hv
    rcases List.mem_append.1 hv2 with h1 | h2
    · have hvm := (List.mem_filter.1 h1).1
      rcases hreal v hvm pid hlink with ⟨w, hw, hwid⟩
      by_cases hwv : (w.versionId != (nullVersionRow hash el C nm).versionId) = true
      · exact ⟨w, List.mem_append.2 (Or.inl (List.mem_filter.2 ⟨hw, hwv⟩)), hwid⟩
      · refine ⟨nullVersionRow hash el C nm,
          List.mem_append.2 (Or.inr (List.mem_singleton.2 rfl)), ?_⟩
        have hwid2 : w.versionId = (nullVersionRow hash el C nm).versionId := by
          simpa [bne] using hwv
        rw [← hwid2]
        exact hwid
    · rw [List.mem_singleton] at h2
      subst h2
      have hl2 : (none : Option String) = some pid := hlink
      cases hl2
  · intro v hv p hp hlink
    have hts : tsLtB (saveCodeElementVersion st (nullVersionRow hash el C nm)) p v =
        tsLtB st p v := tsLtB_eq_of_hashes rfl rfl rfl
    rw [hts]
    have hv2 : v ∈ st.versions.filter
        (fun x => x.versionId != (nullVersionRow hash el C nm).versionId) ++
          [nullVersionRow hash el C nm] := hv
    have hp2 : p ∈ st.versions.filter
        (fun x => x.versionId != (nullVersionRow hash el C nm).versionId) ++
          [nullVersionRow hash el C nm] := hp
    rcases List.mem_append.1 hv2 with hv3 | hv3
    · have hvm := (List.mem_filter.1 hv3).1
      rcases List.mem_append.1 hp2 with hp3 | hp3
      · exact hdec v hvm p (List.mem_filter.1 hp3).1 hlink
      · rw [List.mem_singleton] at hp3
        subst hp3
        have hlink2 : v.previousVersionId = some (generateVersionId hash el C) := hlink
        rcases hreal v hvm _ hlink2 with ⟨w, hw, hwid⟩
        obtain ⟨hwcoh, hwcol⟩ := hcoh w hw
        have hgen : generateVersionId hash w.elementId w.commitHash =
            generateVersionId hash el C := by
          rw [← hwcoh]
          exact hwid
        have hinput : versionIdInput w.elementId w.commitHash = versionIdInput el C :=
          hinj hgen
        rcases versionIdInput_inj _ _ _ _ hwcol helc hinput with ⟨hwe, hwh⟩
        have hlt : tsLtB st w v = true :=
          hdec v hvm w hw (by rw [hlink2, hwid])
        have heq : tsLtB st (nullVersionRow hash el C nm) v = tsLtB st w v :=
          tsLtB_eq_of_hashes rfl hwh.symm rfl
        rw [heq]
        exact hlt
    · rw [List.mem_singleton] at hv3
      subst hv3
      have hl2 : (none : Option String) = some p.versionId := hlink
      cases hl2

/-- Linking the fresh version to the head of getPreviousVersions preserves
the invariant: the head is a stored candidate with a strictly earlier commit
timestamp, and id coherence plus digest injectivity identify the updated
row as the fresh row for this commit. -/
theorem StoreInv_link {hash : HashFn} {gc : String → Option CommitRow}
    (hinj : Function.Injective hash) (st2 : Store) (el C : String)
    (helc : ':' ∉ el.data) (hinv2 : StoreInv hash gc st2)
    (p : CodeElementVersion) (t : List CodeElementVersion)
    (hprev : getPreviousVersions st2 el C = p :: t) :
    StoreInv hash gc
      (linkVersionToPreviousVersion st2 (generateVersionId hash el C) p.versionId) := by
  obtain ⟨hnd2, hcoh2, hreal2, hdec2, hcnd2, hcons2⟩ := hinv2
  rcases hcomm : getCommit st2 C with _ | commit
  · exfalso
    have h0 : getPreviousVersions st2 el C = [] := by
      unfold getPreviousVersions
      rw [hcomm]
    rw [h0] at hprev
    cases hprev
  · obtain ⟨_, hhead⟩ := getPreviousVersions_spec st2 el C commit hcomm hcnd2
    obtain ⟨hpcand, _⟩ := hhead p t hprev
    obtain ⟨hpm, hpp⟩ := List.mem_filter.1 hpcand
    obtain ⟨_, hpts⟩ := band_elim hpp
    rcases hgp : getCommit st2 p.commitHash with _ | cp
    · rw [hgp] at hpts
      cases hpts
    · rw [hgp] at hpts
      have hplt : cp.timestamp < commit.timestamp := of_decide_eq_true hpts
      have hids : (st2.versions.map (setPrev (generateVersionId hash el C) p.versionId)).map
          (fun v : CodeElementVersion => v.versionId) =
            st2.versions.map (fun v : CodeElementVersion => v.versionId) := by
        rw [List.map_map]
        apply List.map_congr_left
        intro v _
        exact setPrev_versionId _ _ v
      refine ⟨?_, ?_, ?_, ?_, hcnd2, hcons2⟩
      · show ((st2.versions.map (setPrev (generateVersionId hash el C) p.versionId)).map
            (fun v : CodeElementVersion => v.versionId)).Nodup
        rw [hids]
        exact hnd2
      · intro v hv
        have hv2 : v ∈ st2.versions.map (setPrev (generateVersionId hash el C) p.versionId) := hv
        rcases List.mem_map.1 hv2 with ⟨w, hw, rfl⟩
        obtain ⟨hwcoh, hwcol⟩ := hcoh2 w hw
        refine ⟨?_, ?_⟩
        · rw [setPrev_versionId, setPrev_elementId, setPrev_commitHash]
          exact hwcoh
        · rw [setPrev_elementId]
          exact hwcol
      · intro v hv pid2 hlink
        have hv2 : v ∈ st2.versions.map (setPrev (generateVersionId hash el C) p.versionId) := hv
        rcases List.mem_map.1 hv2 with ⟨w, hw, rfl⟩
        rcases hbeq : (w.versionId == generateVersionId hash el C) with _ | _
        · have hw2 : setPrev (generateVersionId hash el C) p.versionId w = w :=
            setPrev_of_ne _ hbeq
          rw [hw2] at hlink
          rcases hreal2 w hw pid2 hlink with ⟨w0, hw0, hw0id⟩
          refine ⟨setPrev (generateVersionId hash el C) p.versionId w0,
            List.mem_map.2 ⟨w0, hw0, rfl⟩, ?_⟩
          rw [setPrev_versionId]
          exact hw0id
        · have hl2 : (setPrev (generateVersionId hash el C) p.versionId w).previousVersionId =
              some p.versionId := setPrev_of_eq _ hbeq
          rw [hl2] at hlink
          have hpid2 : pid2 = p.versionId := (Option.some.inj hlink).symm
          refine ⟨setPrev (generateVersionId hash el C) p.versionId p,
            List.mem_map.2 ⟨p, hpm, rfl⟩, ?_⟩
          rw [setPrev_versionId, hpid2]
      · intro v hv q hq hlink
        have hv2 : v ∈ st2.versions.map (setPrev (generateVersionId hash el C) p.versionId) := hv
        have hq2 : q ∈ st2.versions.map (setPrev (generateVersionId hash el C) p.versionId) := hq
        rcases List.mem_map.1 hv2 with ⟨w, hw, rfl⟩
        rcases List.mem_map.1 hq2 with ⟨w0, hw0, rfl⟩
        have hts : tsLtB (linkVersionToPreviousVersion st2 (generateVersionId hash el C)
              p.versionId)
            (setPrev (generateVersionId hash el C) p.versionId w0)
            (setPrev (generateVersionId hash el C) p.versionId w) = tsLtB st2 w0 w :=
          tsLtB_eq_of_hashes rfl (setPrev_commitHash _ _ w0) (setPrev_commitHash _ _ w)
        rw [hts]
        rcases hbeq : (w.versionId == generateVersionId hash el C) with _ | _
        · have hw2 : setPrev (generateVersionId hash el C) p.versionId w = w :=
            setPrev_of_ne _ hbeq
          rw [hw2, setPrev_versionId] at hlink
          exact hdec2 w hw w0 hw0 hlink
        · have hl2 : (setPrev (generateVersionId hash el C) p.versionId w).previousVersionId =
              some p.versionId := setPrev_of_eq _ hbeq
          rw [hl2, setPrev_versionId] at hlink
          have hw0p : w0.versionId = p.versionId := (Option.some.inj hlink).symm
          have hw0eq : w0 = p := List.inj_on_of_nodup_map hnd2 hw0 hpm hw0p
          rw [hw0eq]
          have hwid : w.versionId = generateVersionId hash el C := eq_of_beq hbeq
          obtain ⟨hwcoh, hwcol⟩ := hcoh2 w hw
          have hgen : generateVersionId hash w.elementId w.commitHash =
              generateVersionId hash el C := by
            rw [← hwcoh]
            exact hwid
          rcases versionIdInput_inj _ _ _ _ hwcol helc (hinj hgen) with ⟨_, hwh⟩
          refine tsLtB_iff.2 ⟨cp.timestamp, commit.timestamp, ?_, ?_, hplt⟩
          · show (getCommit st2 p.commitHash).map (fun c => c.timestamp) = some cp.timestamp
            rw [hgp]
            rfl
          · show (getCommit st2 w.commitHash).map (fun c => c.timestamp) = some commit.timestamp
            rw [hwh, hcomm]
            rfl

/-- The per-element ingestion body preserves the invariant. -/
theorem StoreInv_processFileElement {hash : HashFn} {gc : String → Option CommitRow}
    (hinj : Function.Injective hash) (st : Store) (element : CodeElement) (C : String)
    (helc : ':' ∉ element.elementId.data) (hinv : StoreInv hash gc st) :
    StoreInv hash gc (processFileElement hash C st element) := by
  have hinv1 : StoreInv hash gc (saveCodeElement st element) := hinv
  have hinv2 : StoreInv hash gc (saveCodeElementVersion (saveCodeElement st element)
      (nullVersionRow hash element.elementId C
        (some (getNameFromIdentifier element.stableIdentifier)))) :=
    StoreInv_saveVersionNull hinj (saveCodeElement st element) element.elementId C
      (some (getNameFromIdentifier element.stableIdentifier)) helc hinv1
  simp only [processFileElement]
  cases hprev : getPreviousVersions (saveCodeElementVersion (saveCodeElement st element)
      { versionId := generateVersionId hash element.elementId C,
        elementId := element.elementId, commitHash := C,
        name := some (getNameFromIdentifier element.stableIdentifier),
        startLine := none, endLine := none, previousVersionId := none })
      element.elementId C with
  | nil => exact hinv2
  | cons p t => exact StoreInv_link hinj _ element.elementId C helc hinv2 p t hprev

/-- The per-file element loop preserves the invariant when every element id
is colon-free. -/
theorem StoreInv_foldl_elements {hash : HashFn} {gc : String → Option CommitRow}
    (hinj : Function.Injective hash) (C : String) :
    ∀ (els : List CodeElement) (st : Store), (∀ e ∈ els, ':' ∉ e.elementId.data) →
      StoreInv hash gc st →
      StoreInv hash gc (els.foldl (processFileElement hash C) st) := by
  intro els
  induction els with
  | nil =>
    intro st _ hinv
    exact hinv
  | cons e es ih =>
    intro st hcol hinv
    rw [List.foldl_cons]
    exact ih _ (fun x hx => hcol x (List.mem_cons_of_mem e hx))
      (StoreInv_processFileElement hinj st e C (hcol e (List.mem_cons_self e es)) hinv)

/-- Processing one changed file preserves the invariant. -/
theorem StoreInv_processFile {hash : HashFn} {gc : String → Option CommitRow}
    (hinj : Function.Injective hash) (hcolh : ∀ s, ':' ∉ (hash s).data)
    (env : WorldEnv) (cache : Bool) (repoPath repoId C : String) (st : Store)
    (filePath : String) (hinv : StoreInv hash gc st) :
    StoreInv hash gc (processFile hash env cache repoPath repoId C st filePath) := by
  have hfold : StoreInv hash gc
      ((parseFile hash env (repoPath ++ "/" ++ filePath) repoId).foldl
        (processFileElement hash C) st) := by
    apply StoreInv_foldl_elements hinj C _ st _ hinv
    intro e he
    rcases parseFile_elementId_digest hash env (repoPath ++ "/" ++ filePath) repoId e he with
      ⟨s, hs⟩
    rw [hs]
    exact hcolh s
  simp only [processFile]
  cases env.statSize (repoPath ++ "/" ++ filePath) with
  | none => exact hinv
  | some size =>
    by_cases hsize : maxFileSizeBytes < size
    · simp only [if_pos hsize]
      exact hinv
    · simp only [if_neg hsize]
      by_cases hparse : canParseFile (repoPath ++ "/" ++ filePath)
      · simp only [hparse, Bool.not_true, Bool.false_eq_true, if_false]
        split
        · split
          · exact hinv
          · split
            · split
              · exact hfold
              · exact hfold
            · exact hfold
        · split
          · rename_i hskip
            exact Bool.noConfusion hskip
          · exact hfold
      · simp only [Bool.not_eq_true] at hparse
        simp only [hparse, Bool.not_false, if_true]
        exact hinv

/-- processCommit preserves the invariant. -/
theorem StoreInv_processCommit {hash : HashFn} {gc : String → Option CommitRow}
    (hinj : Function.Injective hash) (hcolh : ∀ s, ':' ∉ (hash s).data)
    (env : WorldEnv) (cache : Bool) (repoPath repoId C : String) (st : Store)
    (hinv : StoreInv hash gc st) :
    StoreInv hash gc (processCommit hash env cache repoPath repoId C st) := by
  rw [processCommit]
  by_cases hhc : (!env.hasCommit repoPath C) = true
  · rw [if_pos hhc]
    exact hinv
  · rw [if_neg hhc]
    cases env.gitShow repoPath C with
    | none => exact hinv
    | some stdout =>
      show StoreInv hash gc ((changedFilesOf stdout).foldl
        (processFile hash env cache repoPath repoId C) st)
      revert hinv
      generalize changedFilesOf stdout = files
      induction files generalizing st with
      | nil =>
        intro hinv
        exact hinv
      | cons f fs ih =>
        intro hinv
        rw [List.foldl_cons]
        exact ih _ (StoreInv_processFile hinj hcolh env cache repoPath repoId C st f hinv)

/-- The last element reported by getLast? is a member. -/
theorem mem_of_getLast_opt {α : Type} : ∀ (l : List α) (a : α), l.getLast? = some a → a ∈ l := by
  intro l
  induction l with
  | nil =>
    intro a h
    cases h
  | cons x t ih =>
    intro a h
    cases t with
    | nil =>
      rw [List.getLast?_singleton] at h
      rw [List.mem_singleton]
      exact (Option.some.inj h).symm
    | cons y u =>
      rw [List.getLast?_cons_cons] at h
      exact List.mem_cons_of_mem x (ih a h)

/-- Every reachable store satisfies the ingestion invariant. -/
theorem StoreInv_of_reachable {hash : HashFn} {env : WorldEnv}
    {gc : String → Option CommitRow} (hinj : Function.Injective hash)
    (hcolh : ∀ s, ':' ∉ (hash s).data) {st : Store}
    (h : Reachable hash env gc st) : StoreInv hash gc st := by
  induction h with
  | empty =>
    exact ⟨List.nodup_nil, fun v hv => absurd hv (List.not_mem_nil v),
      fun v hv => absurd hv (List.not_mem_nil v),
      fun v hv => absurd hv (List.not_mem_nil v),
      List.nodup_nil, fun c hc => absurd hc (List.not_mem_nil c)⟩
  | saveCommitStep st c hr hc ih => exact StoreInv_saveCommit ih hc
  | processCommitStep st cache repoPath repoId C hr ih =>
    exact StoreInv_processCommit hinj hcolh env cache repoPath repoId C st ih
  | createDecisionStep st title content repoId author now hr ih => exact ih
  | linkDecisionStep st d el hr ih =>
    unfold linkDecisionToElement
    cases hfl : findLatestCodeElementVersion st el with
    | none => exact ih
    | some latest => exact ih

/-- C4: in every store reachable by the ingestion operations (under an
injective digest with colon-free output, as hex digests are), following
previousVersionId links from any stored version yields a chain of
consecutively linked versions with strictly decreasing commit timestamps
and no repeated versionId, and the walk terminates: its last entry has a
null previous link.  The walk is the fuel-bounded model of the
traceElementHistory while loop, whose fuel (the number of stored versions)
is sufficient on such stores. -/
theorem c4_reachable_prev_chains (hash : HashFn) (env : WorldEnv)
    (gc : String → Option CommitRow) (hinj : Function.Injective hash)
    (hcolh : ∀ s, ':' ∉ (hash s).data) (st : Store)
    (hreach : Reachable hash env gc st) :
    ∀ v ∈ st.versions,
      List.Chain' (fun a b => a.previousVersionId = some b.versionId)
        (v :: followPreviousVersions st st.versions.length v) ∧
      List.Pairwise (fun a b => tsLtB st b a = true)
        (v :: followPreviousVersions st st.versions.length v) ∧
      ((v :: followPreviousVersions st st.versions.length v).map
        (fun w => w.versionId)).Nodup ∧
      (∃ w, (v :: followPreviousVersions st st.versions.length v).getLast? = some w ∧
        w.previousVersionId = none) := by
  obtain ⟨hnd, hcoh, hreal, hdec, hcnd, hcons⟩ := StoreInv_of_reachable hinj hcolh hreach
  intro v hv
  have hfuel : belowCount st v ≤ st.versions.length := List.length_filter_le _ _
  obtain ⟨hmem, hchain, hpw, hlast⟩ := followPrev_spec st hdec st.versions.length v hv hfuel
  have hmemall : ∀ x ∈ v :: followPreviousVersions st st.versions.length v,
      x ∈ st.versions := by
    intro x hx
    rcases List.mem_cons.1 hx with rfl | hx2
    · exact hv
    · exact hmem x hx2
  refine ⟨hchain, hpw, ?_, ?_⟩
  · have hpw2 : List.Pairwise (fun a b => a.versionId ≠ b.versionId)
        (v :: followPreviousVersions st st.versions.length v) := by
      refine List.Pairwise.imp_of_mem ?_ hpw
      intro a b ha hb hab hid
      have hrow : a = b := List.inj_on_of_nodup_map hnd (hmemall a ha) (hmemall b hb) hid
      rw [hrow] at hab
      rw [tsLtB_irrefl st b] at hab
      cases hab
    exact List.pairwise_map.2 hpw2
  · rcases hlast with ⟨w, hwl, hterm⟩
    rcases hterm with h1 | ⟨pid, hp1, hp2⟩
    · exact ⟨w, hwl, h1⟩
    · exfalso
      have hwm := hmemall w (mem_of_getLast_opt _ w hwl)
      rcases hreal w hwm pid hp1 with ⟨w0, hw0, hw0id⟩
      have hnone : st.versions.find? (fun x => x.versionId == pid) = none := hp2
      rw [List.find?_eq_none] at hnone
      exact hnone w0 hw0 (by rw [beq_iff_eq]; exact hw0id)

/-- The commit row of the C4 witness history. -/
def c4CommitRow : CommitRow := ⟨"c1", "r", "m", 1, "a", "a"⟩

/-- The git history of the C4 witness: a single commit. -/
def c4Gc : String → Option CommitRow := fun h => if h = "c1" then some c4CommitRow else none

/-- The environment of the C4 witness: one parseable TypeScript file. -/
def c4Env : WorldEnv :=
  { readFile := fun _ => some "content",
    tree := fun _ => SyntaxNode.mk "program" none [],
    sha1 := fun _ => "h1",
    statSize := fun _ => some 10,
    hasCommit := fun _ h => h == "c1",
    gitShow := fun _ _ => some "x.ts" }

/-- The C4 witness store: the commit row saved, then the commit processed. -/
def c4Store : Store :=
  processCommit sepHash c4Env false "/repo" "r" "c1" (saveCommit emptyStore c4CommitRow)

/-- The version row ingested by the C4 witness run. -/
def c4Version : CodeElementVersion :=
  { versionId := generateVersionId sepHash (generateElementId sepHash "r" "/repo/x.ts" "file") "c1",
    elementId := generateElementId sepHash "r" "/repo/x.ts" "file",
    commitHash := "c1", name := some "x.ts",
    startLine := none, endLine := none, previousVersionId := none }

/-- Witness for C4 on a concrete reachable store: the ingested version is
stored, and its walk is linked and ends at a null link. -/
theorem c4_witness :
    c4Version ∈ c4Store.versions ∧
    List.Chain' (fun a b => a.previousVersionId = some b.versionId)
      (c4Version :: followPreviousVersions c4Store c4Store.versions.length c4Version) ∧
    (∃ w, (c4Version :: followPreviousVersions c4Store c4Store.versions.length
      c4Version).getLast? = some w ∧ w.previousVersionId = none) :=
  have hreach : Reachable sepHash c4Env c4Gc c4Store :=
    Reachable.processCommitStep _ false "/repo" "r" "c1"
      (Reachable.saveCommitStep emptyStore c4CommitRow Reachable.empty (by decide))
  have hall := c4_reachable_prev_chains sepHash c4Env c4Gc sepHash_injective sepHash_no_colon
    c4Store hreach c4Version (by decide)
  ⟨by decide, hall.1, hall.2.2.2⟩

/-! Idempotence of processCommit (C1).  The second run's reads are shown to
coincide with the first run's because getPreviousVersions only depends on
the commits table and on the element's version rows at other commits, which
no write of either run touches. -/

/-- Unfolding getPreviousVersions when the commit is stored. -/
theorem getPreviousVersions_unfold (st : Store) (el C : String) (commit : CommitRow)
    (hcomm : getCommit st C = some commit) :
    getPreviousVersions st el C =
      sortDescByOpt (versionSortKey (getCommitHistoryForElementId st el))
        (((getCommitHistoryForElementId st el).filter
            (fun c => c.commitHash != C && decide (c.timestamp < commit.timestamp))).filterMap
          (fun c => getCodeElementVersions st el c.commitHash)) := by
  simp only [getPreviousVersions, hcomm]
  rw [foldl_prev_collect st el C commit.timestamp (getCommitHistoryForElementId st el) []]
  rw [List.nil_append]

/-- Inserting an element dominating the whole list puts it in front. -/
theorem insertDescBy_eq_cons {α : Type} (key : α → Int) (x : α) (l : List α)
    (h : ∀ z ∈ l, key z ≤ key x) : insertDescBy key x l = x :: l := by
  cases l with
  | nil => rfl
  | cons z zs =>
    unfold insertDescBy
    rw [if_pos (h z (List.mem_cons_self z zs))]

/-- Filtering commutes with descending insertion into a sorted list. -/
theorem filter_insertDescBy {α : Type} (key : α → Int) (p : α → Bool) (x : α) :
    ∀ l : List α, l.Pairwise (fun a b => key b ≤ key a) →
      (insertDescBy key x l).filter p =
        if p x then insertDescBy key x (l.filter p) else l.filter p := by
  intro l
  induction l with
  | nil =>
    intro _
    rcases hp : p x with _ | _
    · simp [insertDescBy, List.filter_cons, hp]
    · simp [insertDescBy, List.filter_cons, hp]
  | cons y ys ih =>
    intro hs
    rcases List.pairwise_cons.1 hs with ⟨hy, ht⟩
    by_cases hle : key y ≤ key x
    · rw [insertDescBy, if_pos hle]
      rcases hp : p x with _ | _
      · rcases hpy : p y with _ | _
        · simp only [List.filter_cons, hp, hpy, if_neg, Bool.false_eq_true, if_false]
        · simp only [List.filter_cons, hp, hpy, Bool.false_eq_true, if_false, if_true]
      · rcases hpy : p y with _ | _
        · simp only [List.filter_cons, hp, hpy, Bool.false_eq_true, if_false, if_true]
          rw [insertDescBy_eq_cons]
          intro z hz
          exact le_trans (hy z (List.mem_of_mem_filter hz)) hle
        · simp only [List.filter_cons, hp, hpy, if_true]
          rw [insertDescBy, if_pos hle]
    · rw [insertDescBy, if_neg hle]
      have hIH := ih ht
      rcases hp : p x with _ | _
      · rcases hpy : p y with _ | _
        · rw [List.filter_cons_of_neg (by simp [hpy]), hIH, if_neg (by simp [hp]),
            if_neg (by simp), List.filter_cons_of_neg (by simp [hpy])]
        · rw [List.filter_cons_of_pos (by simp [hpy]), hIH, if_neg (by simp [hp]),
            if_neg (by simp), List.filter_cons_of_pos (by simp [hpy])]
      · rcases hpy : p y with _ | _
        · rw [List.filter_cons_of_neg (by simp [hpy]), hIH, if_pos hp,
            if_pos rfl, List.filter_cons_of_neg (by simp [hpy])]
        · rw [List.filter_cons_of_pos (by simp [hpy]), hIH, if_pos hp,
            if_pos rfl, List.filter_cons_of_pos (by simp [hpy]),
            insertDescBy, if_neg hle]

/-- Filtering commutes with the stable descending sort. -/
theorem filter_sortDescBy {α : Type} (key : α → Int) (p : α → Bool) :
    ∀ l : List α, (sortDescBy key l).filter p = sortDescBy key (l.filter p) := by
  intro l
  induction l with
  | nil => rfl
  | cons x t ih =>
    show (insertDescBy key x (sortDescBy key t)).filter p = sortDescBy key ((x :: t).filter p)
    rw [filter_insertDescBy key p x (sortDescBy key t) (sortDescBy_sorted key t), ih]
    rcases hp : p x with _ | _
    · simp only [List.filter_cons, hp, Bool.false_eq_true, if_false]
    · simp only [List.filter_cons, hp, if_true]
      rfl

/-- Filtering distributes over flatMap. -/
theorem filter_flatMap {α β : Type} (g : α → List β) (p : β → Bool) :
    ∀ l : List α, (l.flatMap g).filter p = l.flatMap (fun a => (g a).filter p) := by
  intro l
  induction l with
  | nil => rfl
  | cons x t ih =>
    rw [List.flatMap_cons, List.flatMap_cons, List.filter_append, ih]

/-- Filtering a constant map keeps all or nothing. -/
theorem filter_map_const {α β : Type} (c : β) (p : β → Bool) :
    ∀ l : List α, ((l.map (fun _ => c)).filter p) =
      if p c then l.map (fun _ => c) else [] := by
  intro l
  induction l with
  | nil =>
    rcases hp : p c with _ | _
    · simp [hp]
    · simp [hp]
  | cons x t ih =>
    rw [List.map_cons, List.filter_cons, ih]
    rcases hp : p c with _ | _
    · simp [hp]
    · simp [hp]

/-- filterMap only looks at its function on members. -/
theorem filterMap_congr_mem {α β : Type} (f g : α → Option β) :
    ∀ l : List α, (∀ x ∈ l, f x = g x) → l.filterMap f = l.filterMap g := by
  intro l
  induction l with
  | nil => intro _; rfl
  | cons x t ih =>
    intro h
    rw [List.filterMap_cons, List.filterMap_cons, h x (List.mem_cons_self x t),
      ih (fun y hy => h y (List.mem_cons_of_mem x hy))]

/-- The optional-key insertion only looks at keys of the involved elements. -/
theorem insertDescByOpt_congr {α : Type} (k1 k2 : α → Option Int) (x : α)
    (hx : k1 x = k2 x) :
    ∀ l : List α, (∀ y ∈ l, k1 y = k2 y) →
      insertDescByOpt k1 x l = insertDescByOpt k2 x l := by
  intro l
  induction l with
  | nil => intro _; rfl
  | cons y ys ih =>
    intro hl
    show (match k1 x, k1 y with
      | some kx, some ky => if kx < ky then y :: insertDescByOpt k1 x ys else x :: y :: ys
      | _, _ => x :: y :: ys) =
      (match k2 x, k2 y with
      | some kx, some ky => if kx < ky then y :: insertDescByOpt k2 x ys else x :: y :: ys
      | _, _ => x :: y :: ys)
    have ihr := ih (fun z hz => hl z (List.mem_cons_of_mem y hz))
    rw [hx, hl y (List.mem_cons_self y ys), ihr]

/-- The optional-key sort only looks at keys of the list members. -/
theorem sortDescByOpt_congr {α : Type} (k1 k2 : α → Option Int) :
    ∀ l : List α, (∀ y ∈ l, k1 y = k2 y) →
      sortDescByOpt k1 l = sortDescByOpt k2 l := by
  intro l
  induction l with
  | nil => intro _; rfl
  | cons x t ih =>
    intro hl
    show insertDescByOpt k1 x (sortDescByOpt k1 t) = insertDescByOpt k2 x (sortDescByOpt k2 t)
    rw [ih (fun y hy => hl y (List.mem_cons_of_mem x hy))]
    exact insertDescByOpt_congr k1 k2 x (hl x (List.mem_cons_self x t)) _
      (fun y hy => hl y (List.mem_cons_of_mem x
        ((sortDescByOpt_perm k2 t).subset hy)))

/-- find? returns the common value of its matches when one exists. -/
theorem find_eq_some_of_all {α : Type} (p : α → Bool) (a : α) :
    ∀ l : List α, (∀ x ∈ l, p x = true → x = a) → (∃ x ∈ l, p x = true) →
      l.find? p = some a := by
  intro l
  induction l with
  | nil =>
    rintro _ ⟨x, hx, _⟩
    cases hx
  | cons y ys ih =>
    rintro hall ⟨x, hx, hpx⟩
    rcases hpy : p y with _ | _
    · rw [List.find?_cons, hpy]
      rcases List.mem_cons.1 hx with rfl | hx2
      · rw [hpx] at hpy
        cases hpy
      · exact ih (fun z hz => hall z (List.mem_cons_of_mem y hz)) ⟨x, hx2, hpx⟩
    · rw [List.find?_cons, hpy]
      rw [hall y (List.mem_cons_self y ys) hpy]

/-- flatMap only looks at its function on members. -/
theorem flatMap_congr_mem {α β : Type} (f g : α → List β) :
    ∀ l : List α, (∀ x ∈ l, f x = g x) → l.flatMap f = l.flatMap g := by
  intro l
  induction l with
  | nil => intro _; rfl
  | cons x t ih =>
    intro h
    rw [List.flatMap_cons, List.flatMap_cons, h x (List.mem_cons_self x t),
      ih (fun y hy => h y (List.mem_cons_of_mem x hy))]

/-- With unique commit hashes, the comparator key of a version that has a
row of the element equals its commit timestamp looked up directly. -/
theorem versionSortKey_char (st : Store) (el : String) (hnd : commitsNodup st)
    (v : CodeElementVersion)
    (hex : ∃ w ∈ st.versions, w.elementId = el ∧ w.commitHash = v.commitHash) :
    versionSortKey (getCommitHistoryForElementId st el) v =
      (st.commits.find? (fun c => c.commitHash == v.commitHash)).map
        (fun c => c.timestamp) := by
  unfold versionSortKey
  have hfind : (getCommitHistoryForElementId st el).find?
      (fun c => c.commitHash == v.commitHash) =
      st.commits.find? (fun c => c.commitHash == v.commitHash) := by
    rcases hfc : st.commits.find? (fun c => c.commitHash == v.commitHash) with _ | c0
    · rw [hfc]
      rw [List.find?_eq_none] at hfc
      rw [List.find?_eq_none]
      intro x hx
      have hxj : x ∈ historyJoin st el :=
        (sortDescBy_perm (fun c : CommitRow => c.timestamp) (historyJoin st el)).subset hx
      exact hfc x (mem_historyJoin.1 hxj).1
    · have hc0m := List.mem_of_find?_eq_some hfc
      have hc0h : c0.commitHash = v.commitHash := by
        have := List.find?_some hfc
        simpa using this
      rw [hfc]
      apply find_eq_some_of_all
      · intro x hx hpx
        have hxj : x ∈ historyJoin st el :=
          (sortDescBy_perm (fun c : CommitRow => c.timestamp) (historyJoin st el)).subset hx
        have hxm := (mem_historyJoin.1 hxj).1
        have hxh : x.commitHash = v.commitHash := eq_of_beq hpx
        exact List.inj_on_of_nodup_map hnd hxm hc0m (by rw [hxh, hc0h])
      · rcases hex with ⟨w, hw, hwel, hwh⟩
        refine ⟨c0, ?_, by rw [beq_iff_eq]; exact hc0h⟩
        have hcj : c0 ∈ historyJoin st el :=
          mem_historyJoin.2 ⟨hc0m, w, hw, hwel, by rw [hwh, hc0h]⟩
        exact (sortDescBy_perm (fun c : CommitRow => c.timestamp)
          (historyJoin st el)).symm.subset hcj
  rw [hfind]

/-- getPreviousVersions is a function of the commits table and of the
element's version rows at other commits (list of rows, in order). -/
theorem getPreviousVersions_core (stA stB : Store) (el C : String)
    (hc : stA.commits = stB.commits) (hndA : commitsNodup stA)
    (hcore : stA.versions.filter (fun v => v.elementId == el && v.commitHash != C) =
      stB.versions.filter (fun v => v.elementId == el && v.commitHash != C)) :
    getPreviousVersions stA el C = getPreviousVersions stB el C := by
  have hgC : getCommit stA C = getCommit stB C := by
    unfold getCommit
    rw [hc]
  have hndB : commitsNodup stB := by
    show (stB.commits.map (fun c => c.commitHash)).Nodup
    rw [← hc]
    exact hndA
  rcases hcomm : getCommit stA C with _ | commit
  · have hcommB : getCommit stB C = none := by
      rw [← hgC]
      exact hcomm
    unfold getPreviousVersions
    rw [hcomm, hcommB]
  · have hcommB : getCommit stB C = some commit := by
      rw [← hgC]
      exact hcomm
    -- lookup of a single (element, hash) row agrees on both stores for
    -- hashes other than C
    have hlook : ∀ h : String, h ≠ C →
        getCodeElementVersions stA el h = getCodeElementVersions stB el h := by
      intro h hne
      have himp : ∀ x : CodeElementVersion,
          (x.elementId == el && x.commitHash == h) = true →
          (x.elementId == el && x.commitHash != C) = true := by
        intro x hx
        rcases band_elim hx with ⟨h1, h2⟩
        refine band_intro h1 ?_
        rw [bne_iff_ne]
        rw [eq_of_beq h2]
        exact hne
      show stA.versions.find? (fun x => x.elementId == el && x.commitHash == h) =
        stB.versions.find? (fun x => x.elementId == el && x.commitHash == h)
      rw [← find_filter_of_imp stA.versions _ _ himp, hcore,
        find_filter_of_imp stB.versions _ _ himp]
    -- the filtered history lists agree
    have hblock : ∀ c : CommitRow,
        ((stA.versions.filter (fun v => v.elementId == el &&
            v.commitHash == c.commitHash)).map (fun _ => c)).filter
          (fun d => d.commitHash != C && decide (d.timestamp < commit.timestamp)) =
        ((stB.versions.filter (fun v => v.elementId == el &&
            v.commitHash == c.commitHash)).map (fun _ => c)).filter
          (fun d => d.commitHash != C && decide (d.timestamp < commit.timestamp)) := by
      intro c
      rw [filter_map_const, filter_map_const]
      rcases hfc : (c.commitHash != C && decide (c.timestamp < commit.timestamp)) with _ | _
      · rfl
      · have hneC : c.commitHash ≠ C := bne_iff_ne.1 (band_elim hfc).1
        have himp : ∀ x : CodeElementVersion,
            (x.elementId == el && x.commitHash == c.commitHash) = true →
            (x.elementId == el && x.commitHash != C) = true := by
          intro x hx
          rcases band_elim hx with ⟨h1, h2⟩
          refine band_intro h1 ?_
          rw [bne_iff_ne]
          rw [eq_of_beq h2]
          exact hneC
        rw [if_pos rfl, if_pos rfl]
        have hfilt : stA.versions.filter (fun v => v.elementId == el &&
            v.commitHash == c.commitHash) = stB.versions.filter
              (fun v => v.elementId == el && v.commitHash == c.commitHash) := by
          rw [← filter_filter_of_imp stA.versions _ _ (fun x _ hx => himp x hx), hcore,
            filter_filter_of_imp stB.versions _ _ (fun x _ hx => himp x hx)]
        rw [hfilt]
    have hFH : (getCommitHistoryForElementId stA el).filter
        (fun d => d.commitHash != C && decide (d.timestamp < commit.timestamp)) =
      (getCommitHistoryForElementId stB el).filter
        (fun d => d.commitHash != C && decide (d.timestamp < commit.timestamp)) := by
      unfold getCommitHistoryForElementId
      rw [filter_sortDescBy, filter_sortDescBy]
      unfold historyJoin
      rw [filter_flatMap, filter_flatMap, hc]
      exact congrArg (sortDescBy (fun c => c.timestamp))
        (flatMap_congr_mem _ _ stB.commits (fun c _ => hblock c))
    rw [getPreviousVersions_unfold stA el C commit hcomm,
      getPreviousVersions_unfold stB el C commit hcommB]
    rw [hFH]
    have hfun : ∀ c ∈ (getCommitHistoryForElementId stB el).filter
        (fun d => d.commitHash != C && decide (d.timestamp < commit.timestamp)),
        getCodeElementVersions stA el c.commitHash =
          getCodeElementVersions stB el c.commitHash := by
      intro c hcm
      have hcp := (List.mem_filter.1 hcm).2
      exact hlook c.commitHash (bne_iff_ne.1 (band_elim hcp).1)
    rw [filterMap_congr_mem _ _ _ hfun]
    apply sortDescByOpt_congr
    intro v hv
    rcases List.mem_filterMap.1 hv with ⟨c, hcm, hg⟩
    have hcp := (List.mem_filter.1 hcm).2
    have hcneC : c.commitHash ≠ C := bne_iff_ne.1 (band_elim hcp).1
    have hfind : stB.versions.find?
        (fun x => x.elementId == el && x.commitHash == c.commitHash) = some v := hg
    have hvm := List.mem_of_find?_eq_some hfind
    have hvp := List.find?_some hfind
    rcases band_elim hvp with ⟨hvel, hvch⟩
    have hvE : v.elementId = el := eq_of_beq hvel
    have hvH : v.commitHash = c.commitHash := eq_of_beq hvch
    have hexB : ∃ w ∈ stB.versions, w.elementId = el ∧ w.commitHash = v.commitHash :=
      ⟨v, hvm, hvE, rfl⟩
    have hexA : ∃ w ∈ stA.versions, w.elementId = el ∧ w.commitHash = v.commitHash := by
      have hvcore : v ∈ stB.versions.filter
          (fun x => x.elementId == el && x.commitHash != C) := by
        refine List.mem_filter.2 ⟨hvm, band_intro hvel ?_⟩
        rw [bne_iff_ne, hvH]
        exact hcneC
      rw [← hcore] at hvcore
      exact ⟨v, (List.mem_filter.1 hvcore).1, hvE, rfl⟩
    rw [versionSortKey_char stA el hndA v hexA, versionSortKey_char stB el hndB v hexB, hc]

/-- Stores with equal tables are equal. -/
theorem store_eq_of_fields {s t : Store} (h1 : s.commits = t.commits)
    (h2 : s.elements = t.elements) (h3 : s.versions = t.versions)
    (h4 : s.decisions = t.decisions) (h5 : s.decisionLinks = t.decisionLinks)
    (h6 : s.fileHashes = t.fileHashes) : s = t := by
  cases s
  cases t
  simp only [] at h1 h2 h3 h4 h5 h6
  subst h1
  subst h2
  subst h3
  subst h4
  subst h5
  subst h6
  rfl

/-- The per-element step only writes the elements and versions tables. -/
theorem processFileElement_tables (hash : HashFn) (C : String) (st : Store)
    (e : CodeElement) :
    (processFileElement hash C st e).commits = st.commits ∧
    (processFileElement hash C st e).decisions = st.decisions ∧
    (processFileElement hash C st e).decisionLinks = st.decisionLinks ∧
    (processFileElement hash C st e).fileHashes = st.fileHashes := by
  simp only [processFileElement]
  split
  · exact ⟨rfl, rfl, rfl, rfl⟩
  · exact ⟨rfl, rfl, rfl, rfl⟩

/-- The per-element step upserts exactly the parsed element row. -/
theorem processFileElement_elements (hash : HashFn) (C : String) (st : Store)
    (e : CodeElement) :
    (processFileElement hash C st e).elements =
      st.elements.filter (fun x => !elemConflict e x) ++ [e] := by
  simp only [processFileElement]
  split
  · rfl
  · rfl

/-- The version row the per-element step leaves for (element, commit): the
fresh null row, linked to the head of getPreviousVersions when nonempty. -/
def stepVersionRow (hash : HashFn) (C : String) (st : Store) (e : CodeElement) :
    CodeElementVersion :=
  match getPreviousVersions (saveCodeElementVersion (saveCodeElement st e)
    (nullVersionRow hash e.elementId C (some (getNameFromIdentifier e.stableIdentifier))))
    e.elementId C with
  | [] => nullVersionRow hash e.elementId C (some (getNameFromIdentifier e.stableIdentifier))
  | p :: _ =>
    { nullVersionRow hash e.elementId C (some (getNameFromIdentifier e.stableIdentifier)) with
      previousVersionId := some p.versionId }

/-- The key fields of the step's version row. -/
theorem stepVersionRow_fields (hash : HashFn) (C : String) (st : Store) (e : CodeElement) :
    (stepVersionRow hash C st e).versionId = generateVersionId hash e.elementId C ∧
    (stepVersionRow hash C st e).elementId = e.elementId ∧
    (stepVersionRow hash C st e).commitHash = C := by
  unfold stepVersionRow
  split
  · exact ⟨rfl, rfl, rfl⟩
  · exact ⟨rfl, rfl, rfl⟩

/-- The per-element step upserts exactly its version row on the versions
table. -/
theorem processFileElement_versions (hash : HashFn) (C : String) (st : Store)
    (e : CodeElement) :
    (processFileElement hash C st e).versions =
      st.versions.filter (fun x => x.versionId != generateVersionId hash e.elementId C) ++
        [stepVersionRow hash C st e] := by
  simp only [processFileElement, stepVersionRow, nullVersionRow]
  cases hprev : getPreviousVersions (saveCodeElementVersion (saveCodeElement st e)
      { versionId := generateVersionId hash e.elementId C,
        elementId := e.elementId, commitHash := C,
        name := some (getNameFromIdentifier e.stableIdentifier),
        startLine := none, endLine := none, previousVersionId := none })
      e.elementId C with
  | nil => rfl
  | cons p t =>
    show (st.versions.filter (fun x => x.versionId != generateVersionId hash e.elementId C) ++
        [({ versionId := generateVersionId hash e.elementId C,
            elementId := e.elementId, commitHash := C,
            name := some (getNameFromIdentifier e.stableIdentifier),
            startLine := none, endLine := none,
            previousVersionId := none : CodeElementVersion })]).map
      (setPrev (generateVersionId hash e.elementId C) p.versionId) = _
    rw [List.map_append, List.map_singleton]
    have h1 : (st.versions.filter
        (fun x => x.versionId != generateVersionId hash e.elementId C)).map
          (setPrev (generateVersionId hash e.elementId C) p.versionId) =
        st.versions.filter (fun x => x.versionId != generateVersionId hash e.elementId C) := by
      apply map_fix_id
      intro x hx
      have hxf := (List.mem_filter.1 hx).2
      apply setPrev_of_ne
      simpa [bne] using hxf
    have h2 : setPrev (generateVersionId hash e.elementId C) p.versionId
        ({ versionId := generateVersionId hash e.elementId C,
           elementId := e.elementId, commitHash := C,
           name := some (getNameFromIdentifier e.stableIdentifier),
           startLine := none, endLine := none,
           previousVersionId := none : CodeElementVersion }) =
        { versionId := generateVersionId hash e.elementId C,
          elementId := e.elementId, commitHash := C,
          name := some (getNameFromIdentifier e.stableIdentifier),
          startLine := none, endLine := none,
          previousVersionId := some p.versionId } := by
      unfold setPrev
      rw [if_pos (by rw [beq_iff_eq])]
    rw [h1, h2]

/-- The per-element step leaves the version rows of other commits untouched
and keeps the table coherent. -/
theorem step_core (hash : HashFn) (C : String) (st : Store) (e : CodeElement)
    (hinj : Function.Injective hash) (helc : ':' ∉ e.elementId.data)
    (hcoh : versionsCoherent hash st) :
    (processFileElement hash C st e).versions.filter (fun v => v.commitHash != C) =
      st.versions.filter (fun v => v.commitHash != C) ∧
    versionsCoherent hash (processFileElement hash C st e) := by
  have himp : ∀ x ∈ st.versions, (x.commitHash != C) = true →
      (x.versionId != generateVersionId hash e.elementId C) = true := by
    intro x hx hxc
    rw [bne_iff_ne] at hxc
    rw [bne_iff_ne]
    intro hxv
    obtain ⟨hxcoh, hxcol⟩ := hcoh x hx
    have hgen : generateVersionId hash x.elementId x.commitHash =
        generateVersionId hash e.elementId C := by
      rw [← hxcoh]
      exact hxv
    rcases versionIdInput_inj _ _ _ _ hxcol helc (hinj hgen) with ⟨_, hxh⟩
    exact hxc hxh
  obtain ⟨hid, hel, hch⟩ := stepVersionRow_fields hash C st e
  constructor
  · rw [processFileElement_versions, List.filter_append]
    have h2 : [stepVersionRow hash C st e].filter (fun v => v.commitHash != C) = [] := by
      simp [hch]
    rw [h2, List.append_nil]
    exact filter_filter_of_imp st.versions _ _ himp
  · intro v hv
    rw [processFileElement_versions] at hv
    rcases List.mem_append.1 hv with h1 | h1
    · exact hcoh v (List.mem_filter.1 h1).1
    · rw [List.mem_singleton] at h1
      subst h1
      refine ⟨?_, ?_⟩
      · rw [hid, hel, hch]
      · rw [hel]
        exact helc

/-- The step's version row only depends on the commits table and the
version rows of other commits: states agreeing there produce the same
row. -/
theorem stepVersionRow_core (hash : HashFn) (C : String) (e : CodeElement)
    (stA stB : Store) (hinj : Function.Injective hash) (helc : ':' ∉ e.elementId.data)
    (hcommits : stA.commits = stB.commits) (hndA : commitsNodup stA)
    (hcohA : versionsCoherent hash stA) (hcohB : versionsCoherent hash stB)
    (hnotC : stA.versions.filter (fun v => v.commitHash != C) =
      stB.versions.filter (fun v => v.commitHash != C)) :
    stepVersionRow hash C stA e = stepVersionRow hash C stB e := by
  have hXcore : ∀ stX : Store, versionsCoherent hash stX →
      (saveCodeElementVersion (saveCodeElement stX e)
        (nullVersionRow hash e.elementId C
          (some (getNameFromIdentifier e.stableIdentifier)))).versions.filter
        (fun v => v.elementId == e.elementId && v.commitHash != C) =
      stX.versions.filter (fun v => v.elementId == e.elementId && v.commitHash != C) := by
    intro stX hcohX
    show ((stX.versions.filter (fun x => x.versionId !=
        (nullVersionRow hash e.elementId C
          (some (getNameFromIdentifier e.stableIdentifier))).versionId) ++
        [nullVersionRow hash e.elementId C
          (some (getNameFromIdentifier e.stableIdentifier))]).filter
      (fun v => v.elementId == e.elementId && v.commitHash != C)) = _
    rw [List.filter_append]
    have h2 : [nullVersionRow hash e.elementId C
        (some (getNameFromIdentifier e.stableIdentifier))].filter
        (fun v => v.elementId == e.elementId && v.commitHash != C) = [] := by
      simp [nullVersionRow]
    rw [h2, List.append_nil]
    apply filter_filter_of_imp
    intro x hx hxc
    rcases band_elim hxc with ⟨_, hxcC⟩
    rw [bne_iff_ne] at hxcC
    rw [bne_iff_ne]
    intro hxv
    obtain ⟨hxcoh, hxcol⟩ := hcohX x hx
    have hgen : generateVersionId hash x.elementId x.commitHash =
        generateVersionId hash e.elementId C := by
      rw [← hxcoh]
      exact hxv
    rcases versionIdInput_inj _ _ _ _ hxcol helc (hinj hgen) with ⟨_, hxh⟩
    exact hxcC hxh
  have helcore : stA.versions.filter
      (fun v => v.elementId == e.elementId && v.commitHash != C) =
      stB.versions.filter (fun v => v.elementId == e.elementId && v.commitHash != C) := by
    have himp2 : ∀ stX : Store, ∀ x ∈ stX.versions,
        (x.elementId == e.elementId && x.commitHash != C) = true →
        (x.commitHash != C) = true := by
      intro stX x _ hx
      exact (band_elim hx).2
    rw [← filter_filter_of_imp stA.versions _ _ (himp2 stA), hnotC,
      filter_filter_of_imp stB.versions _ _ (himp2 stB)]
  unfold stepVersionRow
  have hprevEq : getPreviousVersions (saveCodeElementVersion (saveCodeElement stA e)
      (nullVersionRow hash e.elementId C
        (some (getNameFromIdentifier e.stableIdentifier)))) e.elementId C =
    getPreviousVersions (saveCodeElementVersion (saveCodeElement stB e)
      (nullVersionRow hash e.elementId C
        (some (getNameFromIdentifier e.stableIdentifier)))) e.elementId C := by
    apply getPreviousVersions_core
    · exact hcommits
    · exact hndA
    · rw [hXcore stA hcohA, hXcore stB hcohB]
      exact helcore
  rw [hprevEq]

/-- Generic keyed INSERT OR REPLACE on a table: drop conflicting rows,
append the new row. -/
def upsertRow {α : Type} (conf : α → α → Bool) (l : List α) (w : α) : List α :=
  l.filter (fun x => !conf w x) ++ [w]

/-- No write of the list conflicts with the row. -/
def noConf {α : Type} (conf : α → α → Bool) (ws : List α) (x : α) : Bool :=
  ws.all (fun w => !conf w x)

/-- Normal form of an upsert sequence: surviving old rows, then the rows
the sequence itself leaves. -/
theorem foldl_upsertRow_norm {α : Type} (conf : α → α → Bool) :
    ∀ (ws : List α) (l : List α),
      ws.foldl (upsertRow conf) l =
        l.filter (noConf conf ws) ++ ws.foldl (upsertRow conf) [] := by
  intro ws
  induction ws with
  | nil =>
    intro l
    show l = l.filter (noConf conf []) ++ []
    rw [List.append_nil]
    symm
    apply List.filter_eq_self.2
    intro x _
    rfl
  | cons w ws ih =>
    intro l
    rw [List.foldl_cons, ih (upsertRow conf l w), List.foldl_cons,
      ih (upsertRow conf [] w), ← List.append_assoc]
    congr 1
    show ((l.filter (fun x => !conf w x) ++ [w]).filter (noConf conf ws)) = _
    rw [List.filter_append]
    congr 1
    have hpt : ∀ x : α, noConf conf (w :: ws) x = (noConf conf ws x && !conf w x) := by
      intro x
      show (w :: ws).all (fun w' => !conf w' x) = _
      rw [List.all_cons]
      exact Bool.and_comm _ _
    rw [List.filter_filter]
    exact List.filter_congr (fun x _ => (hpt x).symm)

/-- Members of an upsert fold come from the base table or the writes. -/
theorem mem_foldl_upsertRow {α : Type} (conf : α → α → Bool) :
    ∀ (ws : List α) (l : List α) (x : α),
      x ∈ ws.foldl (upsertRow conf) l → x ∈ l ∨ x ∈ ws := by
  intro ws
  induction ws with
  | nil =>
    intro l x hx
    exact Or.inl hx
  | cons w t ih =>
    intro l x hx
    rw [List.foldl_cons] at hx
    rcases ih _ x hx with h1 | h1
    · rcases List.mem_append.1 h1 with h2 | h2
      · exact Or.inl (List.mem_of_mem_filter h2)
      · rw [List.mem_singleton] at h2
        exact Or.inr (h2 ▸ List.mem_cons_self w t)
    · exact Or.inr (List.mem_cons_of_mem w h1)

/-- Replaying an upsert sequence is the identity: the second pass deletes
exactly the rows the first pass appended and re-appends them in order. -/
theorem foldl_upsertRow_replay {α : Type} (conf : α → α → Bool)
    (hrefl : ∀ w, conf w w = true) (ws : List α) (l : List α) :
    ws.foldl (upsertRow conf) (ws.foldl (upsertRow conf) l) =
      ws.foldl (upsertRow conf) l := by
  rw [foldl_upsertRow_norm conf ws (ws.foldl (upsertRow conf) l),
    foldl_upsertRow_norm conf ws l, List.filter_append,
    filter_filter_of_imp l (noConf conf ws) (noConf conf ws) (fun x _ h => h)]
  have hcanon : (ws.foldl (upsertRow conf) []).filter (noConf conf ws) = [] := by
    rw [List.filter_eq_nil_iff]
    intro x hx
    rcases mem_foldl_upsertRow conf ws [] x hx with h1 | h1
    · cases h1
    · intro hnc
      have hall := List.all_eq_true.1 hnc x h1
      rw [hrefl x] at hall
      simp at hall
  rw [hcanon, List.append_nil]

/-- The version-table conflict: same version_id primary key. -/
def versionConflict (w x : CodeElementVersion) : Bool := x.versionId == w.versionId

/-- versionConflict is reflexive. -/
theorem versionConflict_refl (w : CodeElementVersion) : versionConflict w w = true := by
  simp [versionConflict]

/-- elemConflict is reflexive. -/
theorem elemConflict_refl (e : CodeElement) : elemConflict e e = true := by
  simp [elemConflict]

/-- Over any state agreeing with the reference state on the commits table
and on the version rows of other commits, the element loop is a pair of
pure upsert folds whose version rows are computed from the reference state;
the agreement and coherence persist. -/
theorem run_shape (hash : HashFn) (C : String) (st0 : Store)
    (hinj : Function.Injective hash) (hcnd0 : commitsNodup st0)
    (hcoh0 : versionsCoherent hash st0) :
    ∀ (E : List CodeElement) (st : Store),
      (∀ e ∈ E, ':' ∉ e.elementId.data) →
      st.commits = st0.commits →
      st.versions.filter (fun v => v.commitHash != C) =
        st0.versions.filter (fun v => v.commitHash != C) →
      versionsCoherent hash st →
      (E.foldl (processFileElement hash C) st =
        { st with
          elements := E.foldl (upsertRow elemConflict) st.elements,
          versions := (E.map (stepVersionRow hash C st0)).foldl
            (upsertRow versionConflict) st.versions }) ∧
      (E.foldl (processFileElement hash C) st).commits = st0.commits ∧
      (E.foldl (processFileElement hash C) st).versions.filter
        (fun v => v.commitHash != C) =
        st0.versions.filter (fun v => v.commitHash != C) ∧
      versionsCoherent hash (E.foldl (processFileElement hash C) st) := by
  intro E
  induction E with
  | nil =>
    intro st _ hcomm hnotC hcoh
    exact ⟨rfl, hcomm, hnotC, hcoh⟩
  | cons e E ih =>
    intro st hE hcomm hnotC hcoh
    have helc : ':' ∉ e.elementId.data := hE e (List.mem_cons_self e E)
    have hcnd : commitsNodup st := by
      show (st.commits.map (fun c => c.commitHash)).Nodup
      rw [hcomm]
      exact hcnd0
    have hrow : stepVersionRow hash C st e = stepVersionRow hash C st0 e :=
      stepVersionRow_core hash C e st st0 hinj helc hcomm hcnd hcoh hcoh0 hnotC
    obtain ⟨hid0, _, _⟩ := stepVersionRow_fields hash C st0 e
    have hstep : processFileElement hash C st e =
        { st with
          elements := upsertRow elemConflict st.elements e,
          versions := upsertRow versionConflict st.versions
            (stepVersionRow hash C st0 e) } := by
      obtain ⟨ht1, ht2, ht3, ht4⟩ := processFileElement_tables hash C st e
      apply store_eq_of_fields
      · exact ht1
      · rw [processFileElement_elements]
        rfl
      · rw [processFileElement_versions, hrow]
        show st.versions.filter
            (fun x => x.versionId != generateVersionId hash e.elementId C) ++
            [stepVersionRow hash C st0 e] =
          st.versions.filter (fun x =>
            !versionConflict (stepVersionRow hash C st0 e) x) ++
            [stepVersionRow hash C st0 e]
        congr 1
        apply List.filter_congr
        intro x _
        show (x.versionId != generateVersionId hash e.elementId C) =
          !(x.versionId == (stepVersionRow hash C st0 e).versionId)
        rw [hid0]
        rfl
      · exact ht2
      · exact ht3
      · exact ht4
    have hcomm2 : (processFileElement hash C st e).commits = st0.commits := by
      rw [(processFileElement_tables hash C st e).1, hcomm]
    have hnotC2 : (processFileElement hash C st e).versions.filter
        (fun v => v.commitHash != C) =
        st0.versions.filter (fun v => v.commitHash != C) := by
      rw [(step_core hash C st e hinj helc hcoh).1, hnotC]
    have hcoh2 : versionsCoherent hash (processFileElement hash C st e) :=
      (step_core hash C st e hinj helc hcoh).2
    have hEtail : ∀ x ∈ E, ':' ∉ x.elementId.data :=
      fun x hx => hE x (List.mem_cons_of_mem e hx)
    obtain ⟨ihEq, ihC, ihN, ihCoh⟩ := ih (processFileElement hash C st e)
      hEtail hcomm2 hnotC2 hcoh2
    rw [List.foldl_cons]
    refine ⟨?_, ihC, ihN, ihCoh⟩
    rw [ihEq, hstep]
    rfl

/-- The elements contributed by one changed file, after the size and
parseability gates. -/
def fileElems (hash : HashFn) (env : WorldEnv) (repoPath repoId : String)
    (f : String) : List CodeElement :=
  match env.statSize (repoPath ++ "/" ++ f) with
  | none => []
  | some size =>
    if maxFileSizeBytes < size then []
    else if !canParseFile (repoPath ++ "/" ++ f) then []
    else parseFile hash env (repoPath ++ "/" ++ f) repoId

/-- The elements processed by a commit run, in processing order. -/
def commitElems (hash : HashFn) (env : WorldEnv) (repoPath repoId : String)
    (stdout : String) : List CodeElement :=
  (changedFilesOf stdout).flatMap (fileElems hash env repoPath repoId)

/-- With the cache disabled, processing one file is the element loop over
the file's contributed elements. -/
theorem processFile_false_elems (hash : HashFn) (env : WorldEnv)
    (repoPath repoId C : String) (st : Store) (f : String) :
    processFile hash env false repoPath repoId C st f =
      (fileElems hash env repoPath repoId f).foldl (processFileElement hash C) st := by
  simp only [processFile, fileElems]
  cases env.statSize (repoPath ++ "/" ++ f) with
  | none => rfl
  | some size =>
    by_cases hsize : maxFileSizeBytes < size
    · simp only [if_pos hsize]
      rfl
    · simp only [if_neg hsize]
      by_cases hparse : canParseFile (repoPath ++ "/" ++ f)
      · simp only [hparse, Bool.not_true, Bool.false_eq_true, if_false]
      · simp only [Bool.not_eq_true] at hparse
        simp only [hparse, Bool.not_false, if_true]
        rfl

/-- Folding over a flatMap folds over each chunk in turn. -/
theorem foldl_flatMap {α β σ : Type} (g : α → List β) (f : σ → β → σ) :
    ∀ (l : List α) (s : σ),
      (l.flatMap g).foldl f s = l.foldl (fun s a => (g a).foldl f s) s := by
  intro l
  induction l with
  | nil => intro s; rfl
  | cons x t ih =>
    intro s
    rw [List.flatMap_cons, List.foldl_append, List.foldl_cons, ih]

/-- foldl only looks at its step function pointwise. -/
theorem foldl_congr_fun {α σ : Type} (f g : σ → α → σ) (hfg : ∀ s a, f s a = g s a) :
    ∀ (l : List α) (s : σ), l.foldl f s = l.foldl g s := by
  intro l
  induction l with
  | nil => intro s; rfl
  | cons x t ih =>
    intro s
    rw [List.foldl_cons, List.foldl_cons, hfg s x, ih]

/-- With the cache disabled and the commit visible, processCommit is the
element loop over the commit's contributed elements. -/
theorem processCommit_false_elems (hash : HashFn) (env : WorldEnv)
    (repoPath repoId C : String) (st : Store) (stdout : String)
    (h1 : env.hasCommit repoPath C = true) (h2 : env.gitShow repoPath C = some stdout) :
    processCommit hash env false repoPath repoId C st =
      (commitElems hash env repoPath repoId stdout).foldl (processFileElement hash C) st := by
  rw [processCommit]
  simp only [h1, Bool.not_true, Bool.false_eq_true, if_false, h2]
  unfold commitElems
  rw [foldl_flatMap]
  exact foldl_congr_fun _ _
    (fun s f => processFile_false_elems hash env repoPath repoId C s f) _ st

/-- Every element of a commit run comes from parsing one of its files. -/
theorem mem_commitElems (hash : HashFn) (env : WorldEnv) (repoPath repoId stdout : String)
    (e : CodeElement) (he : e ∈ commitElems hash env repoPath repoId stdout) :
    ∃ f, e ∈ parseFile hash env (repoPath ++ "/" ++ f) repoId := by
  rcases List.mem_flatMap.1 he with ⟨f, _, hef⟩
  refine ⟨f, ?_⟩
  rw [fileElems] at hef
  rcases hss : env.statSize (repoPath ++ "/" ++ f) with _ | size
  · simp only [hss] at hef
    exact absurd hef (List.not_mem_nil e)
  · simp only [hss] at hef
    by_cases hsize : maxFileSizeBytes < size
    · rw [if_pos hsize] at hef
      exact absurd hef (List.not_mem_nil e)
    · rw [if_neg hsize] at hef
      by_cases hparse : (!canParseFile (repoPath ++ "/" ++ f)) = true
      · rw [if_pos hparse] at hef
        exact absurd hef (List.not_mem_nil e)
      · rw [if_neg hparse] at hef
        exact hef

/-- With the file cache disabled, reprocessing a commit leaves the store
exactly as after the first run: each element and version write recomputes
the same deterministic id from the same parsed input, the second pass's
upserts delete precisely the rows the first pass appended and re-append
them in order, and the recomputed previous-version links agree because
getPreviousVersions only depends on the commits table and on the version
rows of other commits, which neither run touches. -/
theorem processCommit_cacheOff_idem (hash : HashFn) (env : WorldEnv)
    (repoPath repoId C : String) (st0 : Store)
    (hinj : Function.Injective hash) (hcolh : ∀ s, ':' ∉ (hash s).data)
    (hcoh0 : versionsCoherent hash st0) (hcnd0 : commitsNodup st0) :
    processCommit hash env false repoPath repoId C
        (processCommit hash env false repoPath repoId C st0) =
      processCommit hash env false repoPath repoId C st0 := by
  by_cases h1 : env.hasCommit repoPath C = true
  · rcases h2 : env.gitShow repoPath C with _ | stdout
    · have habort : ∀ st : Store, processCommit hash env false repoPath repoId C st = st := by
        intro st
        rw [processCommit]
        simp only [h1, Bool.not_true, Bool.false_eq_true, if_false, h2]
      rw [habort, habort]
    · have hE : ∀ e ∈ commitElems hash env repoPath repoId stdout,
          ':' ∉ e.elementId.data := by
        intro e he
        rcases mem_commitElems hash env repoPath repoId stdout e he with ⟨f, hf⟩
        rcases parseFile_elementId_digest hash env (repoPath ++ "/" ++ f) repoId e hf with
          ⟨s, hs⟩
        rw [hs]
        exact hcolh s
      rw [processCommit_false_elems hash env repoPath repoId C st0 stdout h1 h2,
        processCommit_false_elems hash env repoPath repoId C _ stdout h1 h2]
      obtain ⟨hshape0, hC1, hN1, hcoh1⟩ := run_shape hash C st0 hinj hcnd0 hcoh0
        (commitElems hash env repoPath repoId stdout) st0 hE rfl rfl hcoh0
      obtain ⟨hshape1, _, _, _⟩ := run_shape hash C st0 hinj hcnd0 hcoh0
        (commitElems hash env repoPath repoId stdout)
        ((commitElems hash env repoPath repoId stdout).foldl (processFileElement hash C) st0)
        hE hC1 hN1 hcoh1
      rw [hshape1, hshape0]
      apply store_eq_of_fields
      · rfl
      · exact foldl_upsertRow_replay elemConflict elemConflict_refl _ st0.elements
      · exact foldl_upsertRow_replay versionConflict versionConflict_refl _ st0.versions
      · rfl
      · rfl
      · rfl
  · have hfalse : env.hasCommit repoPath C = false := by
      rcases h : env.hasCommit repoPath C with _ | _
      · rfl
      · exact absurd h h1
    have habort : ∀ st : Store, processCommit hash env false repoPath repoId C st = st := by
      intro st
      rw [processCommit]
      simp only [hfalse, Bool.not_false, if_true]
    rw [habort, habort]

/-- The environment of the C1 witness: two commits touching one TypeScript
file. -/
def c1Env : WorldEnv :=
  { readFile := fun _ => some "content",
    tree := fun _ => SyntaxNode.mk "program" none [],
    sha1 := fun _ => "h1",
    statSize := fun _ => some 10,
    hasCommit := fun _ h => h == "c1" || h == "c2",
    gitShow := fun _ _ => some "x.ts" }

/-- The C1 witness start state: both commit rows saved and the first commit
already processed, so reprocessing the second commit relinks a chain. -/
def c1Store0 : Store :=
  processCommit sepHash c1Env false "/repo" "r" "c1"
    (saveCommit (saveCommit emptyStore ⟨"c1", "r", "m", 1, "a", "a"⟩)
      ⟨"c2", "r", "m", 2, "a", "a"⟩)


/-- Looking up the key just written by saveFileHash finds the new hash. -/
theorem getFileHash_saveFileHash_same (st : Store) (r p h : String) :
    getFileHash (saveFileHash st r p h) r p = some h := by
  show ((st.fileHashes.filter (fun row => !(row.1 == r && row.2.1 == p)) ++
      [(r, p, h)]).find? (fun row => row.1 == r && row.2.1 == p)).map
      (fun row => row.2.2) = some h
  rw [find_append_of_none]
  · rw [List.find?_cons_of_pos _ (by simp)]
    rfl
  · rw [List.find?_eq_none]
    intro x hx hpx
    have hxf := (List.mem_filter.1 hx).2
    rw [hpx] at hxf
    simp at hxf

/-- saveFileHash leaves other file keys untouched. -/
theorem getFileHash_saveFileHash_other (st : Store) (r p h p' : String) (hne : p' ≠ p) :
    getFileHash (saveFileHash st r p h) r p' = getFileHash st r p' := by
  have himp : ∀ x : String × String × String,
      (x.1 == r && x.2.1 == p') = true → (!(x.1 == r && x.2.1 == p)) = true := by
    intro x hx
    rcases band_elim hx with ⟨hx1, hx2⟩
    have hx2' : x.2.1 = p' := eq_of_beq hx2
    rcases hb : (x.1 == r && x.2.1 == p) with _ | _
    · rfl
    · exfalso
      have := eq_of_beq (band_elim hb).2
      exact hne (by rw [← hx2', this])
  have hfilter : (st.fileHashes.filter (fun row => !(row.1 == r && row.2.1 == p))).find?
      (fun row => row.1 == r && row.2.1 == p') =
      st.fileHashes.find? (fun row => row.1 == r && row.2.1 == p') :=
    find_filter_of_imp _ _ _ himp
  have hrow : (((r, p, h) : String × String × String).1 == r &&
      ((r, p, h) : String × String × String).2.1 == p') = false := by
    rcases hb : (((r, p, h) : String × String × String).1 == r &&
        ((r, p, h) : String × String × String).2.1 == p') with _ | _
    · rfl
    · exact absurd (eq_of_beq (band_elim hb).2).symm hne
  show ((st.fileHashes.filter (fun row => !(row.1 == r && row.2.1 == p)) ++
      [(r, p, h)]).find? (fun row => row.1 == r && row.2.1 == p')).map
      (fun row => row.2.2) =
    (st.fileHashes.find? (fun row => row.1 == r && row.2.1 == p')).map (fun row => row.2.2)
  rcases hf : st.fileHashes.find? (fun row => row.1 == r && row.2.1 == p') with _ | row
  · rw [find_append_of_none _ _ _ (by rw [hfilter]; exact hf),
      List.find?_cons_of_neg _ (by rw [hrow]; exact Bool.false_ne_true), hf]
    rfl
  · rw [find_append_of_some _ _ _ (by rw [hfilter]; exact hf), hf]

/-- The element loop never writes the file_hashes table. -/
theorem foldl_processFileElement_fileHashes (hash : HashFn) (C : String) :
    ∀ (els : List CodeElement) (st : Store),
      (els.foldl (processFileElement hash C) st).fileHashes = st.fileHashes := by
  intro els
  induction els with
  | nil =>
    intro st
    rfl
  | cons e t ih =>
    intro st
    rw [List.foldl_cons, ih, (processFileElement_tables hash C st e).2.2.2]

/-- The first run's guarantee: if the file passes the gates and its content
is readable, the store carries its current content hash. -/
def hashStored (env : WorldEnv) (repoPath repoId : String) (st : Store) (f : String) : Prop :=
  ∀ size h, env.statSize (repoPath ++ "/" ++ f) = some size →
    ¬ maxFileSizeBytes < size →
    canParseFile (repoPath ++ "/" ++ f) = true →
    (env.readFile (repoPath ++ "/" ++ f)).map env.sha1 = some h →
    getFileHash st repoId (repoPath ++ "/" ++ f) = some h

/-- Control-flow shape of a cache-enabled processFile call: either the file
is gated out or unreadable (a store-independent no-op), or its content is
read and the call either skips on a matching stored hash or runs the
element loop and saves the nonempty hash. -/
theorem processFile_true_shape (hash : HashFn) (env : WorldEnv)
    (repoPath repoId C : String) (f : String) :
    ((∀ st : Store, processFile hash env true repoPath repoId C st f = st) ∧
      (env.statSize (repoPath ++ "/" ++ f) = none ∨
        (∃ size, env.statSize (repoPath ++ "/" ++ f) = some size ∧
          maxFileSizeBytes < size) ∨
        canParseFile (repoPath ++ "/" ++ f) = false ∨
        env.readFile (repoPath ++ "/" ++ f) = none)) ∨
    (∃ size content, env.statSize (repoPath ++ "/" ++ f) = some size ∧
      ¬ maxFileSizeBytes < size ∧ canParseFile (repoPath ++ "/" ++ f) = true ∧
      env.readFile (repoPath ++ "/" ++ f) = some content ∧
      ∀ st : Store,
        (getFileHash st repoId (repoPath ++ "/" ++ f) = some (env.sha1 content) →
          processFile hash env true repoPath repoId C st f = st) ∧
        ((getFileHash st repoId (repoPath ++ "/" ++ f) == some (env.sha1 content)) = false →
          processFile hash env true repoPath repoId C st f =
            (if env.sha1 content ≠ "" then
              saveFileHash ((parseFile hash env (repoPath ++ "/" ++ f) repoId).foldl
                (processFileElement hash C) st) repoId (repoPath ++ "/" ++ f)
                (env.sha1 content)
            else (parseFile hash env (repoPath ++ "/" ++ f) repoId).foldl
              (processFileElement hash C) st))) := by
  rcases hss : env.statSize (repoPath ++ "/" ++ f) with _ | size
  · left
    refine ⟨fun st => ?_, Or.inl rfl⟩
    simp only [processFile, hss]
  · by_cases hsize : maxFileSizeBytes < size
    · left
      refine ⟨fun st => ?_, Or.inr (Or.inl ⟨size, rfl, hsize⟩)⟩
      simp only [processFile, hss, if_pos hsize]
    · by_cases hparse : canParseFile (repoPath ++ "/" ++ f) = true
      · rcases hrf : env.readFile (repoPath ++ "/" ++ f) with _ | content
        · left
          refine ⟨fun st => ?_, Or.inr (Or.inr (Or.inr rfl))⟩
          simp only [processFile, parseFile, hss, if_neg hsize, hparse, Bool.not_true,
            Bool.false_eq_true, if_false, hrf, Option.map_none', if_true]
          rfl
        · right
          have hread : (env.readFile (repoPath ++ "/" ++ f)).map env.sha1 =
              some (env.sha1 content) := by
            rw [hrf]
            rfl
          refine ⟨size, content, rfl, hsize, hparse, rfl, fun st => ⟨?_, ?_⟩⟩
          · intro hstored
            simp only [processFile, hss, if_neg hsize, hparse, Bool.not_true,
              Bool.false_eq_true, if_false]
            simp only [if_true, hread, hstored, beq_self_eq_true, if_pos]
          · intro hns
            simp only [processFile, hss, if_neg hsize, hparse, Bool.not_true,
              Bool.false_eq_true, if_false]
            simp only [if_true, hread, hns, Bool.false_eq_true, if_false]
      · left
        have hparse' : canParseFile (repoPath ++ "/" ++ f) = false := by
          rcases hb : canParseFile (repoPath ++ "/" ++ f) with _ | _
          · rfl
          · exact absurd hb hparse
        refine ⟨fun st => ?_, Or.inr (Or.inr (Or.inl hparse'))⟩
        simp only [processFile, hss, if_neg hsize, hparse', Bool.not_false, if_true]

/-- Processing any file preserves the stored-hash guarantee of a file. -/
theorem hashStored_processFile (hash : HashFn) (env : WorldEnv)
    (repoPath repoId C : String) (f g : String) (st : Store)
    (hf : hashStored env repoPath repoId st f) :
    hashStored env repoPath repoId (processFile hash env true repoPath repoId C st g) f := by
  rcases processFile_true_shape hash env repoPath repoId C g with ⟨hid, _⟩ |
    ⟨size, content, hss, hsize, hparse, hrf, hbr⟩
  · rw [hid st]
    exact hf
  · obtain ⟨hskip, hproc⟩ := hbr st
    rcases hb : (getFileHash st repoId (repoPath ++ "/" ++ g) ==
        some (env.sha1 content)) with _ | _
    · rw [hproc hb]
      intro size' h' hss' hsize' hparse' hmap'
      have hgfEq : ∀ r p, getFileHash ((parseFile hash env (repoPath ++ "/" ++ g)
          repoId).foldl (processFileElement hash C) st) r p = getFileHash st r p := by
        intro r p
        unfold getFileHash
        rw [foldl_processFileElement_fileHashes]
      by_cases hemp : env.sha1 content = ""
      · rw [if_neg (fun hc => hc hemp), hgfEq]
        exact hf size' h' hss' hsize' hparse' hmap'
      · rw [if_pos hemp]
        by_cases hpp : (repoPath ++ "/" ++ f) = (repoPath ++ "/" ++ g)
        · rw [hpp, getFileHash_saveFileHash_same]
          rw [hpp, hrf] at hmap'
          exact congrArg some (Option.some.inj hmap')
        · rw [getFileHash_saveFileHash_other _ _ _ _ _ hpp, hgfEq]
          exact hf size' h' hss' hsize' hparse' hmap'
    · rw [hskip (eq_of_beq hb)]
      exact hf

/-- Processing a file establishes its own stored-hash guarantee, since the
digest of a string is never empty. -/
theorem hashStored_self (hash : HashFn) (env : WorldEnv)
    (repoPath repoId C : String) (hsha : ∀ s, env.sha1 s ≠ "") (g : String) (st : Store) :
    hashStored env repoPath repoId (processFile hash env true repoPath repoId C st g) g := by
  rcases processFile_true_shape hash env repoPath repoId C g with ⟨hid, hgate⟩ |
    ⟨size, content, hss, hsize, hparse, hrf, hbr⟩
  · rw [hid st]
    intro size' h' hss' hsize' hparse' hmap'
    exfalso
    rcases hgate with h1 | ⟨sz, hsz1, hsz2⟩ | h1 | h1
    · rw [h1] at hss'
      cases hss'
    · rw [hsz1] at hss'
      exact hsize' ((Option.some.inj hss') ▸ hsz2)
    · rw [hparse'] at h1
      cases h1
    · rw [h1] at hmap'
      cases hmap'
  · obtain ⟨hskip, hproc⟩ := hbr st
    rcases hb : (getFileHash st repoId (repoPath ++ "/" ++ g) ==
        some (env.sha1 content)) with _ | _
    · rw [hproc hb]
      intro size' h' _ _ _ hmap'
      have hh' : h' = env.sha1 content := by
        rw [hrf] at hmap'
        exact (Option.some.inj hmap').symm
      rw [if_pos (hsha content), getFileHash_saveFileHash_same, hh']
    · have hst := eq_of_beq hb
      rw [hskip hst]
      intro size' h' _ _ _ hmap'
      have hh' : h' = env.sha1 content := by
        rw [hrf] at hmap'
        exact (Option.some.inj hmap').symm
      rw [hst, hh']

/-- The stored-hash guarantee survives the rest of the run. -/
theorem hashStored_foldl (hash : HashFn) (env : WorldEnv) (repoPath repoId C : String) :
    ∀ (gs : List String) (st : Store) (f : String),
      hashStored env repoPath repoId st f →
      hashStored env repoPath repoId
        (gs.foldl (processFile hash env true repoPath repoId C) st) f := by
  intro gs
  induction gs with
  | nil =>
    intro st f hf
    exact hf
  | cons g t ih =>
    intro st f hf
    rw [List.foldl_cons]
    exact ih _ f (hashStored_processFile hash env repoPath repoId C f g st hf)

/-- After a cache-enabled run, every processed file's content hash is
stored. -/
theorem hashStored_run (hash : HashFn) (env : WorldEnv) (repoPath repoId C : String)
    (hsha : ∀ s, env.sha1 s ≠ "") :
    ∀ (files : List String) (st : Store) (f : String), f ∈ files →
      hashStored env repoPath repoId
        (files.foldl (processFile hash env true repoPath repoId C) st) f := by
  intro files
  induction files with
  | nil =>
    intro st f hf
    cases hf
  | cons g gs ih =>
    intro st f hf
    rw [List.foldl_cons]
    rcases List.mem_cons.1 hf with rfl | h2
    · exact hashStored_foldl hash env repoPath repoId C gs _ f
        (hashStored_self hash env repoPath repoId C hsha f st)
    · exact ih _ f h2

/-- With its content hash stored, a cache-enabled processFile call is the
identity. -/
theorem processFile_true_identity (hash : HashFn) (env : WorldEnv)
    (repoPath repoId C : String) (st : Store) (f : String)
    (hf : hashStored env repoPath repoId st f) :
    processFile hash env true repoPath repoId C st f = st := by
  rcases processFile_true_shape hash env repoPath repoId C f with ⟨hid, _⟩ |
    ⟨size, content, hss, hsize, hparse, hrf, hbr⟩
  · exact hid st
  · have hmap : (env.readFile (repoPath ++ "/" ++ f)).map env.sha1 =
        some (env.sha1 content) := by
      rw [hrf]
      rfl
    exact (hbr st).1 (hf size (env.sha1 content) hss hsize hparse hmap)

/-- A fold of per-file identities is the identity. -/
theorem foldl_processFile_identity (hash : HashFn) (env : WorldEnv)
    (repoPath repoId C : String) :
    ∀ (files : List String) (st : Store),
      (∀ f ∈ files, processFile hash env true repoPath repoId C st f = st) →
      files.foldl (processFile hash env true repoPath repoId C) st = st := by
  intro files
  induction files with
  | nil =>
    intro st _
    rfl
  | cons g gs ih =>
    intro st hid
    rw [List.foldl_cons, hid g (List.mem_cons_self g gs)]
    exact ih st (fun f hf => hid f (List.mem_cons_of_mem g hf))

/-- With the file cache enabled, reprocessing a commit is a no-op: the
first run leaves each processed file's content hash stored, so the second
run takes the skip branch on every file (the digest of a content string is
never empty, as with real sha1 hex digests). -/
theorem processCommit_cacheOn_idem (hash : HashFn) (env : WorldEnv)
    (repoPath repoId C : String) (st0 : Store) (hsha : ∀ s, env.sha1 s ≠ "") :
    processCommit hash env true repoPath repoId C
        (processCommit hash env true repoPath repoId C st0) =
      processCommit hash env true repoPath repoId C st0 := by
  by_cases h1 : env.hasCommit repoPath C = true
  · rcases h2 : env.gitShow repoPath C with _ | stdout
    · have habort : ∀ st : Store, processCommit hash env true repoPath repoId C st = st := by
        intro st
        rw [processCommit]
        simp only [h1, Bool.not_true, Bool.false_eq_true, if_false, h2]
      rw [habort, habort]
    · have hrun : ∀ st : Store, processCommit hash env true repoPath repoId C st =
          (changedFilesOf stdout).foldl (processFile hash env true repoPath repoId C) st := by
        intro st
        rw [processCommit]
        simp only [h1, Bool.not_true, Bool.false_eq_true, if_false, h2]
      rw [hrun st0, hrun]
      apply foldl_processFile_identity
      intro f hf
      exact processFile_true_identity hash env repoPath repoId C _ f
        (hashStored_run hash env repoPath repoId C hsha (changedFilesOf stdout) st0 f hf)
  · have hfalse : env.hasCommit repoPath C = false := by
      rcases h : env.hasCommit repoPath C with _ | _
      · rfl
      · exact absurd h h1
    have habort : ∀ st : Store, processCommit hash env true repoPath repoId C st = st := by
      intro st
      rw [processCommit]
      simp only [hfalse, Bool.not_false, if_true]
    rw [habort, habort]

/-- C1: for either cache setting, reprocessing an already-processed commit
leaves the store exactly as after the first run.  With the cache disabled,
every element and version write recomputes the same deterministic id from
the same parsed input and upserts onto the row the first run wrote (the
second pass deletes precisely the rows the first pass appended and
re-appends them in order, and the recomputed previous-version links agree
because getPreviousVersions only depends on data neither run touches).
With the cache enabled, the first run's file-hash writes store each
processed file's content hash, so the second run takes the skip branch on
every file.  The store is assumed digest-coherent on versions with unique
commit hashes, the digest injective with colon-free output, and the content
digest nonempty (as real sha1 hex digests are). -/
theorem c1_processCommit_idempotent (hash : HashFn) (env : WorldEnv)
    (repoPath repoId C : String) (st0 : Store)
    (hinj : Function.Injective hash) (hcolh : ∀ s, ':' ∉ (hash s).data)
    (hcoh0 : versionsCoherent hash st0) (hcnd0 : commitsNodup st0)
    (hsha : ∀ s, env.sha1 s ≠ "") :
    ∀ cache : Bool,
      processCommit hash env cache repoPath repoId C
          (processCommit hash env cache repoPath repoId C st0) =
        processCommit hash env cache repoPath repoId C st0 := by
  intro cache
  cases cache with
  | false =>
    exact processCommit_cacheOff_idem hash env repoPath repoId C st0 hinj hcolh hcoh0 hcnd0
  | true =>
    exact processCommit_cacheOn_idem hash env repoPath repoId C st0 hsha

/-- Witness for C1: on a concrete coherent store, processing commit c2
twice equals processing it once, with the cache enabled and disabled. -/
theorem c1_witness :
    versionsCoherent sepHash c1Store0 ∧ commitsNodup c1Store0 ∧
    c1Env.sha1 "content" ≠ "" ∧
    (processCommit sepHash c1Env true "/repo" "r" "c2"
        (processCommit sepHash c1Env true "/repo" "r" "c2" c1Store0) =
      processCommit sepHash c1Env true "/repo" "r" "c2" c1Store0) ∧
    (processCommit sepHash c1Env false "/repo" "r" "c2"
        (processCommit sepHash c1Env false "/repo" "r" "c2" c1Store0) =
      processCommit sepHash c1Env false "/repo" "r" "c2" c1Store0) :=
  ⟨by decide, by decide, by decide,
    c1_processCommit_idempotent sepHash c1Env "/repo" "r" "c2" c1Store0 sepHash_injective
      sepHash_no_colon (by decide) (by decide)
      (fun s => by show ("h1" : String) ≠ ""; decide) true,
    c1_processCommit_idempotent sepHash c1Env "/repo" "r" "c2" c1Store0 sepHash_injective
      sepHash_no_colon (by decide) (by decide)
      (fun s => by show ("h1" : String) ≠ ""; decide) false⟩
